import Mathlib

set_option maxHeartbeats 1000000

/-!
Shallow embedding of the `box_intersect_ze` crate (broad-phase box intersection
after Zomorodian and Edelsbrunner).

Modelling choices:
* The numeric endpoint type `B::Num` is instantiated with `EInt`, the integers
  extended with a bottom and a top element.  This is a linear order with
  designated `NINFTY = ⊥` and `INFTY = ⊤` sentinels, a faithful model of the
  claims' hypothesis that all endpoints are pairwise comparable.
* Identifiers `ID` are instantiated with `Nat` (pairwise comparable, `Copy`).
* The RNG trait (`rand_usize(high)` returns a value in `[0, high)`) is modelled
  by an arbitrary stream `rand : Nat → Nat` together with a cursor `ctr`;
  a draw reads `rand ctr % high` and advances the cursor, so every stream is a
  contract-compliant RNG and every contract-compliant RNG arises this way.
* A mutable `Vec` output is modelled by threading the accumulating list
  (wrapped in `AnswerFormat`, mirroring the crate's sum-typed sink).
* `hybrid_flex` is a recursion whose termination is one of the claims, so it is
  embedded fuel-indexed, returning `none` when the fuel runs out.
-/

abbrev EInt := WithBot (WithTop ℤ)

/-- A box: the cartesian product of half-open intervals `[lo k, hi k)`,
indexed by dimension (`boxes.rs`, trait `BBox`).  The dimension count `DIM`
is passed separately to the operations that need it. -/
structure BBoxZ where
  lo : Nat → EInt
  hi : Nat → EInt

instance : Inhabited BBoxZ := ⟨⟨fun _ => 0, fun _ => 0⟩⟩

/-- `contains_in` from `boxes.rs`: `lo(dim) <= point && point < hi(dim)`. -/
def BBoxZ.contains_in (b : BBoxZ) (dim : Nat) (point : EInt) : Prop :=
  b.lo dim ≤ point ∧ point < b.hi dim

instance (b : BBoxZ) (dim : Nat) (point : EInt) : Decidable (b.contains_in dim point) :=
  inferInstanceAs (Decidable (_ ∧ _))

/-- `intersects_in` from `boxes.rs`: `lo(dim) < hi && lo < hi(dim)`. -/
def BBoxZ.intersects_in (b : BBoxZ) (dim : Nat) (lo hi : EInt) : Prop :=
  b.lo dim < hi ∧ lo < b.hi dim

instance (b : BBoxZ) (dim : Nat) (lo hi : EInt) : Decidable (b.intersects_in dim lo hi) :=
  inferInstanceAs (Decidable (_ ∧ _))

/-- `intersects` from `boxes.rs`: conjunction of `intersects_in` over dimensions
`0 .. DIM` (the loop with early `return false`). -/
def BBoxZ.intersects (d : Nat) (a b : BBoxZ) : Prop :=
  ∀ k < d, a.intersects_in k (b.lo k) (b.hi k)

instance (d : Nat) (a b : BBoxZ) : Decidable (a.intersects d b) :=
  Nat.decidableBallLT d _

/-- A set of boxes with identifiers (`set.rs`, `BBoxSet`); the `Vec<(B, ID)>`
is a list of pairs. -/
structure BBoxSet where
  boxes : List (BBoxZ × Nat)

/-- `len` from `set.rs`. -/
def BBoxSet.len (s : BBoxSet) : Nat := s.boxes.length

/-- `empty` from `set.rs`: `len() == 0`. -/
def BBoxSet.empty (s : BBoxSet) : Prop := s.len = 0

instance (s : BBoxSet) : Decidable s.empty := inferInstanceAs (Decidable (_ = _))

/-- `get` from `set.rs` (total model of `boxes[idx]`; the algorithms only
index in bounds). -/
def BBoxSet.get (s : BBoxSet) (idx : Nat) : BBoxZ × Nat := s.boxes.getD idx default

/-- The sum-typed output sink `AnswerFormat` from `lib.rs`. -/
inductive AnswerFormat where
  | Index : List (Nat × Nat) → AnswerFormat
  | Ident : List (Nat × Nat) → AnswerFormat
  | Both : List ((Nat × Nat) × (Nat × Nat)) → AnswerFormat
  deriving DecidableEq

/-- One emission site: the `match out { Index => .., Ident => .., Both => .. }`
blocks of the algorithms, parameterised by what each variant pushes. -/
def AnswerFormat.pushAll (out : AnswerFormat) (ix : Nat × Nat) (idp : Nat × Nat)
    (bo : (Nat × Nat) × (Nat × Nat)) : AnswerFormat :=
  match out with
  | .Index l => .Index (l ++ [ix])
  | .Ident l => .Ident (l ++ [idp])
  | .Both l => .Both (l ++ [bo])

/-- The inner dimension loop `for dim in 1..upper { if !p.intersects_in(dim, ..) continue }`:
all dimensions in `ks` pass the `intersects_in` test against box `ib`. -/
def dimsRangeOk (p ib : BBoxZ) (ks : List Nat) : Prop :=
  ∀ k ∈ ks, p.intersects_in k (ib.lo k) (ib.hi k)

instance (p ib : BBoxZ) (ks : List Nat) : Decidable (dimsRangeOk p ib ks) :=
  List.decidableBAll _ ks

/-- Inner loop of `one_way_scan` (`internals.rs` lines 43-70): iterate the
point entries from the cursor (`rest` is `points[pIdx..]`), breaking at the
first point with `p.lo(0) >= i.hi(0)`, skipping self-ids, non-intersecting
higher dimensions, and the duplicate-avoiding tie-break, and emitting
otherwise. -/
def owsInner (i : BBoxZ) (iId maxDimCheck iIdx pMinIdx : Nat) :
    List (BBoxZ × Nat) → Nat → AnswerFormat → AnswerFormat
  | [], _, out => out
  | (p, pId) :: rest, pIdx, out =>
    if i.hi 0 ≤ p.lo 0 then out
    else if pId = iId then owsInner i iId maxDimCheck iIdx pMinIdx rest (pIdx + 1) out
    else if ¬ dimsRangeOk p i (List.range' 1 maxDimCheck) then
      owsInner i iId maxDimCheck iIdx pMinIdx rest (pIdx + 1) out
    else if p.lo 0 = i.lo 0 ∧ pId > iId then
      owsInner i iId maxDimCheck iIdx pMinIdx rest (pIdx + 1) out
    else
      owsInner i iId maxDimCheck iIdx pMinIdx rest (pIdx + 1)
        (out.pushAll (iIdx, pIdx) (iId, pId) ((pIdx, pMinIdx), (iId, pId)))

/-- Outer loop of `one_way_scan` (`internals.rs` lines 28-71): for each
interval, advance the shared point cursor past all points with
`lo(0) < i.lo(0)` (the `while` loop, a `takeWhile` count), return early when
the cursor reaches the end, and otherwise run the inner loop from the cursor. -/
def owsOuter (points : List (BBoxZ × Nat)) (maxDimCheck : Nat) :
    List (BBoxZ × Nat) → Nat → Nat → AnswerFormat → AnswerFormat
  | [], _, _, out => out
  | (i, iId) :: restI, iIdx, pMinIdx, out =>
    let pMinIdx2 := pMinIdx + ((points.drop pMinIdx).takeWhile fun e => e.1.lo 0 < i.lo 0).length
    if pMinIdx2 = points.length then out
    else
      owsOuter points maxDimCheck restI (iIdx + 1) pMinIdx2
        (owsInner i iId maxDimCheck iIdx pMinIdx2 (points.drop pMinIdx2) pMinIdx2 out)

/-- `one_way_scan` from `internals.rs`. -/
def one_way_scan (intervals points : BBoxSet) (maxDimCheck : Nat) (out : AnswerFormat) :
    AnswerFormat :=
  owsOuter points.boxes maxDimCheck intervals.boxes 0 0 out

/-- `dim_range_upper` from `_two_way_scan`: exclusive upper bound of the
dimension range checked for intersection. -/
def dimRangeUpper (simOW : Bool) (maxDimCheck : Nat) : Nat :=
  if simOW then maxDimCheck else maxDimCheck + 1

/-- First branch body of `_two_way_scan` (`internals.rs` lines 129-158): the
current interval is the pivot; scan point entries from the point cursor
(`rest` is `points[pIdx..]`). -/
def twsScanPoints (simOW : Bool) (i : BBoxZ) (iId maxDimCheck iMinIdx : Nat) :
    List (BBoxZ × Nat) → Nat → AnswerFormat → AnswerFormat
  | [], _, out => out
  | (p, pId) :: rest, pIdx, out =>
    if i.hi 0 ≤ p.lo 0 then out
    else if pId = iId then twsScanPoints simOW i iId maxDimCheck iMinIdx rest (pIdx + 1) out
    else if ¬ dimsRangeOk p i (List.range' 1 (dimRangeUpper simOW maxDimCheck - 1)) then
      twsScanPoints simOW i iId maxDimCheck iMinIdx rest (pIdx + 1) out
    else if simOW ∧ (¬ i.contains_in maxDimCheck (p.lo maxDimCheck) ∨
        (i.lo maxDimCheck = p.lo maxDimCheck ∧ iId > pId)) then
      twsScanPoints simOW i iId maxDimCheck iMinIdx rest (pIdx + 1) out
    else
      twsScanPoints simOW i iId maxDimCheck iMinIdx rest (pIdx + 1)
        (out.pushAll (pIdx, iMinIdx) (iId, pId) ((pIdx, iMinIdx), (iId, pId)))

/-- Second branch body of `_two_way_scan` (`internals.rs` lines 163-193): the
current point is the pivot; scan interval entries from the interval cursor
(`rest` is `intervals[iIdx..]`). -/
def twsScanIntervals (simOW : Bool) (p : BBoxZ) (pId maxDimCheck pMinIdx : Nat) :
    List (BBoxZ × Nat) → Nat → AnswerFormat → AnswerFormat
  | [], _, out => out
  | (i, iId) :: rest, iIdx, out =>
    if p.hi 0 ≤ i.lo 0 then out
    else if iId = pId then twsScanIntervals simOW p pId maxDimCheck pMinIdx rest (iIdx + 1) out
    else if ¬ dimsRangeOk i p (List.range' 1 (dimRangeUpper simOW maxDimCheck - 1)) then
      twsScanIntervals simOW p pId maxDimCheck pMinIdx rest (iIdx + 1) out
    else if simOW ∧ (¬ i.contains_in maxDimCheck (p.lo maxDimCheck) ∨
        (i.lo maxDimCheck = p.lo maxDimCheck ∧ iId > pId)) then
      twsScanIntervals simOW p pId maxDimCheck pMinIdx rest (iIdx + 1) out
    else
      twsScanIntervals simOW p pId maxDimCheck pMinIdx rest (iIdx + 1)
        (out.pushAll (pMinIdx, iIdx) (pId, iId) ((pMinIdx, iIdx), (pId, iId)))

/-- The cursor walk of `_two_way_scan` (`internals.rs` lines 125-197): while
both cursors are in range, compare the front boxes' `lo(0)` and run one of the
two role branches, then advance that branch's cursor.  The lists are the
remaining suffixes `intervals[iMinIdx..]` and `points[pMinIdx..]`.  Each
iteration retires one element, so the loop runs at most
`|intervals| + |points|` iterations; the embedding indexes the loop by that
bound (the callers pass exactly it, so the exhausted-bound case never
fires). -/
def twsAux (simOW : Bool) (maxDimCheck : Nat) :
    Nat → List (BBoxZ × Nat) → List (BBoxZ × Nat) → Nat → Nat → AnswerFormat → AnswerFormat
  | 0, _, _, _, _, out => out
  | _ + 1, [], _, _, _, out => out
  | _ + 1, _ :: _, [], _, _, out => out
  | n + 1, (i, iId) :: restI, (p, pId) :: restP, iMinIdx, pMinIdx, out =>
    if i.lo 0 < p.lo 0 then
      twsAux simOW maxDimCheck n restI ((p, pId) :: restP) (iMinIdx + 1) pMinIdx
        (twsScanPoints simOW i iId maxDimCheck iMinIdx ((p, pId) :: restP) pMinIdx out)
    else
      twsAux simOW maxDimCheck n ((i, iId) :: restI) restP iMinIdx (pMinIdx + 1)
        (twsScanIntervals simOW p pId maxDimCheck pMinIdx ((i, iId) :: restI) iMinIdx out)

/-- `simulated_one_way_scan` from `internals.rs`: `_two_way_scan` with
`SIMULATE_ONE_WAY = true`. -/
def simulated_one_way_scan (intervals points : BBoxSet) (maxDimCheck : Nat)
    (out : AnswerFormat) : AnswerFormat :=
  twsAux true maxDimCheck (intervals.boxes.length + points.boxes.length)
    intervals.boxes points.boxes 0 0 out

/-- `two_way_scan` from `internals.rs`: `_two_way_scan` with
`SIMULATE_ONE_WAY = false` and `max_dim_check = DIM - 1`. -/
def two_way_scan (d : Nat) (a b : BBoxSet) (out : AnswerFormat) : AnswerFormat :=
  twsAux false (d - 1) (a.boxes.length + b.boxes.length) a.boxes b.boxes 0 0 out

/-- `median_of_3` from `median.rs`. -/
def median_of_3 (a b c : EInt) : EInt :=
  if a > b then (if b > c then b else if a > c then c else a)
  else (if b < c then b else if a > c then a else c)

/-- `approx_median` from `median.rs`: recursive median of medians; indices are
popped from the END of the `random_indices` vector (`Vec::pop`), modelled by
`getLast?`/`dropLast`.  A pop from an empty vector would panic in Rust; it is
modelled by the default index 0, and never happens for the argument supplied by
`BBoxSet.approx_median` (which pushes `3 ^ levels` indices). -/
def approx_median_rec (items : List EInt) : Nat → List Nat → EInt × List Nat
  | 0, idxs => (items.getD (idxs.getLast?.getD 0) 0, idxs.dropLast)
  | levels + 1, idxs =>
    let r1 := approx_median_rec items levels idxs
    let r2 := approx_median_rec items levels r1.2
    let r3 := approx_median_rec items levels r2.2
    (median_of_3 r1.1 r2.1 r3.1, r3.2)

/-- `BBoxSet::approx_median` from `set.rs`, parameterised by the level count
function `levelsOf`.  The source computes the level count from `self.len()` by
a floating-point formula (`0.91 * ((n as f64) / 137.0 + 1.0).ln().floor()`,
truncated to `u32`, then raised to at least 1); that formula is modelled over
the reals by `codeLevels` below, and the claims that do not depend on the
particular level count are proved for every `levelsOf`.  Draws `3 ^ levels`
random indices in `[0, len)` from the RNG stream and returns the recursive
median together with the advanced RNG cursor. -/
def BBoxSet.approx_median (levelsOf : Nat → Nat) (s : BBoxSet) (dim : Nat)
    (rand : Nat → Nat) (ctr : Nat) : EInt × Nat :=
  let levels := levelsOf s.len
  let cap := 3 ^ levels
  let points := s.boxes.map fun e => e.1.lo dim
  let random_indices := (List.range cap).map fun k => rand (ctr + k) % points.length
  ((approx_median_rec points levels random_indices).1, ctr + cap)

/-- Step 4 of `hybrid_flex`: the intervals stored at this node because they
span the segment `[lo, hi)` (`intervals.partition(|(i, _)| i.lo(dim) < lo && i.hi(dim) > hi)`,
first component). -/
def intervalsM (intervals : BBoxSet) (lo hi : EInt) (dim : Nat) : BBoxSet :=
  ⟨intervals.boxes.filter fun e => decide (e.1.lo dim < lo) && decide (hi < e.1.hi dim)⟩

/-- Step 4 of `hybrid_flex`: the remaining intervals (second component of the
partition). -/
def intervalsLR (intervals : BBoxSet) (lo hi : EInt) (dim : Nat) : BBoxSet :=
  ⟨intervals.boxes.filter fun e => !(decide (e.1.lo dim < lo) && decide (hi < e.1.hi dim))⟩

/-- `hybrid_flex` from `internals.rs`, fuel-indexed (the recursion's
termination is one of the claims, so the embedding does not presuppose it):
`none` means the fuel ran out, `some (out, ctr)` is the sink and RNG cursor
after the call.  The steps mirror the source: empty/degenerate-segment return,
the `dim == 0` one-way-scan fallback, the cutoff fallback, the node split into
`intervals_m`/`intervals_lr`, the two role-swapped streams in `dim - 1`, the
approximate median `mi` with its `mi ∈ {lo, hi}` scan fallback, and the two
subsegment recursions (`points` is partitioned on `lo(dim) < mi`; an interval
of `intervals_lr` enters the left child when `lo(dim) < mi` and the right
child when `hi(dim) > mi`, possibly both). -/
def hybrid_flex (levelsOf : Nat → Nat) (CUTOFF : Nat) :
    Nat → BBoxSet → BBoxSet → EInt → EInt → Nat → AnswerFormat → (Nat → Nat) → Nat →
      Option (AnswerFormat × Nat)
  | 0, _, _, _, _, _, _, _, _ => none
  | fuel + 1, intervals, points, lo, hi, dim, out, rand, ctr =>
    if intervals.empty ∨ points.empty ∨ hi ≤ lo then some (out, ctr)
    else if dim = 0 then some (one_way_scan intervals points 0 out, ctr)
    else if intervals.len < CUTOFF ∨ points.len < CUTOFF then
      some (simulated_one_way_scan intervals points dim out, ctr)
    else
      (hybrid_flex levelsOf CUTOFF fuel (intervalsM intervals lo hi dim) points ⊥ ⊤ (dim - 1)
          out rand ctr).bind fun s1 =>
      (hybrid_flex levelsOf CUTOFF fuel points (intervalsM intervals lo hi dim) ⊥ ⊤ (dim - 1)
          s1.1 rand s1.2).bind fun s2 =>
      if (points.approx_median levelsOf dim rand s2.2).1 = hi ∨
          (points.approx_median levelsOf dim rand s2.2).1 = lo then
        some (simulated_one_way_scan (intervalsLR intervals lo hi dim) points dim s2.1,
          (points.approx_median levelsOf dim rand s2.2).2)
      else
        (hybrid_flex levelsOf CUTOFF fuel
            ⟨(intervalsLR intervals lo hi dim).boxes.filter fun e =>
              decide (e.1.lo dim < (points.approx_median levelsOf dim rand s2.2).1)⟩
            ⟨points.boxes.filter fun e =>
              decide (e.1.lo dim < (points.approx_median levelsOf dim rand s2.2).1)⟩
            lo (points.approx_median levelsOf dim rand s2.2).1 dim
            s2.1 rand (points.approx_median levelsOf dim rand s2.2).2).bind fun s3 =>
        hybrid_flex levelsOf CUTOFF fuel
            ⟨(intervalsLR intervals lo hi dim).boxes.filter fun e =>
              decide ((points.approx_median levelsOf dim rand s2.2).1 < e.1.hi dim)⟩
            ⟨points.boxes.filter fun e =>
              !decide (e.1.lo dim < (points.approx_median levelsOf dim rand s2.2).1)⟩
            (points.approx_median levelsOf dim rand s2.2).1 hi dim
            s3.1 rand s3.2

/-- `intersect_ze_custom` from `lib.rs`.  Rust detects whether `a` and `b`
refer to the same set by pointer identity; the embedding takes that bit as the
argument `same` (when `same = true` the callers pass the same set twice). -/
def intersect_ze_custom (levelsOf : Nat → Nat) (CUTOFF fuel d : Nat) (a b : BBoxSet)
    (same : Bool) (out : List (Nat × Nat)) (rand : Nat → Nat) (ctr : Nat) :
    Option (AnswerFormat × Nat) :=
  if same then hybrid_flex levelsOf CUTOFF fuel a a ⊥ ⊤ (d - 1) (.Ident out) rand ctr
  else
    (hybrid_flex levelsOf CUTOFF fuel a b ⊥ ⊤ (d - 1) (.Ident out) rand ctr).bind fun s1 =>
      hybrid_flex levelsOf CUTOFF fuel b a ⊥ ⊤ (d - 1) s1.1 rand s1.2

/-- `intersect_ze` from `lib.rs`: `intersect_ze_custom` with `CUTOFF = 1000`. -/
def intersect_ze (levelsOf : Nat → Nat) (fuel d : Nat) (a b : BBoxSet) (same : Bool)
    (out : List (Nat × Nat)) (rand : Nat → Nat) (ctr : Nat) : Option (AnswerFormat × Nat) :=
  intersect_ze_custom levelsOf 1000 fuel d a b same out rand ctr

/-- `intersect_scan_flex` from `lib.rs` (`same` models pointer identity). -/
def intersect_scan_flex (d : Nat) (a b : BBoxSet) (same : Bool) (out : AnswerFormat) :
    AnswerFormat :=
  if same then one_way_scan a b (d - 1) out else two_way_scan d a b out

/-- Inner loop of `intersect_brute_force_flex` (`lib.rs`): test `bbox` against
every entry of `rest` (which is `b[bidx..]`), pushing on intersection. -/
def bfInner (d : Nat) (bbox : BBoxZ) (idv aidx : Nat) :
    List (BBoxZ × Nat) → Nat → AnswerFormat → AnswerFormat
  | [], _, out => out
  | (bbox2, id2) :: rest, bidx, out =>
    bfInner d bbox idv aidx rest (bidx + 1)
      (if bbox.intersects d bbox2 then
        out.pushAll (aidx, bidx) (idv, id2) ((aidx, bidx), (idv, id2))
      else out)

/-- Same-set outer loop of `intersect_brute_force_flex` (`lib.rs` lines
208-223): entry `aidx` is tested against entries `aidx+1 ..` (the running
`start`), which is exactly the structural tail. -/
def bfSameOuter (d : Nat) : List (BBoxZ × Nat) → Nat → AnswerFormat → AnswerFormat
  | [], _, out => out
  | (bbox, idv) :: rest, aidx, out =>
    bfSameOuter d rest (aidx + 1) (bfInner d bbox idv aidx rest (aidx + 1) out)

/-- Distinct-set outer loop of `intersect_brute_force_flex` (`lib.rs` lines
224-236): full cross product. -/
def bfDistOuter (d : Nat) (bBoxes : List (BBoxZ × Nat)) :
    List (BBoxZ × Nat) → Nat → AnswerFormat → AnswerFormat
  | [], _, out => out
  | (bbox, idv) :: rest, aidx, out =>
    bfDistOuter d bBoxes rest (aidx + 1) (bfInner d bbox idv aidx bBoxes 0 out)

/-- `intersect_brute_force_flex` from `lib.rs` (`same` models pointer
identity). -/
def intersect_brute_force_flex (d : Nat) (a b : BBoxSet) (same : Bool) (out : AnswerFormat) :
    AnswerFormat :=
  if same then bfSameOuter d a.boxes 0 out else bfDistOuter d b.boxes a.boxes 0 out

/-- Extract the identifier-pair list of an `Ident` sink. -/
def identOf : AnswerFormat → List (Nat × Nat)
  | .Ident l => l
  | _ => []

/-- Extract the element list of a `Both` sink. -/
def bothOf : AnswerFormat → List ((Nat × Nat) × (Nat × Nat))
  | .Both l => l
  | _ => []

/-- Normalise an identifier pair to unordered form. -/
def pnorm (e : Nat × Nat) : Nat × Nat := (min e.1 e.2, max e.1 e.2)

/-- The set of unordered identifier pairs of an output list. -/
def upairs (l : List (Nat × Nat)) : Finset (Nat × Nat) := (l.map pnorm).toFinset

/-! ## Specification predicates -/

/-- Both projections on axis `k` overlap (the symmetric content of
`intersects_in` for two boxes). -/
def interK (k : Nat) (x y : BBoxZ) : Prop := x.lo k < y.hi k ∧ y.lo k < x.hi k

/-- A box is nonempty on every axis. -/
def NonDeg (x : BBoxZ) : Prop := ∀ k, x.lo k < x.hi k

/-- Entries are non-decreasing in `lo(0)`: the postcondition of
`BBoxSet::sort` that the algorithms require. -/
def SortedLo0 (l : List (BBoxZ × Nat)) : Prop := l.Pairwise fun a b => a.1.lo 0 ≤ b.1.lo 0

instance (l : List (BBoxZ × Nat)) : Decidable (SortedLo0 l) :=
  inferInstanceAs (Decidable (List.Pairwise _ _))

/-- The one-way-scan acceptance condition at axis `dim` between an interval
entry and a point entry: the point's low endpoint lies in the interval's
projection, and the tie at an exact low-endpoint collision is broken by
identifier — at axis `0` (`one_way_scan`) the point's identifier must not
exceed the interval's, at higher axes (`simulated_one_way_scan`) the
interval's must not exceed the point's. -/
def oneWayCond (dim : Nat) (ie pe : BBoxZ × Nat) : Prop :=
  ie.1.lo dim ≤ pe.1.lo dim ∧ pe.1.lo dim < ie.1.hi dim ∧
    ¬(ie.1.lo dim = pe.1.lo dim ∧ (if dim = 0 then pe.2 > ie.2 else ie.2 > pe.2))

/-- The emitted-pair predicate of the hybrid engine: the unordered pair
`{x, y}` arises from an interval entry of `I` and a point entry of `P` with
distinct identifiers, overlapping on every axis below `dim`, and satisfying
the one-way condition at axis `dim`. -/
def UP (I P : List (BBoxZ × Nat)) (dim : Nat) (x y : Nat) : Prop :=
  ∃ ie ∈ I, ∃ pe ∈ P, ie.2 ≠ pe.2 ∧ ((x = ie.2 ∧ y = pe.2) ∨ (x = pe.2 ∧ y = ie.2)) ∧
    (∀ k < dim, interK k ie.1 pe.1) ∧ oneWayCond dim ie pe

/-! ## Basic facts about sortedness and cursors -/

theorem sortedLo0_cons {hd : BBoxZ × Nat} {tl : List (BBoxZ × Nat)}
    (h : SortedLo0 (hd :: tl)) : (∀ pe ∈ tl, hd.1.lo 0 ≤ pe.1.lo 0) ∧ SortedLo0 tl :=
  ⟨(List.pairwise_cons.mp h).1, (List.pairwise_cons.mp h).2⟩

theorem sortedLo0_drop {l : List (BBoxZ × Nat)} (h : SortedLo0 l) (n : Nat) :
    SortedLo0 (l.drop n) :=
  List.Pairwise.sublist (List.drop_sublist n l) h

theorem sortedLo0_filter {l : List (BBoxZ × Nat)} (h : SortedLo0 l) (p : BBoxZ × Nat → Bool) :
    SortedLo0 (l.filter p) :=
  List.Pairwise.sublist (List.filter_sublist l) h

theorem mem_dropWhile_lo0_ge (c : EInt) :
    ∀ (l : List (BBoxZ × Nat)), SortedLo0 l →
      ∀ pe ∈ l.dropWhile (fun e => decide (e.1.lo 0 < c)), c ≤ pe.1.lo 0 := by
  intro l
  induction l with
  | nil => intro _ pe hpe; simp [List.dropWhile] at hpe
  | cons hd tl ih =>
    intro hs pe hpe
    rw [List.dropWhile_cons] at hpe
    by_cases hc : hd.1.lo 0 < c
    · rw [if_pos (by simpa using hc)] at hpe
      exact ih (sortedLo0_cons hs).2 pe hpe
    · rw [if_neg (by simpa using hc)] at hpe
      rcases List.mem_cons.mp hpe with h | h
      · subst h; exact le_of_not_lt hc
      · exact le_trans (le_of_not_lt hc) ((sortedLo0_cons hs).1 pe h)

theorem mem_takeWhile_lo0_lt (c : EInt) (l : List (BBoxZ × Nat)) :
    ∀ pe ∈ l.takeWhile (fun e => decide (e.1.lo 0 < c)), pe.1.lo 0 < c := by
  intro pe hpe
  exact of_decide_eq_true (@List.mem_takeWhile_imp _ (fun e => decide (e.1.lo 0 < c)) l pe hpe)

theorem drop_takeWhile_len (l : List (BBoxZ × Nat)) (p : BBoxZ × Nat → Bool) :
    l.drop (l.takeWhile p).length = l.dropWhile p :=
  calc l.drop (l.takeWhile p).length
      = (l.takeWhile p ++ l.dropWhile p).drop (l.takeWhile p).length := by
        rw [List.takeWhile_append_dropWhile]
    _ = l.dropWhile p := List.drop_left _ _

theorem take_takeWhile_len (l : List (BBoxZ × Nat)) (p : BBoxZ × Nat → Bool) :
    l.take (l.takeWhile p).length = l.takeWhile p :=
  calc l.take (l.takeWhile p).length
      = (l.takeWhile p ++ l.dropWhile p).take (l.takeWhile p).length := by
        rw [List.takeWhile_append_dropWhile]
    _ = l.takeWhile p := List.take_left _ _

/-! ## Characterisation of one_way_scan (Ident output) -/

/-- The acceptance tests of the inner loop of `one_way_scan` for a candidate
point entry `pe` against the current interval (excluding the cursor condition
`i.lo 0 ≤ pe.lo 0`, which the outer loop establishes). -/
def owsEmit (i : BBoxZ) (iId maxDim : Nat) (pe : BBoxZ × Nat) : Prop :=
  pe.1.lo 0 < i.hi 0 ∧ pe.2 ≠ iId ∧ dimsRangeOk pe.1 i (List.range' 1 maxDim) ∧
    ¬(pe.1.lo 0 = i.lo 0 ∧ pe.2 > iId)

theorem owsInner_cons (i : BBoxZ) (iId maxDim iIdx pMinIdx : Nat) (p : BBoxZ) (pId : Nat)
    (rest : List (BBoxZ × Nat)) (pIdx : Nat) (out : AnswerFormat) :
    owsInner i iId maxDim iIdx pMinIdx ((p, pId) :: rest) pIdx out =
      if i.hi 0 ≤ p.lo 0 then out
      else if pId = iId then owsInner i iId maxDim iIdx pMinIdx rest (pIdx + 1) out
      else if ¬ dimsRangeOk p i (List.range' 1 maxDim) then
        owsInner i iId maxDim iIdx pMinIdx rest (pIdx + 1) out
      else if p.lo 0 = i.lo 0 ∧ pId > iId then
        owsInner i iId maxDim iIdx pMinIdx rest (pIdx + 1) out
      else
        owsInner i iId maxDim iIdx pMinIdx rest (pIdx + 1)
          (out.pushAll (iIdx, pIdx) (iId, pId) ((pIdx, pMinIdx), (iId, pId))) := rfl

theorem owsInner_ident (i : BBoxZ) (iId maxDim iIdx pMinIdx : Nat) :
    ∀ (sfx : List (BBoxZ × Nat)), SortedLo0 sfx → ∀ (pIdx : Nat) (l : List (Nat × Nat)),
      ∃ l2, owsInner i iId maxDim iIdx pMinIdx sfx pIdx (.Ident l) = .Ident (l ++ l2) ∧
        ∀ x y, ((x, y) ∈ l2 ↔ x = iId ∧ ∃ pe ∈ sfx, y = pe.2 ∧ owsEmit i iId maxDim pe) := by
  intro sfx
  induction sfx with
  | nil =>
    intro _ pIdx l
    exact ⟨[], by simp [owsInner], by simp⟩
  | cons hd tl ih =>
    intro hs pIdx l
    obtain ⟨p, pId⟩ := hd
    have htl := (sortedLo0_cons hs).2
    have hhd := (sortedLo0_cons hs).1
    by_cases h1 : i.hi 0 ≤ p.lo 0
    · refine ⟨[], by rw [owsInner_cons, if_pos h1, List.append_nil], ?_⟩
      intro x y
      simp only [List.not_mem_nil, false_iff, not_and]
      intro _
      rintro ⟨pe, hpe, _, hlt, _⟩
      rcases List.mem_cons.mp hpe with h | h
      · rw [h] at hlt; exact absurd hlt (not_lt.mpr h1)
      · exact absurd hlt (not_lt.mpr (le_trans h1 (hhd pe h)))
    · have hskip : ∀ l2 : List (Nat × Nat),
          (∀ x y, ((x, y) ∈ l2 ↔ x = iId ∧ ∃ pe ∈ tl, y = pe.2 ∧ owsEmit i iId maxDim pe)) →
          ¬ owsEmit i iId maxDim (p, pId) →
          ∀ x y, ((x, y) ∈ l2 ↔
            x = iId ∧ ∃ pe ∈ (p, pId) :: tl, y = pe.2 ∧ owsEmit i iId maxDim pe) := by
        intro l2 hmem hfail x y
        rw [hmem x y]
        constructor
        · rintro ⟨hx, pe, hpe, hy, hemit⟩
          exact ⟨hx, pe, List.mem_cons_of_mem _ hpe, hy, hemit⟩
        · rintro ⟨hx, pe, hpe, hy, hemit⟩
          rcases List.mem_cons.mp hpe with h | h
          · rw [h] at hemit; exact absurd hemit hfail
          · exact ⟨hx, pe, h, hy, hemit⟩
      by_cases h2 : pId = iId
      · obtain ⟨l2, heq, hmem⟩ := ih htl (pIdx + 1) l
        refine ⟨l2, by rw [owsInner_cons, if_neg h1, if_pos h2]; exact heq, ?_⟩
        exact hskip l2 hmem (fun hemit => hemit.2.1 h2)
      · by_cases h3 : dimsRangeOk p i (List.range' 1 maxDim)
        · by_cases h4 : p.lo 0 = i.lo 0 ∧ pId > iId
          · obtain ⟨l2, heq, hmem⟩ := ih htl (pIdx + 1) l
            refine ⟨l2, by rw [owsInner_cons, if_neg h1, if_neg h2,
              if_neg (not_not_intro h3), if_pos h4]; exact heq, ?_⟩
            exact hskip l2 hmem (fun hemit => hemit.2.2.2 h4)
          · obtain ⟨l2, heq, hmem⟩ := ih htl (pIdx + 1) (l ++ [(iId, pId)])
            refine ⟨(iId, pId) :: l2, ?_, ?_⟩
            · rw [owsInner_cons, if_neg h1, if_neg h2, if_neg (not_not_intro h3), if_neg h4]
              show owsInner i iId maxDim iIdx pMinIdx tl (pIdx + 1)
                (.Ident (l ++ [(iId, pId)])) = _
              rw [heq, List.append_assoc]
              rfl
            · intro x y
              rw [List.mem_cons, hmem x y]
              constructor
              · rintro (hxy | ⟨hx, pe, hpe, hy, hemit⟩)
                · rw [Prod.mk.injEq] at hxy
                  exact ⟨hxy.1, (p, pId), List.mem_cons_self _ _, hxy.2,
                    lt_of_not_le h1, h2, h3, h4⟩
                · exact ⟨hx, pe, List.mem_cons_of_mem _ hpe, hy, hemit⟩
              · rintro ⟨hx, pe, hpe, hy, hemit⟩
                rcases List.mem_cons.mp hpe with h | h
                · left; rw [hx, hy, h]
                · right; exact ⟨hx, pe, h, hy, hemit⟩
        · obtain ⟨l2, heq, hmem⟩ := ih htl (pIdx + 1) l
          refine ⟨l2, by rw [owsInner_cons, if_neg h1, if_neg h2, if_pos h3]; exact heq, ?_⟩
          exact hskip l2 hmem (fun hemit => h3 hemit.2.2.1)

theorem owsOuter_cons (points : List (BBoxZ × Nat)) (maxDim : Nat) (i : BBoxZ) (iId : Nat)
    (restI : List (BBoxZ × Nat)) (iIdx pMinIdx : Nat) (out : AnswerFormat) :
    owsOuter points maxDim ((i, iId) :: restI) iIdx pMinIdx out =
      (if pMinIdx + ((points.drop pMinIdx).takeWhile fun e => decide (e.1.lo 0 < i.lo 0)).length
          = points.length then out
      else
        owsOuter points maxDim restI (iIdx + 1)
          (pMinIdx + ((points.drop pMinIdx).takeWhile fun e => decide (e.1.lo 0 < i.lo 0)).length)
          (owsInner i iId maxDim iIdx
            (pMinIdx + ((points.drop pMinIdx).takeWhile
              fun e => decide (e.1.lo 0 < i.lo 0)).length)
            (points.drop (pMinIdx + ((points.drop pMinIdx).takeWhile
              fun e => decide (e.1.lo 0 < i.lo 0)).length))
            (pMinIdx + ((points.drop pMinIdx).takeWhile
              fun e => decide (e.1.lo 0 < i.lo 0)).length) out)) := rfl

theorem owsOuter_ident (points : List (BBoxZ × Nat)) (maxDim : Nat) (hp : SortedLo0 points) :
    ∀ (sfxI : List (BBoxZ × Nat)), SortedLo0 sfxI → ∀ (iIdx pMinIdx : Nat),
      (∀ pe ∈ points.take pMinIdx, ∀ ie ∈ sfxI, pe.1.lo 0 < ie.1.lo 0) →
      ∀ (l : List (Nat × Nat)),
      ∃ l2, owsOuter points maxDim sfxI iIdx pMinIdx (.Ident l) = .Ident (l ++ l2) ∧
        ∀ x y, ((x, y) ∈ l2 ↔ ∃ ie ∈ sfxI, ∃ pe ∈ points, x = ie.2 ∧ y = pe.2 ∧
          ie.1.lo 0 ≤ pe.1.lo 0 ∧ owsEmit ie.1 ie.2 maxDim pe) := by
  intro sfxI
  induction sfxI with
  | nil =>
    intro _ iIdx pMinIdx _ l
    exact ⟨[], by simp [owsOuter], by simp⟩
  | cons hd restI ih =>
    intro hs iIdx pMinIdx hinv l
    obtain ⟨ib, ibId⟩ := hd
    have htl := (sortedLo0_cons hs).2
    have hhd := (sortedLo0_cons hs).1
    set tw := (points.drop pMinIdx).takeWhile fun e => decide (e.1.lo 0 < ib.lo 0) with htw
    set pMinIdx2 := pMinIdx + tw.length with hpm2
    have hTake2 : ∀ pe ∈ points.take pMinIdx2, pe.1.lo 0 < ib.lo 0 := by
      intro pe hpe
      rw [hpm2, List.take_add] at hpe
      rcases List.mem_append.mp hpe with h | h
      · exact hinv pe h (ib, ibId) (List.mem_cons_self _ _)
      · rw [htw, take_takeWhile_len] at h
        exact mem_takeWhile_lo0_lt _ _ pe h
    have hDrop2 : points.drop pMinIdx2 =
        (points.drop pMinIdx).dropWhile fun e => decide (e.1.lo 0 < ib.lo 0) := by
      rw [hpm2, ← List.drop_drop, htw, drop_takeWhile_len]
    have hGe : ∀ pe ∈ points.drop pMinIdx2, ib.lo 0 ≤ pe.1.lo 0 := by
      intro pe hpe
      rw [hDrop2] at hpe
      exact mem_dropWhile_lo0_ge _ _ (sortedLo0_drop hp pMinIdx) pe hpe
    by_cases hend : pMinIdx2 = points.length
    · refine ⟨[], by rw [owsOuter_cons, ← htw, ← hpm2, if_pos hend, List.append_nil], ?_⟩
      intro x y
      simp only [List.not_mem_nil, false_iff]
      rintro ⟨ie, hie, pe, hpe, _, _, hle, _⟩
      have hpe2 : pe ∈ points.take pMinIdx2 := by
        rw [hend, List.take_length]; exact hpe
      have hlt := hTake2 pe hpe2
      rcases List.mem_cons.mp hie with h | h
      · rw [h] at hle; exact absurd hle (not_le.mpr hlt)
      · exact absurd hle (not_le.mpr (lt_of_lt_of_le hlt (hhd ie h)))
    · obtain ⟨l2a, heqA, hmemA⟩ := owsInner_ident ib ibId maxDim iIdx pMinIdx2
        (points.drop pMinIdx2) (sortedLo0_drop hp pMinIdx2) pMinIdx2 l
      have hinv2 : ∀ pe ∈ points.take pMinIdx2, ∀ ie ∈ restI, pe.1.lo 0 < ie.1.lo 0 := by
        intro pe hpe ie hie
        exact lt_of_lt_of_le (hTake2 pe hpe) (hhd ie hie)
      obtain ⟨l2b, heqB, hmemB⟩ := ih htl (iIdx + 1) pMinIdx2 hinv2 (l ++ l2a)
      refine ⟨l2a ++ l2b, ?_, ?_⟩
      · rw [owsOuter_cons, ← htw, ← hpm2, if_neg hend, heqA, heqB, List.append_assoc]
      · intro x y
        rw [List.mem_append, hmemA x y, hmemB x y]
        constructor
        · rintro (⟨hx, pe, hpe, hy, hemit⟩ | ⟨ie, hie, pe, hpe, hx, hy, hle, hemit⟩)
          · exact ⟨(ib, ibId), List.mem_cons_self _ _, pe,
              List.Sublist.mem hpe (List.drop_sublist _ _), hx, hy, hGe pe hpe, hemit⟩
          · exact ⟨ie, List.mem_cons_of_mem _ hie, pe, hpe, hx, hy, hle, hemit⟩
        · rintro ⟨ie, hie, pe, hpe, hx, hy, hle, hemit⟩
          rcases List.mem_cons.mp hie with h | h
          · left
            refine ⟨by rw [hx, h], pe, ?_, hy, by rw [h] at hemit; exact hemit⟩
            have := List.take_append_drop pMinIdx2 points
            rcases List.mem_append.mp (by rw [this]; exact hpe) with hh | hh
            · exfalso
              rw [h] at hle
              exact absurd hle (not_le.mpr (hTake2 pe hh))
            · exact hh
          · right; exact ⟨ie, h, pe, hpe, hx, hy, hle, hemit⟩

theorem one_way_scan_ident (I P : BBoxSet) (maxDim : Nat) (hI : SortedLo0 I.boxes)
    (hP : SortedLo0 P.boxes) (l : List (Nat × Nat)) :
    ∃ l2, one_way_scan I P maxDim (.Ident l) = .Ident (l ++ l2) ∧
      ∀ x y, ((x, y) ∈ l2 ↔ ∃ ie ∈ I.boxes, ∃ pe ∈ P.boxes, x = ie.2 ∧ y = pe.2 ∧
        ie.1.lo 0 ≤ pe.1.lo 0 ∧ owsEmit ie.1 ie.2 maxDim pe) := by
  have h := owsOuter_ident P.boxes maxDim hP I.boxes hI 0 0 (by simp) l
  exact h

/-! ## Characterisation of the two-way scan (Ident output) -/

/-- The acceptance tests of `_two_way_scan` for a candidate pair, oriented as
(interval entry, point entry): distinct identifiers, overlap on the checked
dimension range, and (in the simulated variant) containment of the point's low
endpoint at `maxDim` with the identifier tie-break. -/
def twsPairCond (simOW : Bool) (maxDim : Nat) (ie pe : BBoxZ × Nat) : Prop :=
  pe.2 ≠ ie.2 ∧ dimsRangeOk pe.1 ie.1 (List.range' 1 (dimRangeUpper simOW maxDim - 1)) ∧
    ¬(simOW ∧ (¬ ie.1.contains_in maxDim (pe.1.lo maxDim) ∨
      (ie.1.lo maxDim = pe.1.lo maxDim ∧ ie.2 > pe.2)))

theorem dimsRangeOk_symm (a b : BBoxZ) (ks : List Nat) :
    dimsRangeOk a b ks ↔ dimsRangeOk b a ks := by
  unfold dimsRangeOk BBoxZ.intersects_in
  constructor <;> (intro h k hk; exact ⟨(h k hk).2, (h k hk).1⟩)

theorem twsScanPoints_cons (simOW : Bool) (i : BBoxZ) (iId maxDim iMinIdx : Nat) (p : BBoxZ)
    (pId : Nat) (rest : List (BBoxZ × Nat)) (pIdx : Nat) (out : AnswerFormat) :
    twsScanPoints simOW i iId maxDim iMinIdx ((p, pId) :: rest) pIdx out =
      if i.hi 0 ≤ p.lo 0 then out
      else if pId = iId then twsScanPoints simOW i iId maxDim iMinIdx rest (pIdx + 1) out
      else if ¬ dimsRangeOk p i (List.range' 1 (dimRangeUpper simOW maxDim - 1)) then
        twsScanPoints simOW i iId maxDim iMinIdx rest (pIdx + 1) out
      else if simOW ∧ (¬ i.contains_in maxDim (p.lo maxDim) ∨
          (i.lo maxDim = p.lo maxDim ∧ iId > pId)) then
        twsScanPoints simOW i iId maxDim iMinIdx rest (pIdx + 1) out
      else
        twsScanPoints simOW i iId maxDim iMinIdx rest (pIdx + 1)
          (out.pushAll (pIdx, iMinIdx) (iId, pId) ((pIdx, iMinIdx), (iId, pId))) := rfl

theorem twsScanPoints_ident (simOW : Bool) (i : BBoxZ) (iId maxDim iMinIdx : Nat) :
    ∀ (sfx : List (BBoxZ × Nat)), SortedLo0 sfx → ∀ (pIdx : Nat) (l : List (Nat × Nat)),
      ∃ l2, twsScanPoints simOW i iId maxDim iMinIdx sfx pIdx (.Ident l) = .Ident (l ++ l2) ∧
        ∀ x y, ((x, y) ∈ l2 ↔ x = iId ∧ ∃ pe ∈ sfx, y = pe.2 ∧
          pe.1.lo 0 < i.hi 0 ∧ twsPairCond simOW maxDim (i, iId) pe) := by
  intro sfx
  induction sfx with
  | nil =>
    intro _ pIdx l
    exact ⟨[], by simp [twsScanPoints], by simp⟩
  | cons hd tl ih =>
    intro hs pIdx l
    obtain ⟨p, pId⟩ := hd
    have htl := (sortedLo0_cons hs).2
    have hhd := (sortedLo0_cons hs).1
    by_cases h1 : i.hi 0 ≤ p.lo 0
    · refine ⟨[], by rw [twsScanPoints_cons, if_pos h1, List.append_nil], ?_⟩
      intro x y
      simp only [List.not_mem_nil, false_iff, not_and]
      intro _
      rintro ⟨pe, hpe, _, hlt, _⟩
      rcases List.mem_cons.mp hpe with h | h
      · rw [h] at hlt; exact absurd hlt (not_lt.mpr h1)
      · exact absurd hlt (not_lt.mpr (le_trans h1 (hhd pe h)))
    · have hskip : ∀ l2 : List (Nat × Nat),
          (∀ x y, ((x, y) ∈ l2 ↔ x = iId ∧ ∃ pe ∈ tl, y = pe.2 ∧
            pe.1.lo 0 < i.hi 0 ∧ twsPairCond simOW maxDim (i, iId) pe)) →
          ¬ twsPairCond simOW maxDim (i, iId) (p, pId) →
          ∀ x y, ((x, y) ∈ l2 ↔ x = iId ∧ ∃ pe ∈ (p, pId) :: tl, y = pe.2 ∧
            pe.1.lo 0 < i.hi 0 ∧ twsPairCond simOW maxDim (i, iId) pe) := by
        intro l2 hmem hfail x y
        rw [hmem x y]
        constructor
        · rintro ⟨hx, pe, hpe, hy, hlt, hcond⟩
          exact ⟨hx, pe, List.mem_cons_of_mem _ hpe, hy, hlt, hcond⟩
        · rintro ⟨hx, pe, hpe, hy, hlt, hcond⟩
          rcases List.mem_cons.mp hpe with h | h
          · rw [h] at hcond; exact absurd hcond hfail
          · exact ⟨hx, pe, h, hy, hlt, hcond⟩
      by_cases h2 : pId = iId
      · obtain ⟨l2, heq, hmem⟩ := ih htl (pIdx + 1) l
        refine ⟨l2, by rw [twsScanPoints_cons, if_neg h1, if_pos h2]; exact heq, ?_⟩
        exact hskip l2 hmem (fun hcond => hcond.1 h2)
      · by_cases h3 : dimsRangeOk p i (List.range' 1 (dimRangeUpper simOW maxDim - 1))
        · by_cases h4 : simOW ∧ (¬ i.contains_in maxDim (p.lo maxDim) ∨
              (i.lo maxDim = p.lo maxDim ∧ iId > pId))
          · obtain ⟨l2, heq, hmem⟩ := ih htl (pIdx + 1) l
            refine ⟨l2, by rw [twsScanPoints_cons, if_neg h1, if_neg h2,
              if_neg (not_not_intro h3), if_pos h4]; exact heq, ?_⟩
            exact hskip l2 hmem (fun hcond => hcond.2.2 h4)
          · obtain ⟨l2, heq, hmem⟩ := ih htl (pIdx + 1) (l ++ [(iId, pId)])
            refine ⟨(iId, pId) :: l2, ?_, ?_⟩
            · rw [twsScanPoints_cons, if_neg h1, if_neg h2, if_neg (not_not_intro h3), if_neg h4]
              show twsScanPoints simOW i iId maxDim iMinIdx tl (pIdx + 1)
                (.Ident (l ++ [(iId, pId)])) = _
              rw [heq, List.append_assoc]
              rfl
            · intro x y
              rw [List.mem_cons, hmem x y]
              constructor
              · rintro (hxy | ⟨hx, pe, hpe, hy, hlt, hcond⟩)
                · rw [Prod.mk.injEq] at hxy
                  exact ⟨hxy.1, (p, pId), List.mem_cons_self _ _, hxy.2,
                    lt_of_not_le h1, h2, h3, h4⟩
                · exact ⟨hx, pe, List.mem_cons_of_mem _ hpe, hy, hlt, hcond⟩
              · rintro ⟨hx, pe, hpe, hy, hlt, hcond⟩
                rcases List.mem_cons.mp hpe with h | h
                · left; rw [hx, hy, h]
                · right; exact ⟨hx, pe, h, hy, hlt, hcond⟩
        · obtain ⟨l2, heq, hmem⟩ := ih htl (pIdx + 1) l
          refine ⟨l2, by rw [twsScanPoints_cons, if_neg h1, if_neg h2, if_pos h3]; exact heq, ?_⟩
          exact hskip l2 hmem (fun hcond => h3 hcond.2.1)

theorem twsScanIntervals_cons (simOW : Bool) (p : BBoxZ) (pId maxDim pMinIdx : Nat) (i : BBoxZ)
    (iId : Nat) (rest : List (BBoxZ × Nat)) (iIdx : Nat) (out : AnswerFormat) :
    twsScanIntervals simOW p pId maxDim pMinIdx ((i, iId) :: rest) iIdx out =
      if p.hi 0 ≤ i.lo 0 then out
      else if iId = pId then twsScanIntervals simOW p pId maxDim pMinIdx rest (iIdx + 1) out
      else if ¬ dimsRangeOk i p (List.range' 1 (dimRangeUpper simOW maxDim - 1)) then
        twsScanIntervals simOW p pId maxDim pMinIdx rest (iIdx + 1) out
      else if simOW ∧ (¬ i.contains_in maxDim (p.lo maxDim) ∨
          (i.lo maxDim = p.lo maxDim ∧ iId > pId)) then
        twsScanIntervals simOW p pId maxDim pMinIdx rest (iIdx + 1) out
      else
        twsScanIntervals simOW p pId maxDim pMinIdx rest (iIdx + 1)
          (out.pushAll (pMinIdx, iIdx) (pId, iId) ((pMinIdx, iIdx), (pId, iId))) := rfl

theorem twsScanIntervals_ident (simOW : Bool) (p : BBoxZ) (pId maxDim pMinIdx : Nat) :
    ∀ (sfx : List (BBoxZ × Nat)), SortedLo0 sfx → ∀ (iIdx : Nat) (l : List (Nat × Nat)),
      ∃ l2, twsScanIntervals simOW p pId maxDim pMinIdx sfx iIdx (.Ident l) = .Ident (l ++ l2) ∧
        ∀ x y, ((x, y) ∈ l2 ↔ x = pId ∧ ∃ ie ∈ sfx, y = ie.2 ∧
          ie.1.lo 0 < p.hi 0 ∧ twsPairCond simOW maxDim ie (p, pId)) := by
  intro sfx
  induction sfx with
  | nil =>
    intro _ iIdx l
    exact ⟨[], by simp [twsScanIntervals], by simp⟩
  | cons hd tl ih =>
    intro hs iIdx l
    obtain ⟨i, iId⟩ := hd
    have htl := (sortedLo0_cons hs).2
    have hhd := (sortedLo0_cons hs).1
    by_cases h1 : p.hi 0 ≤ i.lo 0
    · refine ⟨[], by rw [twsScanIntervals_cons, if_pos h1, List.append_nil], ?_⟩
      intro x y
      simp only [List.not_mem_nil, false_iff, not_and]
      intro _
      rintro ⟨ie, hie, _, hlt, _⟩
      rcases List.mem_cons.mp hie with h | h
      · rw [h] at hlt; exact absurd hlt (not_lt.mpr h1)
      · exact absurd hlt (not_lt.mpr (le_trans h1 (hhd ie h)))
    · have hskip : ∀ l2 : List (Nat × Nat),
          (∀ x y, ((x, y) ∈ l2 ↔ x = pId ∧ ∃ ie ∈ tl, y = ie.2 ∧
            ie.1.lo 0 < p.hi 0 ∧ twsPairCond simOW maxDim ie (p, pId))) →
          ¬ twsPairCond simOW maxDim (i, iId) (p, pId) →
          ∀ x y, ((x, y) ∈ l2 ↔ x = pId ∧ ∃ ie ∈ (i, iId) :: tl, y = ie.2 ∧
            ie.1.lo 0 < p.hi 0 ∧ twsPairCond simOW maxDim ie (p, pId)) := by
        intro l2 hmem hfail x y
        rw [hmem x y]
        constructor
        · rintro ⟨hx, ie, hie, hy, hlt, hcond⟩
          exact ⟨hx, ie, List.mem_cons_of_mem _ hie, hy, hlt, hcond⟩
        · rintro ⟨hx, ie, hie, hy, hlt, hcond⟩
          rcases List.mem_cons.mp hie with h | h
          · rw [h] at hcond; exact absurd hcond hfail
          · exact ⟨hx, ie, h, hy, hlt, hcond⟩
      by_cases h2 : iId = pId
      · obtain ⟨l2, heq, hmem⟩ := ih htl (iIdx + 1) l
        refine ⟨l2, by rw [twsScanIntervals_cons, if_neg h1, if_pos h2]; exact heq, ?_⟩
        exact hskip l2 hmem (fun hcond => hcond.1 (by simpa using h2.symm))
      · by_cases h3 : dimsRangeOk i p (List.range' 1 (dimRangeUpper simOW maxDim - 1))
        · by_cases h4 : simOW ∧ (¬ i.contains_in maxDim (p.lo maxDim) ∨
              (i.lo maxDim = p.lo maxDim ∧ iId > pId))
          · obtain ⟨l2, heq, hmem⟩ := ih htl (iIdx + 1) l
            refine ⟨l2, by rw [twsScanIntervals_cons, if_neg h1, if_neg h2,
              if_neg (not_not_intro h3), if_pos h4]; exact heq, ?_⟩
            exact hskip l2 hmem (fun hcond => hcond.2.2 h4)
          · obtain ⟨l2, heq, hmem⟩ := ih htl (iIdx + 1) (l ++ [(pId, iId)])
            refine ⟨(pId, iId) :: l2, ?_, ?_⟩
            · rw [twsScanIntervals_cons, if_neg h1, if_neg h2, if_neg (not_not_intro h3),
                if_neg h4]
              show twsScanIntervals simOW p pId maxDim pMinIdx tl (iIdx + 1)
                (.Ident (l ++ [(pId, iId)])) = _
              rw [heq, List.append_assoc]
              rfl
            · intro x y
              rw [List.mem_cons, hmem x y]
              constructor
              · rintro (hxy | ⟨hx, ie, hie, hy, hlt, hcond⟩)
                · rw [Prod.mk.injEq] at hxy
                  refine ⟨hxy.1, (i, iId), List.mem_cons_self _ _, hxy.2,
                    lt_of_not_le h1, fun hpe => h2 (by simpa using hpe.symm),
                    (dimsRangeOk_symm _ _ _).mp h3, h4⟩
                · exact ⟨hx, ie, List.mem_cons_of_mem _ hie, hy, hlt, hcond⟩
              · rintro ⟨hx, ie, hie, hy, hlt, hcond⟩
                rcases List.mem_cons.mp hie with h | h
                · left; rw [hx, hy, h]
                · right; exact ⟨hx, ie, h, hy, hlt, hcond⟩
        · obtain ⟨l2, heq, hmem⟩ := ih htl (iIdx + 1) l
          refine ⟨l2, by rw [twsScanIntervals_cons, if_neg h1, if_neg h2, if_pos h3]; exact heq, ?_⟩
          exact hskip l2 hmem (fun hcond => h3 ((dimsRangeOk_symm _ _ _).mp hcond.2.1))

theorem twsAux_cons (simOW : Bool) (maxDim n : Nat) (i : BBoxZ) (iId : Nat)
    (restI : List (BBoxZ × Nat)) (p : BBoxZ) (pId : Nat) (restP : List (BBoxZ × Nat))
    (iMinIdx pMinIdx : Nat) (out : AnswerFormat) :
    twsAux simOW maxDim (n + 1) ((i, iId) :: restI) ((p, pId) :: restP) iMinIdx pMinIdx out =
      if i.lo 0 < p.lo 0 then
        twsAux simOW maxDim n restI ((p, pId) :: restP) (iMinIdx + 1) pMinIdx
          (twsScanPoints simOW i iId maxDim iMinIdx ((p, pId) :: restP) pMinIdx out)
      else
        twsAux simOW maxDim n ((i, iId) :: restI) restP iMinIdx (pMinIdx + 1)
          (twsScanIntervals simOW p pId maxDim pMinIdx ((i, iId) :: restI) iMinIdx out) := rfl

/-- The sweep structure of `_two_way_scan`: an ordered pair is emitted exactly
for candidate pairs passing `twsPairCond` such that either the interval starts
strictly earlier and contains the point's low axis-0 endpoint (interval-pivot
branch, emitting `(interval id, point id)`), or the point starts no later and
contains the interval's low axis-0 endpoint (point-pivot branch, emitting
`(point id, interval id)`). -/
theorem twsAux_ident (simOW : Bool) (maxDim : Nat) :
    ∀ (n : Nat) (sfxI sfxP : List (BBoxZ × Nat)), sfxI.length + sfxP.length ≤ n →
      SortedLo0 sfxI → SortedLo0 sfxP → ∀ (iMinIdx pMinIdx : Nat) (l : List (Nat × Nat)),
      ∃ l2, twsAux simOW maxDim n sfxI sfxP iMinIdx pMinIdx (.Ident l) = .Ident (l ++ l2) ∧
        ∀ x y, ((x, y) ∈ l2 ↔
          (∃ ie ∈ sfxI, ∃ pe ∈ sfxP, x = ie.2 ∧ y = pe.2 ∧
            ie.1.lo 0 < pe.1.lo 0 ∧ pe.1.lo 0 < ie.1.hi 0 ∧ twsPairCond simOW maxDim ie pe) ∨
          (∃ ie ∈ sfxI, ∃ pe ∈ sfxP, x = pe.2 ∧ y = ie.2 ∧
            pe.1.lo 0 ≤ ie.1.lo 0 ∧ ie.1.lo 0 < pe.1.hi 0 ∧ twsPairCond simOW maxDim ie pe)) := by
  intro n
  induction n with
  | zero =>
    intro sfxI sfxP hlen _ _ iMinIdx pMinIdx l
    have hI : sfxI = [] := List.length_eq_zero.mp (Nat.le_zero.mp (le_trans (Nat.le_add_right _ _) hlen))
    have hP : sfxP = [] := List.length_eq_zero.mp (Nat.le_zero.mp (le_trans (Nat.le_add_left _ _) hlen))
    subst hI; subst hP
    exact ⟨[], by simp [twsAux], by simp⟩
  | succ n ihn =>
    intro sfxI sfxP hlen hsI hsP iMinIdx pMinIdx l
    match sfxI, sfxP with
    | [], sfxP => exact ⟨[], by cases sfxP <;> simp [twsAux], by simp⟩
    | (i, iId) :: restI, [] => exact ⟨[], by simp [twsAux], by simp⟩
    | (i, iId) :: restI, (p, pId) :: restP =>
      have hlen2 : restI.length + ((p, pId) :: restP).length ≤ n := by
        simp only [List.length_cons] at hlen ⊢; omega
      have hlen3 : ((i, iId) :: restI).length + restP.length ≤ n := by
        simp only [List.length_cons] at hlen ⊢; omega
      have htlI := (sortedLo0_cons hsI).2
      have hhdI := (sortedLo0_cons hsI).1
      have htlP := (sortedLo0_cons hsP).2
      have hhdP := (sortedLo0_cons hsP).1
      by_cases hb : i.lo 0 < p.lo 0
      · obtain ⟨l2a, heqA, hmemA⟩ :=
          twsScanPoints_ident simOW i iId maxDim iMinIdx ((p, pId) :: restP) hsP pMinIdx l
        obtain ⟨l2b, heqB, hmemB⟩ :=
          ihn restI ((p, pId) :: restP) hlen2 htlI hsP (iMinIdx + 1) pMinIdx (l ++ l2a)
        refine ⟨l2a ++ l2b, ?_, ?_⟩
        · rw [twsAux_cons, if_pos hb, heqA, heqB, List.append_assoc]
        · intro x y
          rw [List.mem_append, hmemA x y, hmemB x y]
          constructor
          · rintro (⟨hx, pe, hpe, hy, hlt, hcond⟩ |
              (⟨ie, hie, pe, hpe, hx, hy, h5, h6, hcond⟩ | ⟨ie, hie, pe, hpe, hx, hy, h5, h6, hcond⟩))
            · left
              refine ⟨(i, iId), List.mem_cons_self _ _, pe, hpe, hx, hy, ?_, hlt, hcond⟩
              rcases List.mem_cons.mp hpe with h | h
              · rw [h]; exact hb
              · exact lt_of_lt_of_le hb (hhdP pe h)
            · exact Or.inl ⟨ie, List.mem_cons_of_mem _ hie, pe, hpe, hx, hy, h5, h6, hcond⟩
            · exact Or.inr ⟨ie, List.mem_cons_of_mem _ hie, pe, hpe, hx, hy, h5, h6, hcond⟩
          · rintro (⟨ie, hie, pe, hpe, hx, hy, h5, h6, hcond⟩ |
                ⟨ie, hie, pe, hpe, hx, hy, h5, h6, hcond⟩)
            · rcases List.mem_cons.mp hie with h | h
              · left; rw [h] at hx h6 hcond
                exact ⟨hx, pe, hpe, hy, h6, hcond⟩
              · right
                exact Or.inl ⟨ie, h, pe, hpe, hx, hy, h5, h6, hcond⟩
            · rcases List.mem_cons.mp hie with h | h
              · exfalso
                have h7 : p.lo 0 ≤ pe.1.lo 0 := by
                  rcases List.mem_cons.mp hpe with hh | hh
                  · rw [hh]
                  · exact hhdP pe hh
                rw [h] at h5
                exact absurd (lt_of_lt_of_le hb (le_trans h7 h5)) (lt_irrefl _)
              · right
                exact Or.inr ⟨ie, h, pe, hpe, hx, hy, h5, h6, hcond⟩
      · obtain ⟨l2a, heqA, hmemA⟩ :=
          twsScanIntervals_ident simOW p pId maxDim pMinIdx ((i, iId) :: restI) hsI iMinIdx l
        obtain ⟨l2b, heqB, hmemB⟩ :=
          ihn ((i, iId) :: restI) restP hlen3 hsI htlP iMinIdx (pMinIdx + 1) (l ++ l2a)
        have hple : p.lo 0 ≤ i.lo 0 := le_of_not_lt hb
        refine ⟨l2a ++ l2b, ?_, ?_⟩
        · rw [twsAux_cons, if_neg hb, heqA, heqB, List.append_assoc]
        · intro x y
          rw [List.mem_append, hmemA x y, hmemB x y]
          constructor
          · rintro (⟨hx, ie, hie, hy, hlt, hcond⟩ |
              (⟨ie, hie, pe, hpe, hx, hy, h5, h6, hcond⟩ | ⟨ie, hie, pe, hpe, hx, hy, h5, h6, hcond⟩))
            · right
              refine ⟨ie, hie, (p, pId), List.mem_cons_self _ _, hx, hy, ?_, hlt, hcond⟩
              rcases List.mem_cons.mp hie with h | h
              · rw [h]; exact hple
              · exact le_trans hple (hhdI ie h)
            · exact Or.inl ⟨ie, hie, pe, List.mem_cons_of_mem _ hpe, hx, hy, h5, h6, hcond⟩
            · exact Or.inr ⟨ie, hie, pe, List.mem_cons_of_mem _ hpe, hx, hy, h5, h6, hcond⟩
          · rintro (⟨ie, hie, pe, hpe, hx, hy, h5, h6, hcond⟩ |
                ⟨ie, hie, pe, hpe, hx, hy, h5, h6, hcond⟩)
            · rcases List.mem_cons.mp hpe with h | h
              · exfalso
                have h7 : i.lo 0 ≤ ie.1.lo 0 := by
                  rcases List.mem_cons.mp hie with hh | hh
                  · rw [hh]
                  · exact hhdI ie hh
                rw [h] at h5
                exact absurd (lt_of_le_of_lt (le_trans hple h7) h5) (lt_irrefl _)
              · right
                exact Or.inl ⟨ie, hie, pe, h, hx, hy, h5, h6, hcond⟩
            · rcases List.mem_cons.mp hpe with h | h
              · left; rw [h] at hx h6 hcond
                exact ⟨hx, ie, hie, hy, h6, hcond⟩
              · right
                exact Or.inr ⟨ie, hie, pe, h, hx, hy, h5, h6, hcond⟩

/-! ## Bridge facts between the scan conditions and symmetric intersection -/

theorem interK_symm {k : Nat} {x y : BBoxZ} (h : interK k x y) : interK k y x := ⟨h.2, h.1⟩

theorem intersects_symm {d : Nat} {x y : BBoxZ} (h : x.intersects d y) : y.intersects d x := by
  intro k hk
  obtain ⟨h1, h2⟩ := h k hk
  exact ⟨h2, h1⟩

theorem intersects_iff_interK (d : Nat) (x y : BBoxZ) :
    x.intersects d y ↔ ∀ k < d, interK k x y := by
  unfold BBoxZ.intersects BBoxZ.intersects_in interK
  exact Iff.rfl

theorem dimsRangeOk_iff (p i : BBoxZ) (m : Nat) :
    dimsRangeOk p i (List.range' 1 m) ↔ ∀ k, 1 ≤ k → k < 1 + m → interK k i p := by
  unfold dimsRangeOk BBoxZ.intersects_in interK
  constructor
  · intro h k h1 h2
    have := h k (List.mem_range'_1.mpr ⟨h1, h2⟩)
    exact ⟨this.2, this.1⟩
  · intro h k hk
    obtain ⟨h1, h2⟩ := List.mem_range'_1.mp hk
    have := h k h1 h2
    exact ⟨this.2, this.1⟩

/-- For nondegenerate boxes, the two sweep branches of `_two_way_scan` cover a
candidate pair exactly when the boxes overlap on axis 0. -/
theorem sweep_iff_interK0 {ib pb : BBoxZ} (hi : NonDeg ib) (hp : NonDeg pb) :
    ((ib.lo 0 < pb.lo 0 ∧ pb.lo 0 < ib.hi 0) ∨ (pb.lo 0 ≤ ib.lo 0 ∧ ib.lo 0 < pb.hi 0)) ↔
      interK 0 ib pb := by
  constructor
  · rintro (⟨h1, h2⟩ | ⟨h1, h2⟩)
    · exact ⟨lt_trans h1 (hp 0), h2⟩
    · exact ⟨h2, lt_of_le_of_lt h1 (hi 0)⟩
  · rintro ⟨h1, h2⟩
    rcases lt_or_le (ib.lo 0) (pb.lo 0) with h | h
    · exact Or.inl ⟨h, h2⟩
    · exact Or.inr ⟨h, h1⟩

/-- For nondegenerate boxes with distinct identifiers, the one-way condition
at axis `dim` holds in exactly one orientation iff the boxes overlap on axis
`dim` (either tie-break flavour). -/
theorem oneWay_or_iff_interK {dim : Nat} {ie pe : BBoxZ × Nat} (hi : NonDeg ie.1)
    (hp : NonDeg pe.1) (hne : ie.2 ≠ pe.2) :
    (oneWayCond dim ie pe ∨ oneWayCond dim pe ie) ↔ interK dim ie.1 pe.1 := by
  unfold oneWayCond
  constructor
  · rintro (⟨h1, h2, _⟩ | ⟨h1, h2, _⟩)
    · exact ⟨lt_of_le_of_lt h1 (hp dim), h2⟩
    · exact ⟨h2, lt_of_le_of_lt h1 (hi dim)⟩
  · rintro ⟨h1, h2⟩
    rcases lt_trichotomy (ie.1.lo dim) (pe.1.lo dim) with h | h | h
    · exact Or.inl ⟨le_of_lt h, h2, fun hc => absurd hc.1 (ne_of_lt h)⟩
    · rcases Nat.lt_or_ge ie.2 pe.2 with hid | hid
      · by_cases hdim : dim = 0
        · exact Or.inr ⟨le_of_eq h.symm, h1, by
            rw [if_pos hdim]
            rintro ⟨_, hgt⟩
            exact absurd hid (not_lt.mpr (le_of_lt hgt))⟩
        · exact Or.inl ⟨le_of_eq h, h2, by
            rw [if_neg hdim]
            rintro ⟨_, hgt⟩
            exact absurd hid (not_lt.mpr (le_of_lt hgt))⟩
      · have hid2 : pe.2 < ie.2 := lt_of_le_of_ne hid (fun hc => hne hc.symm)
        by_cases hdim : dim = 0
        · exact Or.inl ⟨le_of_eq h, h2, by
            rw [if_pos hdim]
            rintro ⟨_, hgt⟩
            exact absurd hgt (not_lt.mpr (le_of_lt hid2))⟩
        · exact Or.inr ⟨le_of_eq h.symm, h1, by
            rw [if_neg hdim]
            rintro ⟨_, hgt⟩
            exact absurd hgt (not_lt.mpr (le_of_lt hid2))⟩
    · exact Or.inr ⟨le_of_lt h, h1, fun hc => absurd hc.1 (ne_of_lt h)⟩

/-- Unfolding of the simulated-variant pair condition into the one-way
condition at `maxDim` (for `maxDim ≠ 0`) together with the strictly lower
checked dimensions. -/
theorem twsPairCond_true_iff {maxDim : Nat} (hdim : maxDim ≠ 0) (ie pe : BBoxZ × Nat) :
    twsPairCond true maxDim ie pe ↔
      pe.2 ≠ ie.2 ∧ (∀ k, 1 ≤ k → k < maxDim → interK k ie.1 pe.1) ∧ oneWayCond maxDim ie pe := by
  unfold twsPairCond oneWayCond BBoxZ.contains_in dimRangeUpper
  rw [if_pos rfl, dimsRangeOk_iff]
  have hm : 1 + (maxDim - 1) = maxDim := by omega
  rw [hm]
  constructor
  · rintro ⟨h1, h2, h3⟩
    rw [not_and_or, not_or, not_not] at h3
    rcases h3 with h3 | h3
    · exact absurd rfl h3
    · refine ⟨h1, h2, h3.1.1, h3.1.2, ?_⟩
      rw [if_neg hdim]
      exact h3.2
  · rintro ⟨h1, h2, h3, h4, h5⟩
    rw [if_neg hdim] at h5
    refine ⟨h1, h2, ?_⟩
    rw [not_and_or, not_or, not_not]
    exact Or.inr ⟨⟨h3, h4⟩, h5⟩

/-- Unfolding of the plain two-way pair condition (`simOW = false`). -/
theorem twsPairCond_false_iff (maxDim : Nat) (ie pe : BBoxZ × Nat) :
    twsPairCond false maxDim ie pe ↔
      pe.2 ≠ ie.2 ∧ (∀ k, 1 ≤ k → k < maxDim + 1 → interK k ie.1 pe.1) := by
  unfold twsPairCond dimRangeUpper
  rw [if_neg (by simp), dimsRangeOk_iff]
  have hm : maxDim + 1 - 1 = maxDim := by omega
  rw [hm, Nat.add_comm 1 maxDim]
  simp

/-! ## Characterisation of brute force (Ident output) -/

/-- Identifiers are pairwise distinct within an entry list (the caller-side
invariant `id must be a unique identifier`). -/
def UniqueIds (l : List (BBoxZ × Nat)) : Prop := l.Pairwise fun a b => a.2 ≠ b.2

instance (l : List (BBoxZ × Nat)) : Decidable (UniqueIds l) :=
  inferInstanceAs (Decidable (List.Pairwise _ _))

theorem bfInner_ident (d : Nat) (bbox : BBoxZ) (idv aidx : Nat) :
    ∀ (sfx : List (BBoxZ × Nat)) (bidx : Nat) (l : List (Nat × Nat)),
      ∃ l2, bfInner d bbox idv aidx sfx bidx (.Ident l) = .Ident (l ++ l2) ∧
        ∀ x y, ((x, y) ∈ l2 ↔ x = idv ∧ ∃ e ∈ sfx, y = e.2 ∧ bbox.intersects d e.1) := by
  intro sfx
  induction sfx with
  | nil =>
    intro bidx l
    exact ⟨[], by simp [bfInner], by simp⟩
  | cons hd tl ih =>
    intro bidx l
    obtain ⟨bbox2, id2⟩ := hd
    by_cases h : bbox.intersects d bbox2
    · obtain ⟨l2, heq, hmem⟩ := ih (bidx + 1) (l ++ [(idv, id2)])
      refine ⟨(idv, id2) :: l2, ?_, ?_⟩
      · show bfInner d bbox idv aidx tl (bidx + 1)
          (if bbox.intersects d bbox2 then AnswerFormat.Ident (l ++ [(idv, id2)]) else _) = _
        rw [if_pos h, heq, List.append_assoc]
        rfl
      · intro x y
        rw [List.mem_cons, hmem x y]
        constructor
        · rintro (hxy | ⟨hx, e, he, hy, hint⟩)
          · rw [Prod.mk.injEq] at hxy
            exact ⟨hxy.1, (bbox2, id2), List.mem_cons_self _ _, hxy.2, h⟩
          · exact ⟨hx, e, List.mem_cons_of_mem _ he, hy, hint⟩
        · rintro ⟨hx, e, he, hy, hint⟩
          rcases List.mem_cons.mp he with hh | hh
          · left; rw [hx, hy, hh]
          · right; exact ⟨hx, e, hh, hy, hint⟩
    · obtain ⟨l2, heq, hmem⟩ := ih (bidx + 1) l
      refine ⟨l2, ?_, ?_⟩
      · show bfInner d bbox idv aidx tl (bidx + 1)
          (if bbox.intersects d bbox2 then _ else AnswerFormat.Ident l) = _
        rw [if_neg h]
        exact heq
      · intro x y
        rw [hmem x y]
        constructor
        · rintro ⟨hx, e, he, hy, hint⟩
          exact ⟨hx, e, List.mem_cons_of_mem _ he, hy, hint⟩
        · rintro ⟨hx, e, he, hy, hint⟩
          rcases List.mem_cons.mp he with hh | hh
          · exfalso; rw [hh] at hint; exact h hint
          · exact ⟨hx, e, hh, hy, hint⟩

theorem bfSameOuter_ident (d : Nat) :
    ∀ (sfx : List (BBoxZ × Nat)), UniqueIds sfx → ∀ (aidx : Nat) (l : List (Nat × Nat)),
      ∃ l2, bfSameOuter d sfx aidx (.Ident l) = .Ident (l ++ l2) ∧
        ∀ x y, (((x, y) ∈ l2 ∨ (y, x) ∈ l2) ↔ ∃ e1 ∈ sfx, ∃ e2 ∈ sfx, e1.2 ≠ e2.2 ∧
          ((x = e1.2 ∧ y = e2.2) ∨ (x = e2.2 ∧ y = e1.2)) ∧ e1.1.intersects d e2.1) := by
  intro sfx
  induction sfx with
  | nil =>
    intro _ aidx l
    exact ⟨[], by simp [bfSameOuter], by simp⟩
  | cons hd tl ih =>
    intro hu aidx l
    have htl : UniqueIds tl := (List.pairwise_cons.mp hu).2
    have hhd : ∀ e ∈ tl, hd.2 ≠ e.2 := (List.pairwise_cons.mp hu).1
    obtain ⟨l2a, heqA, hmemA⟩ := bfInner_ident d hd.1 hd.2 aidx tl (aidx + 1) l
    obtain ⟨l2b, heqB, hmemB⟩ := ih htl (aidx + 1) (l ++ l2a)
    refine ⟨l2a ++ l2b, ?_, ?_⟩
    · show bfSameOuter d tl (aidx + 1) (bfInner d hd.1 hd.2 aidx tl (aidx + 1) (.Ident l)) = _
      rw [heqA, heqB, List.append_assoc]
    · intro x y
      constructor
      · intro hmem
        have hsplit : ((x, y) ∈ l2a ∨ (y, x) ∈ l2a) ∨ ((x, y) ∈ l2b ∨ (y, x) ∈ l2b) := by
          rcases hmem with h | h <;> rcases List.mem_append.mp h with h | h
          · exact Or.inl (Or.inl h)
          · exact Or.inr (Or.inl h)
          · exact Or.inl (Or.inr h)
          · exact Or.inr (Or.inr h)
        rcases hsplit with (h | h) | h
        · obtain ⟨hx, e, he, hy, hint⟩ := (hmemA x y).mp h
          exact ⟨hd, List.mem_cons_self _ _, e, List.mem_cons_of_mem _ he, hhd e he,
            Or.inl ⟨hx, hy⟩, hint⟩
        · obtain ⟨hy, e, he, hx, hint⟩ := (hmemA y x).mp h
          exact ⟨hd, List.mem_cons_self _ _, e, List.mem_cons_of_mem _ he, hhd e he,
            Or.inr ⟨hx, hy⟩, hint⟩
        · obtain ⟨e1, he1, e2, he2, hne, hxy, hint⟩ := (hmemB x y).mp h
          exact ⟨e1, List.mem_cons_of_mem _ he1, e2, List.mem_cons_of_mem _ he2, hne, hxy, hint⟩
      · rintro ⟨e1, he1, e2, he2, hne, hxy, hint⟩
        rcases List.mem_cons.mp he1 with h1 | h1 <;> rcases List.mem_cons.mp he2 with h2 | h2
        · exfalso; rw [h1, h2] at hne; exact hne rfl
        · rcases hxy with ⟨hx, hy⟩ | ⟨hx, hy⟩
          · left; apply List.mem_append_left
            rw [hmemA x y]
            exact ⟨by rw [hx, h1], e2, h2, hy, by rw [← h1]; exact hint⟩
          · right; apply List.mem_append_left
            rw [hmemA y x]
            exact ⟨by rw [hy, h1], e2, h2, hx, by rw [← h1]; exact hint⟩
        · rcases hxy with ⟨hx, hy⟩ | ⟨hx, hy⟩
          · right; apply List.mem_append_left
            rw [hmemA y x]
            exact ⟨by rw [hy, h2], e1, h1, hx, by rw [← h2]; exact intersects_symm hint⟩
          · left; apply List.mem_append_left
            rw [hmemA x y]
            exact ⟨by rw [hx, h2], e1, h1, hy, by rw [← h2]; exact intersects_symm hint⟩
        · have := (hmemB x y).mpr ⟨e1, h1, e2, h2, hne, hxy, hint⟩
          rcases this with h | h
          · exact Or.inl (List.mem_append_right _ h)
          · exact Or.inr (List.mem_append_right _ h)

theorem bfDistOuter_ident (d : Nat) (bBoxes : List (BBoxZ × Nat)) :
    ∀ (sfx : List (BBoxZ × Nat)) (aidx : Nat) (l : List (Nat × Nat)),
      ∃ l2, bfDistOuter d bBoxes sfx aidx (.Ident l) = .Ident (l ++ l2) ∧
        ∀ x y, ((x, y) ∈ l2 ↔ ∃ ea ∈ sfx, ∃ eb ∈ bBoxes, x = ea.2 ∧ y = eb.2 ∧
          ea.1.intersects d eb.1) := by
  intro sfx
  induction sfx with
  | nil =>
    intro aidx l
    exact ⟨[], by simp [bfDistOuter], by simp⟩
  | cons hd tl ih =>
    intro aidx l
    obtain ⟨l2a, heqA, hmemA⟩ := bfInner_ident d hd.1 hd.2 aidx bBoxes 0 l
    obtain ⟨l2b, heqB, hmemB⟩ := ih (aidx + 1) (l ++ l2a)
    refine ⟨l2a ++ l2b, ?_, ?_⟩
    · show bfDistOuter d bBoxes tl (aidx + 1) (bfInner d hd.1 hd.2 aidx bBoxes 0 (.Ident l)) = _
      rw [heqA, heqB, List.append_assoc]
    · intro x y
      rw [List.mem_append, hmemA x y, hmemB x y]
      constructor
      · rintro (⟨hx, e, he, hy, hint⟩ | ⟨ea, hea, eb, heb, hx, hy, hint⟩)
        · exact ⟨hd, List.mem_cons_self _ _, e, he, hx, hy, hint⟩
        · exact ⟨ea, List.mem_cons_of_mem _ hea, eb, heb, hx, hy, hint⟩
      · rintro ⟨ea, hea, eb, heb, hx, hy, hint⟩
        rcases List.mem_cons.mp hea with h | h
        · left; exact ⟨by rw [hx, h], eb, heb, hy, by rw [← h]; exact hint⟩
        · right; exact ⟨ea, h, eb, heb, hx, hy, hint⟩

/-! ## Same-set agreement of the scans with symmetric intersection -/

/-- An unordered intersecting pair: boxes from `A` and `B` with distinct
identifiers whose projections overlap on every axis below `d`. -/
def InterPair (d : Nat) (A B : List (BBoxZ × Nat)) (x y : Nat) : Prop :=
  ∃ e1 ∈ A, ∃ e2 ∈ B, e1.2 ≠ e2.2 ∧ ((x = e1.2 ∧ y = e2.2) ∨ (x = e2.2 ∧ y = e1.2)) ∧
    e1.1.intersects d e2.1

theorem owsPair_or_iff (maxDim : Nat) {a b : BBoxZ × Nat} (ha : NonDeg a.1) (hb : NonDeg b.1)
    (hne : a.2 ≠ b.2) :
    ((a.1.lo 0 ≤ b.1.lo 0 ∧ owsEmit a.1 a.2 maxDim b) ∨
      (b.1.lo 0 ≤ a.1.lo 0 ∧ owsEmit b.1 b.2 maxDim a)) ↔
      ((∀ k, 1 ≤ k → k ≤ maxDim → interK k a.1 b.1) ∧ interK 0 a.1 b.1) := by
  unfold owsEmit
  rw [dimsRangeOk_iff, dimsRangeOk_iff]
  constructor
  · rintro (⟨h1, h2, _, h3, h4⟩ | ⟨h1, h2, _, h3, h4⟩)
    · refine ⟨fun k hk1 hk2 => h3 k hk1 (by omega), ?_⟩
      exact (oneWay_or_iff_interK ha hb hne).mp (Or.inl ⟨h1, h2,
        by rw [if_pos rfl]; exact fun hc => h4 ⟨hc.1.symm, hc.2⟩⟩)
    · refine ⟨fun k hk1 hk2 => interK_symm (h3 k hk1 (by omega)), ?_⟩
      exact (oneWay_or_iff_interK ha hb hne).mp (Or.inr ⟨h1, h2,
        by rw [if_pos rfl]; exact fun hc => h4 ⟨hc.1.symm, hc.2⟩⟩)
  · rintro ⟨hdims, h0⟩
    have := (oneWay_or_iff_interK ha hb hne).mpr h0
    rcases this with ⟨h1, h2, h3⟩ | ⟨h1, h2, h3⟩
    · rw [if_pos rfl] at h3
      exact Or.inl ⟨h1, h2, fun hc => hne hc.symm,
        fun k hk1 hk2 => hdims k hk1 (by omega), fun hc => h3 ⟨hc.1.symm, hc.2⟩⟩
    · rw [if_pos rfl] at h3
      exact Or.inr ⟨h1, h2, hne,
        fun k hk1 hk2 => interK_symm (hdims k hk1 (by omega)), fun hc => h3 ⟨hc.1.symm, hc.2⟩⟩

theorem simTie_or_iff_interK {dim : Nat} {ie pe : BBoxZ × Nat} (hi : NonDeg ie.1)
    (hp : NonDeg pe.1) (hne : ie.2 ≠ pe.2) :
    ((ie.1.lo dim ≤ pe.1.lo dim ∧ pe.1.lo dim < ie.1.hi dim ∧
        ¬(ie.1.lo dim = pe.1.lo dim ∧ ie.2 > pe.2)) ∨
      (pe.1.lo dim ≤ ie.1.lo dim ∧ ie.1.lo dim < pe.1.hi dim ∧
        ¬(pe.1.lo dim = ie.1.lo dim ∧ pe.2 > ie.2))) ↔ interK dim ie.1 pe.1 := by
  constructor
  · rintro (⟨h1, h2, _⟩ | ⟨h1, h2, _⟩)
    · exact ⟨lt_of_le_of_lt h1 (hp dim), h2⟩
    · exact ⟨h2, lt_of_le_of_lt h1 (hi dim)⟩
  · rintro ⟨h1, h2⟩
    rcases lt_trichotomy (ie.1.lo dim) (pe.1.lo dim) with h | h | h
    · exact Or.inl ⟨le_of_lt h, h2, fun hc => absurd hc.1 (ne_of_lt h)⟩
    · rcases Nat.lt_or_ge ie.2 pe.2 with hid | hid
      · exact Or.inl ⟨le_of_eq h, h2, fun hc => absurd hc.2 (not_lt.mpr (le_of_lt hid))⟩
      · have hid2 : pe.2 < ie.2 := lt_of_le_of_ne hid (fun hc => hne hc.symm)
        exact Or.inr ⟨le_of_eq h.symm, h1, fun hc => absurd hc.2 (not_lt.mpr (le_of_lt hid2))⟩
    · exact Or.inr ⟨le_of_lt h, h1, fun hc => absurd hc.1 (ne_of_lt h)⟩

theorem simPair_or_iff (maxDim : Nat) {a b : BBoxZ × Nat} (ha : NonDeg a.1) (hb : NonDeg b.1)
    (hne : a.2 ≠ b.2) :
    (twsPairCond true maxDim a b ∨ twsPairCond true maxDim b a) ↔
      ((∀ k, 1 ≤ k → k ≤ maxDim → interK k a.1 b.1) ∧ interK maxDim a.1 b.1) := by
  by_cases hdm : maxDim = 0
  · subst hdm
    unfold twsPairCond BBoxZ.contains_in dimRangeUpper
    rw [if_pos rfl]
    constructor
    · rintro (⟨h1, _, h3⟩ | ⟨h1, _, h3⟩)
      · rw [not_and_or, not_or, not_not] at h3
        rcases h3 with h3 | h3
        · exact absurd rfl h3
        · exact ⟨fun k hk1 hk2 => absurd (Nat.le_trans hk1 hk2) (by norm_num),
            (simTie_or_iff_interK ha hb hne).mp (Or.inl ⟨h3.1.1, h3.1.2, h3.2⟩)⟩
      · rw [not_and_or, not_or, not_not] at h3
        rcases h3 with h3 | h3
        · exact absurd rfl h3
        · exact ⟨fun k hk1 hk2 => absurd (Nat.le_trans hk1 hk2) (by norm_num),
            (simTie_or_iff_interK ha hb hne).mp (Or.inr ⟨h3.1.1, h3.1.2, h3.2⟩)⟩
    · rintro ⟨_, h0⟩
      rcases (simTie_or_iff_interK ha hb hne).mpr h0 with ⟨h1, h2, h3⟩ | ⟨h1, h2, h3⟩
      · refine Or.inl ⟨fun hc => hne hc.symm, by simp [dimsRangeOk], ?_⟩
        rw [not_and_or]
        right
        rw [not_or, not_not]
        exact ⟨⟨h1, h2⟩, h3⟩
      · refine Or.inr ⟨hne, by simp [dimsRangeOk], ?_⟩
        rw [not_and_or]
        right
        rw [not_or, not_not]
        exact ⟨⟨h1, h2⟩, h3⟩
  · rw [twsPairCond_true_iff hdm, twsPairCond_true_iff hdm]
    constructor
    · rintro (⟨h1, h2, h3⟩ | ⟨h1, h2, h3⟩)
      · refine ⟨fun k hk1 hk2 => ?_, (oneWay_or_iff_interK ha hb hne).mp (Or.inl h3)⟩
        rcases Nat.lt_or_ge k maxDim with hk | hk
        · exact h2 k hk1 hk
        · have : k = maxDim := by omega
          rw [this]
          exact (oneWay_or_iff_interK ha hb hne).mp (Or.inl h3)
      · refine ⟨fun k hk1 hk2 => ?_, (oneWay_or_iff_interK ha hb hne).mp (Or.inr h3)⟩
        rcases Nat.lt_or_ge k maxDim with hk | hk
        · exact interK_symm (h2 k hk1 hk)
        · have : k = maxDim := by omega
          rw [this]
          exact (oneWay_or_iff_interK ha hb hne).mp (Or.inr h3)
    · rintro ⟨hdims, h0⟩
      rcases (oneWay_or_iff_interK ha hb hne).mpr h0 with h | h
      · exact Or.inl ⟨fun hc => hne hc.symm, fun k hk1 hk2 => hdims k hk1 (by omega), h⟩
      · exact Or.inr ⟨hne, fun k hk1 hk2 => interK_symm (hdims k hk1 (by omega)), h⟩

/-- On a sorted set of nondegenerate boxes, `one_way_scan(A, A, d-1)` emits
exactly the unordered symmetric-intersection pairs. -/
theorem one_way_scan_same (d : Nat) (hd : 1 ≤ d) (A : BBoxSet) (hA : SortedLo0 A.boxes)
    (hnd : ∀ e ∈ A.boxes, NonDeg e.1) (l : List (Nat × Nat)) :
    ∃ l2, one_way_scan A A (d - 1) (.Ident l) = .Ident (l ++ l2) ∧
      ∀ x y, (((x, y) ∈ l2 ∨ (y, x) ∈ l2) ↔ InterPair d A.boxes A.boxes x y) := by
  obtain ⟨l2, heq, hmem⟩ := one_way_scan_ident A A (d - 1) hA hA l
  refine ⟨l2, heq, ?_⟩
  intro x y
  constructor
  · rintro (h | h)
    · obtain ⟨ie, hie, pe, hpe, hx, hy, hle, hemit⟩ := (hmem x y).mp h
      have hne : ie.2 ≠ pe.2 := fun hc => hemit.2.1 hc.symm
      obtain ⟨hdims, h0⟩ := (owsPair_or_iff (d - 1) (hnd ie hie) (hnd pe hpe) hne).mp
        (Or.inl ⟨hle, hemit⟩)
      refine ⟨ie, hie, pe, hpe, hne, Or.inl ⟨hx, hy⟩, ?_⟩
      rw [intersects_iff_interK]
      intro k hk
      rcases Nat.eq_zero_or_pos k with hk0 | hk0
      · rw [hk0]; exact h0
      · exact hdims k hk0 (by omega)
    · obtain ⟨ie, hie, pe, hpe, hy, hx, hle, hemit⟩ := (hmem y x).mp h
      have hne : ie.2 ≠ pe.2 := fun hc => hemit.2.1 hc.symm
      obtain ⟨hdims, h0⟩ := (owsPair_or_iff (d - 1) (hnd ie hie) (hnd pe hpe) hne).mp
        (Or.inl ⟨hle, hemit⟩)
      refine ⟨ie, hie, pe, hpe, hne, Or.inr ⟨hx, hy⟩, ?_⟩
      rw [intersects_iff_interK]
      intro k hk
      rcases Nat.eq_zero_or_pos k with hk0 | hk0
      · rw [hk0]; exact h0
      · exact hdims k hk0 (by omega)
  · rintro ⟨e1, he1, e2, he2, hne, hxy, hint⟩
    rw [intersects_iff_interK] at hint
    have hpair := (owsPair_or_iff (d - 1) (hnd e1 he1) (hnd e2 he2) hne).mpr
      ⟨fun k hk1 hk2 => hint k (by omega), hint 0 hd⟩
    rcases hpair with ⟨hle, hemit⟩ | ⟨hle, hemit⟩
    · rcases hxy with ⟨hx, hy⟩ | ⟨hx, hy⟩
      · exact Or.inl ((hmem x y).mpr ⟨e1, he1, e2, he2, hx, hy, hle, hemit⟩)
      · exact Or.inr ((hmem y x).mpr ⟨e1, he1, e2, he2, hy, hx, hle, hemit⟩)
    · rcases hxy with ⟨hx, hy⟩ | ⟨hx, hy⟩
      · exact Or.inr ((hmem y x).mpr ⟨e2, he2, e1, he1, hy, hx, hle, hemit⟩)
      · exact Or.inl ((hmem x y).mpr ⟨e2, he2, e1, he1, hx, hy, hle, hemit⟩)

/-- On a sorted set of nondegenerate boxes, `simulated_one_way_scan(A, A, d-1)`
emits exactly the unordered symmetric-intersection pairs. -/
theorem sim_scan_same (d : Nat) (hd : 1 ≤ d) (A : BBoxSet) (hA : SortedLo0 A.boxes)
    (hnd : ∀ e ∈ A.boxes, NonDeg e.1) (l : List (Nat × Nat)) :
    ∃ l2, simulated_one_way_scan A A (d - 1) (.Ident l) = .Ident (l ++ l2) ∧
      ∀ x y, (((x, y) ∈ l2 ∨ (y, x) ∈ l2) ↔ InterPair d A.boxes A.boxes x y) := by
  obtain ⟨l2, heq, hmem⟩ := twsAux_ident true (d - 1) (A.boxes.length + A.boxes.length)
    A.boxes A.boxes (le_refl _) hA hA 0 0 l
  refine ⟨l2, heq, ?_⟩
  have hto : ∀ x y, (x, y) ∈ l2 →
      ∃ ie ∈ A.boxes, ∃ pe ∈ A.boxes, (x = ie.2 ∧ y = pe.2 ∨ x = pe.2 ∧ y = ie.2) ∧
        interK 0 ie.1 pe.1 ∧ twsPairCond true (d - 1) ie pe := by
    intro x y h
    rcases (hmem x y).mp h with ⟨ie, hie, pe, hpe, hx, hy, h5, h6, hcond⟩ |
      ⟨ie, hie, pe, hpe, hx, hy, h5, h6, hcond⟩
    · exact ⟨ie, hie, pe, hpe, Or.inl ⟨hx, hy⟩,
        (sweep_iff_interK0 (hnd ie hie) (hnd pe hpe)).mp (Or.inl ⟨h5, h6⟩), hcond⟩
    · exact ⟨ie, hie, pe, hpe, Or.inr ⟨hx, hy⟩,
        (sweep_iff_interK0 (hnd ie hie) (hnd pe hpe)).mp (Or.inr ⟨h5, h6⟩), hcond⟩
  intro x y
  constructor
  · intro h
    have hcore : ∃ ie ∈ A.boxes, ∃ pe ∈ A.boxes,
        (x = ie.2 ∧ y = pe.2 ∨ x = pe.2 ∧ y = ie.2) ∧
        interK 0 ie.1 pe.1 ∧ twsPairCond true (d - 1) ie pe := by
      rcases h with h | h
      · exact hto x y h
      · obtain ⟨ie, hie, pe, hpe, hxy, h0, hcond⟩ := hto y x h
        rcases hxy with ⟨hy, hx⟩ | ⟨hy, hx⟩
        · exact ⟨ie, hie, pe, hpe, Or.inr ⟨hx, hy⟩, h0, hcond⟩
        · exact ⟨ie, hie, pe, hpe, Or.inl ⟨hx, hy⟩, h0, hcond⟩
    obtain ⟨ie, hie, pe, hpe, hxy, h0, hcond⟩ := hcore
    have hne : ie.2 ≠ pe.2 := fun hc => hcond.1 hc.symm
    obtain ⟨hdims, hmax⟩ := (simPair_or_iff (d - 1) (hnd ie hie) (hnd pe hpe) hne).mp
      (Or.inl hcond)
    refine ⟨ie, hie, pe, hpe, hne, hxy, ?_⟩
    rw [intersects_iff_interK]
    intro k hk
    rcases Nat.eq_zero_or_pos k with hk0 | hk0
    · rw [hk0]; exact h0
    · exact hdims k hk0 (by omega)
  · rintro ⟨e1, he1, e2, he2, hne, hxy, hint⟩
    rw [intersects_iff_interK] at hint
    have h0 : interK 0 e1.1 e2.1 := hint 0 hd
    have hpair := (simPair_or_iff (d - 1) (hnd e1 he1) (hnd e2 he2) hne).mpr
      ⟨fun k hk1 hk2 => hint k (by omega), hint (d - 1) (by omega)⟩
    rcases hpair with hcond | hcond
    · rcases (sweep_iff_interK0 (hnd e1 he1) (hnd e2 he2)).mpr h0 with ⟨h5, h6⟩ | ⟨h5, h6⟩
      · rcases hxy with ⟨hx, hy⟩ | ⟨hx, hy⟩
        · exact Or.inl ((hmem x y).mpr (Or.inl ⟨e1, he1, e2, he2, hx, hy, h5, h6, hcond⟩))
        · exact Or.inr ((hmem y x).mpr (Or.inl ⟨e1, he1, e2, he2, hy, hx, h5, h6, hcond⟩))
      · rcases hxy with ⟨hx, hy⟩ | ⟨hx, hy⟩
        · exact Or.inr ((hmem y x).mpr (Or.inr ⟨e1, he1, e2, he2, hy, hx, h5, h6, hcond⟩))
        · exact Or.inl ((hmem x y).mpr (Or.inr ⟨e1, he1, e2, he2, hx, hy, h5, h6, hcond⟩))
    · rcases (sweep_iff_interK0 (hnd e2 he2) (hnd e1 he1)).mpr (interK_symm h0) with
        ⟨h5, h6⟩ | ⟨h5, h6⟩
      · rcases hxy with ⟨hx, hy⟩ | ⟨hx, hy⟩
        · exact Or.inr ((hmem y x).mpr (Or.inl ⟨e2, he2, e1, he1, hy, hx, h5, h6, hcond⟩))
        · exact Or.inl ((hmem x y).mpr (Or.inl ⟨e2, he2, e1, he1, hx, hy, h5, h6, hcond⟩))
      · rcases hxy with ⟨hx, hy⟩ | ⟨hx, hy⟩
        · exact Or.inl ((hmem x y).mpr (Or.inr ⟨e2, he2, e1, he1, hx, hy, h5, h6, hcond⟩))
        · exact Or.inr ((hmem y x).mpr (Or.inr ⟨e2, he2, e1, he1, hy, hx, h5, h6, hcond⟩))

/-! ## Bipartite characterisations feeding the hybrid contract -/

/-- `one_way_scan(I, P, 0)` (the `dim == 0` fallback of the hybrid engine)
emits exactly the pairs satisfying the one-way condition at axis 0. -/
theorem ows_up (I P : BBoxSet) (hI : SortedLo0 I.boxes) (hP : SortedLo0 P.boxes)
    (l : List (Nat × Nat)) :
    ∃ l2, one_way_scan I P 0 (.Ident l) = .Ident (l ++ l2) ∧
      ∀ x y, (((x, y) ∈ l2 ∨ (y, x) ∈ l2) ↔ UP I.boxes P.boxes 0 x y) := by
  obtain ⟨l2, heq, hmem⟩ := one_way_scan_ident I P 0 hI hP l
  refine ⟨l2, heq, ?_⟩
  have hcore : ∀ x y, ((x, y) ∈ l2 ↔ ∃ ie ∈ I.boxes, ∃ pe ∈ P.boxes,
      ie.2 ≠ pe.2 ∧ x = ie.2 ∧ y = pe.2 ∧ oneWayCond 0 ie pe) := by
    intro x y
    rw [hmem x y]
    unfold owsEmit oneWayCond
    constructor
    · rintro ⟨ie, hie, pe, hpe, hx, hy, hle, h1, h2, _, h4⟩
      refine ⟨ie, hie, pe, hpe, fun hc => h2 hc.symm, hx, hy, hle, h1, ?_⟩
      rw [if_pos rfl]
      exact fun hc => h4 ⟨hc.1.symm, hc.2⟩
    · rintro ⟨ie, hie, pe, hpe, hne, hx, hy, hle, h1, h4⟩
      rw [if_pos rfl] at h4
      refine ⟨ie, hie, pe, hpe, hx, hy, hle, h1, fun hc => hne hc.symm, ?_, ?_⟩
      · intro k hk
        simp at hk
      · exact fun hc => h4 ⟨hc.1.symm, hc.2⟩
  intro x y
  constructor
  · rintro (h | h)
    · obtain ⟨ie, hie, pe, hpe, hne, hx, hy, howc⟩ := (hcore x y).mp h
      exact ⟨ie, hie, pe, hpe, hne, Or.inl ⟨hx, hy⟩, by intro k hk; omega, howc⟩
    · obtain ⟨ie, hie, pe, hpe, hne, hy, hx, howc⟩ := (hcore y x).mp h
      exact ⟨ie, hie, pe, hpe, hne, Or.inr ⟨hx, hy⟩, by intro k hk; omega, howc⟩
  · rintro ⟨ie, hie, pe, hpe, hne, hxy, _, howc⟩
    rcases hxy with ⟨hx, hy⟩ | ⟨hx, hy⟩
    · exact Or.inl ((hcore x y).mpr ⟨ie, hie, pe, hpe, hne, hx, hy, howc⟩)
    · exact Or.inr ((hcore y x).mpr ⟨ie, hie, pe, hpe, hne, hy, hx, howc⟩)

/-- `simulated_one_way_scan(I, P, dim)` for `dim ≥ 1` on sorted nondegenerate
inputs emits exactly the pairs intersecting below `dim` and satisfying the
one-way condition at `dim` (this is both the cutoff fallback and the failed
median fallback of the hybrid engine). -/
theorem sim_scan_bi (dim : Nat) (hdim : dim ≠ 0) (I P : BBoxSet) (hI : SortedLo0 I.boxes)
    (hP : SortedLo0 P.boxes) (hndI : ∀ e ∈ I.boxes, NonDeg e.1)
    (hndP : ∀ e ∈ P.boxes, NonDeg e.1) (l : List (Nat × Nat)) :
    ∃ l2, simulated_one_way_scan I P dim (.Ident l) = .Ident (l ++ l2) ∧
      ∀ x y, (((x, y) ∈ l2 ∨ (y, x) ∈ l2) ↔ UP I.boxes P.boxes dim x y) := by
  obtain ⟨l2, heq, hmem⟩ := twsAux_ident true dim (I.boxes.length + P.boxes.length)
    I.boxes P.boxes (le_refl _) hI hP 0 0 l
  refine ⟨l2, heq, ?_⟩
  have hto : ∀ x y, (x, y) ∈ l2 →
      ∃ ie ∈ I.boxes, ∃ pe ∈ P.boxes, (x = ie.2 ∧ y = pe.2 ∨ x = pe.2 ∧ y = ie.2) ∧
        interK 0 ie.1 pe.1 ∧ twsPairCond true dim ie pe := by
    intro x y h
    rcases (hmem x y).mp h with ⟨ie, hie, pe, hpe, hx, hy, h5, h6, hcond⟩ |
      ⟨ie, hie, pe, hpe, hx, hy, h5, h6, hcond⟩
    · exact ⟨ie, hie, pe, hpe, Or.inl ⟨hx, hy⟩,
        (sweep_iff_interK0 (hndI ie hie) (hndP pe hpe)).mp (Or.inl ⟨h5, h6⟩), hcond⟩
    · exact ⟨ie, hie, pe, hpe, Or.inr ⟨hx, hy⟩,
        (sweep_iff_interK0 (hndI ie hie) (hndP pe hpe)).mp (Or.inr ⟨h5, h6⟩), hcond⟩
  intro x y
  constructor
  · intro h
    have hcore : ∃ ie ∈ I.boxes, ∃ pe ∈ P.boxes,
        (x = ie.2 ∧ y = pe.2 ∨ x = pe.2 ∧ y = ie.2) ∧
        interK 0 ie.1 pe.1 ∧ twsPairCond true dim ie pe := by
      rcases h with h | h
      · exact hto x y h
      · obtain ⟨ie, hie, pe, hpe, hxy, h0, hcond⟩ := hto y x h
        rcases hxy with ⟨hy, hx⟩ | ⟨hy, hx⟩
        · exact ⟨ie, hie, pe, hpe, Or.inr ⟨hx, hy⟩, h0, hcond⟩
        · exact ⟨ie, hie, pe, hpe, Or.inl ⟨hx, hy⟩, h0, hcond⟩
    obtain ⟨ie, hie, pe, hpe, hxy, h0, hcond⟩ := hcore
    rw [twsPairCond_true_iff hdim] at hcond
    obtain ⟨hne', hdims, howc⟩ := hcond
    refine ⟨ie, hie, pe, hpe, fun hc => hne' hc.symm, hxy, ?_, howc⟩
    intro k hk
    rcases Nat.eq_zero_or_pos k with hk0 | hk0
    · rw [hk0]; exact h0
    · exact hdims k hk0 hk
  · rintro ⟨ie, hie, pe, hpe, hne, hxy, hk, howc⟩
    have hcond : twsPairCond true dim ie pe := by
      rw [twsPairCond_true_iff hdim]
      exact ⟨fun hc => hne hc.symm, fun k hk1 hk2 => hk k hk2, howc⟩
    have h0 : interK 0 ie.1 pe.1 := hk 0 (by omega)
    rcases (sweep_iff_interK0 (hndI ie hie) (hndP pe hpe)).mpr h0 with ⟨h5, h6⟩ | ⟨h5, h6⟩
    · rcases hxy with ⟨hx, hy⟩ | ⟨hx, hy⟩
      · exact Or.inl ((hmem x y).mpr (Or.inl ⟨ie, hie, pe, hpe, hx, hy, h5, h6, hcond⟩))
      · exact Or.inr ((hmem y x).mpr (Or.inl ⟨ie, hie, pe, hpe, hy, hx, h5, h6, hcond⟩))
    · rcases hxy with ⟨hx, hy⟩ | ⟨hx, hy⟩
      · exact Or.inr ((hmem y x).mpr (Or.inr ⟨ie, hie, pe, hpe, hy, hx, h5, h6, hcond⟩))
      · exact Or.inl ((hmem x y).mpr (Or.inr ⟨ie, hie, pe, hpe, hx, hy, h5, h6, hcond⟩))

/-! ## Set algebra of the node split -/

theorem UP_node (I P : BBoxSet) (lo hi : EInt) (dim : Nat) (hdim : dim ≠ 0)
    (hndI : ∀ e ∈ I.boxes, NonDeg e.1) (hndP : ∀ e ∈ P.boxes, NonDeg e.1)
    (hinv : ∀ e ∈ P.boxes, lo ≤ e.1.lo dim ∧ e.1.lo dim < hi) (x y : Nat) :
    UP I.boxes P.boxes dim x y ↔
      ((UP (intervalsM I lo hi dim).boxes P.boxes (dim - 1) x y ∨
        UP P.boxes (intervalsM I lo hi dim).boxes (dim - 1) x y) ∨
       UP (intervalsLR I lo hi dim).boxes P.boxes dim x y) := by
  constructor
  · rintro ⟨ie, hie, pe, hpe, hne, hxy, hk, howc⟩
    by_cases hm : (decide (ie.1.lo dim < lo) && decide (hi < ie.1.hi dim)) = true
    · have hieM : ie ∈ (intervalsM I lo hi dim).boxes := List.mem_filter.mpr ⟨hie, hm⟩
      have hkm : interK (dim - 1) ie.1 pe.1 := hk (dim - 1) (by omega)
      rcases (oneWay_or_iff_interK (hndI ie hie) (hndP pe hpe) hne).mpr hkm with h | h
      · exact Or.inl (Or.inl ⟨ie, hieM, pe, hpe, hne, hxy,
          fun k hkk => hk k (by omega), h⟩)
      · exact Or.inl (Or.inr ⟨pe, hpe, ie, hieM, Ne.symm hne, Or.symm hxy,
          fun k hkk => interK_symm (hk k (by omega)), h⟩)
    · have hieLR : ie ∈ (intervalsLR I lo hi dim).boxes :=
        List.mem_filter.mpr ⟨hie, by simp only [Bool.not_eq_true] at hm; simp [hm]⟩
      exact Or.inr ⟨ie, hieLR, pe, hpe, hne, hxy, hk, howc⟩
  · rintro ((⟨ie, hie, pe, hpe, hne, hxy, hk, howc⟩ | ⟨ae, hae, be, hbe, hne, hxy, hk, howc⟩) |
      ⟨ie, hie, pe, hpe, hne, hxy, hk, howc⟩)
    · have hieI : ie ∈ I.boxes := (List.mem_filter.mp hie).1
      have hpred := (List.mem_filter.mp hie).2
      rw [Bool.and_eq_true, decide_eq_true_eq, decide_eq_true_eq] at hpred
      refine ⟨ie, hieI, pe, hpe, hne, hxy, ?_, ?_⟩
      · intro k hkk
        rcases Nat.lt_or_ge k (dim - 1) with hh | hh
        · exact hk k hh
        · have : k = dim - 1 := by omega
          rw [this]
          exact (oneWay_or_iff_interK (hndI ie hieI) (hndP pe hpe) hne).mp (Or.inl howc)
      · have hlo := (hinv pe hpe).1
        have hhi := (hinv pe hpe).2
        exact ⟨le_of_lt (lt_of_lt_of_le hpred.1 hlo), lt_trans hhi hpred.2,
          fun hc => absurd hc.1 (ne_of_lt (lt_of_lt_of_le hpred.1 hlo))⟩
    · have hbeI : be ∈ I.boxes := (List.mem_filter.mp hbe).1
      have hpred := (List.mem_filter.mp hbe).2
      rw [Bool.and_eq_true, decide_eq_true_eq, decide_eq_true_eq] at hpred
      refine ⟨be, hbeI, ae, hae, Ne.symm hne, Or.symm hxy, ?_, ?_⟩
      · intro k hkk
        rcases Nat.lt_or_ge k (dim - 1) with hh | hh
        · exact interK_symm (hk k hh)
        · have hkeq : k = dim - 1 := by omega
          rw [hkeq]
          exact interK_symm ((oneWay_or_iff_interK (hndP ae hae) (hndI be hbeI) hne).mp
            (Or.inl howc))
      · have hlo := (hinv ae hae).1
        have hhi := (hinv ae hae).2
        exact ⟨le_of_lt (lt_of_lt_of_le hpred.1 hlo), lt_trans hhi hpred.2,
          fun hc => absurd hc.1 (ne_of_lt (lt_of_lt_of_le hpred.1 hlo))⟩
    · exact ⟨ie, (List.mem_filter.mp hie).1, pe, hpe, hne, hxy, hk, howc⟩

theorem UP_children (Ilr P : List (BBoxZ × Nat)) (mi : EInt) (dim : Nat) (x y : Nat) :
    UP Ilr P dim x y ↔
      (UP (Ilr.filter fun e => decide (e.1.lo dim < mi))
          (P.filter fun e => decide (e.1.lo dim < mi)) dim x y ∨
       UP (Ilr.filter fun e => decide (mi < e.1.hi dim))
          (P.filter fun e => !decide (e.1.lo dim < mi)) dim x y) := by
  constructor
  · rintro ⟨ie, hie, pe, hpe, hne, hxy, hk, howc⟩
    by_cases hc : pe.1.lo dim < mi
    · refine Or.inl ⟨ie, List.mem_filter.mpr ⟨hie, ?_⟩, pe,
        List.mem_filter.mpr ⟨hpe, by simp [hc]⟩, hne, hxy, hk, howc⟩
      rw [decide_eq_true_eq]
      exact lt_of_le_of_lt howc.1 hc
    · refine Or.inr ⟨ie, List.mem_filter.mpr ⟨hie, ?_⟩, pe,
        List.mem_filter.mpr ⟨hpe, by simp [hc]⟩, hne, hxy, hk, howc⟩
      rw [decide_eq_true_eq]
      exact lt_of_le_of_lt (le_of_not_lt hc) howc.2.1
  · rintro (⟨ie, hie, pe, hpe, hne, hxy, hk, howc⟩ | ⟨ie, hie, pe, hpe, hne, hxy, hk, howc⟩)
    · exact ⟨ie, (List.mem_filter.mp hie).1, pe, (List.mem_filter.mp hpe).1, hne, hxy, hk, howc⟩
    · exact ⟨ie, (List.mem_filter.mp hie).1, pe, (List.mem_filter.mp hpe).1, hne, hxy, hk, howc⟩

/-! ## The hybrid engine contract -/

theorem hybrid_flex_succ (levelsOf : Nat → Nat) (C fuel : Nat) (I P : BBoxSet) (lo hi : EInt)
    (dim : Nat) (out : AnswerFormat) (rand : Nat → Nat) (ctr : Nat) :
    hybrid_flex levelsOf C (fuel + 1) I P lo hi dim out rand ctr =
      if I.empty ∨ P.empty ∨ hi ≤ lo then some (out, ctr)
      else if dim = 0 then some (one_way_scan I P 0 out, ctr)
      else if I.len < C ∨ P.len < C then some (simulated_one_way_scan I P dim out, ctr)
      else
        (hybrid_flex levelsOf C fuel (intervalsM I lo hi dim) P ⊥ ⊤ (dim - 1) out rand ctr).bind
          fun s1 =>
        (hybrid_flex levelsOf C fuel P (intervalsM I lo hi dim) ⊥ ⊤ (dim - 1) s1.1 rand s1.2).bind
          fun s2 =>
        if (P.approx_median levelsOf dim rand s2.2).1 = hi ∨
            (P.approx_median levelsOf dim rand s2.2).1 = lo then
          some (simulated_one_way_scan (intervalsLR I lo hi dim) P dim s2.1,
            (P.approx_median levelsOf dim rand s2.2).2)
        else
          (hybrid_flex levelsOf C fuel
              ⟨(intervalsLR I lo hi dim).boxes.filter fun e =>
                decide (e.1.lo dim < (P.approx_median levelsOf dim rand s2.2).1)⟩
              ⟨P.boxes.filter fun e =>
                decide (e.1.lo dim < (P.approx_median levelsOf dim rand s2.2).1)⟩
              lo (P.approx_median levelsOf dim rand s2.2).1 dim
              s2.1 rand (P.approx_median levelsOf dim rand s2.2).2).bind fun s3 =>
          hybrid_flex levelsOf C fuel
              ⟨(intervalsLR I lo hi dim).boxes.filter fun e =>
                decide ((P.approx_median levelsOf dim rand s2.2).1 < e.1.hi dim)⟩
              ⟨P.boxes.filter fun e =>
                !decide (e.1.lo dim < (P.approx_median levelsOf dim rand s2.2).1)⟩
              (P.approx_median levelsOf dim rand s2.2).1 hi dim
              s3.1 rand s3.2 := rfl

theorem empty_boxes {s : BBoxSet} (h : s.empty) : s.boxes = [] := List.length_eq_zero.mp h

theorem upmem_append (l1 l2 : List (Nat × Nat)) (x y : Nat) :
    (((x, y) ∈ l1 ++ l2 ∨ (y, x) ∈ l1 ++ l2) ↔
      (((x, y) ∈ l1 ∨ (y, x) ∈ l1) ∨ ((x, y) ∈ l2 ∨ (y, x) ∈ l2))) := by
  simp only [List.mem_append]
  tauto

/-- The central invariant of the hybrid engine: a run on sorted,
nondegenerate inputs whose points all have `lo(dim)` inside the segment
`[lo, hi)` appends exactly (as a set of unordered identifier pairs) the pairs
of `UP`: boxes from the two inputs with distinct identifiers, overlapping on
all axes below `dim`, with the one-way condition at `dim`. -/
theorem hybrid_contract (levelsOf : Nat → Nat) (C : Nat) :
    ∀ (fuel : Nat) (I P : BBoxSet) (lo hi : EInt) (dim : Nat) (rand : Nat → Nat) (ctr : Nat)
      (l : List (Nat × Nat)) (res : AnswerFormat) (ctrF : Nat),
      SortedLo0 I.boxes → SortedLo0 P.boxes →
      (∀ e ∈ I.boxes, NonDeg e.1) → (∀ e ∈ P.boxes, NonDeg e.1) →
      (∀ e ∈ P.boxes, lo ≤ e.1.lo dim ∧ e.1.lo dim < hi) →
      hybrid_flex levelsOf C fuel I P lo hi dim (.Ident l) rand ctr = some (res, ctrF) →
      ∃ l2, res = .Ident (l ++ l2) ∧
        ∀ x y, (((x, y) ∈ l2 ∨ (y, x) ∈ l2) ↔ UP I.boxes P.boxes dim x y) := by
  intro fuel
  induction fuel with
  | zero =>
    intro I P lo hi dim rand ctr l res ctrF _ _ _ _ _ hrun
    exact absurd hrun (by simp [hybrid_flex])
  | succ fuel ih =>
    intro I P lo hi dim rand ctr l res ctrF hsI hsP hndI hndP hinv hrun
    rw [hybrid_flex_succ] at hrun
    by_cases h1 : I.empty ∨ P.empty ∨ hi ≤ lo
    · rw [if_pos h1, Option.some.injEq, Prod.mk.injEq] at hrun
      refine ⟨[], by rw [← hrun.1, List.append_nil], ?_⟩
      intro x y
      simp only [List.not_mem_nil, or_self, false_iff]
      rintro ⟨ie, hie, pe, hpe, _, _, _, _⟩
      rcases h1 with h | h | h
      · rw [empty_boxes h] at hie
        exact absurd hie (List.not_mem_nil _)
      · rw [empty_boxes h] at hpe
        exact absurd hpe (List.not_mem_nil _)
      · have h2 := hinv pe hpe
        exact absurd (lt_of_le_of_lt h2.1 (lt_of_lt_of_le h2.2 h)) (lt_irrefl _)
    · rw [if_neg h1] at hrun
      by_cases h2 : dim = 0
      · subst h2
        rw [if_pos rfl, Option.some.injEq, Prod.mk.injEq] at hrun
        obtain ⟨l2, heq, hiff⟩ := ows_up I P hsI hsP l
        exact ⟨l2, by rw [← hrun.1, heq], hiff⟩
      · rw [if_neg h2] at hrun
        by_cases h3 : I.len < C ∨ P.len < C
        · rw [if_pos h3, Option.some.injEq, Prod.mk.injEq] at hrun
          obtain ⟨l2, heq, hiff⟩ := sim_scan_bi dim h2 I P hsI hsP hndI hndP l
          exact ⟨l2, by rw [← hrun.1, heq], hiff⟩
        · rw [if_neg h3] at hrun
          have hsM : SortedLo0 (intervalsM I lo hi dim).boxes := sortedLo0_filter hsI _
          have hndM : ∀ e ∈ (intervalsM I lo hi dim).boxes, NonDeg e.1 :=
            fun e he => hndI e (List.mem_filter.mp he).1
          have hinvP2 : ∀ e ∈ P.boxes, (⊥ : EInt) ≤ e.1.lo (dim - 1) ∧
              e.1.lo (dim - 1) < (⊤ : EInt) :=
            fun e he => ⟨bot_le, lt_of_lt_of_le (hndP e he (dim - 1)) le_top⟩
          have hinvM2 : ∀ e ∈ (intervalsM I lo hi dim).boxes, (⊥ : EInt) ≤ e.1.lo (dim - 1) ∧
              e.1.lo (dim - 1) < (⊤ : EInt) :=
            fun e he => ⟨bot_le, lt_of_lt_of_le (hndM e he (dim - 1)) le_top⟩
          cases hrec1 : hybrid_flex levelsOf C fuel (intervalsM I lo hi dim) P ⊥ ⊤ (dim - 1)
              (.Ident l) rand ctr with
          | none =>
            rw [hrec1, Option.none_bind] at hrun
            exact absurd hrun (by simp)
          | some s1 =>
            rw [hrec1, Option.some_bind] at hrun
            obtain ⟨out1, ctr1⟩ := s1
            obtain ⟨l2a, hout1, hmemA⟩ := ih (intervalsM I lo hi dim) P ⊥ ⊤ (dim - 1) rand ctr
              l out1 ctr1 hsM hsP hndM hndP hinvP2 hrec1
            subst hout1
            cases hrec2 : hybrid_flex levelsOf C fuel P (intervalsM I lo hi dim) ⊥ ⊤ (dim - 1)
                (.Ident (l ++ l2a)) rand ctr1 with
            | none =>
              rw [hrec2, Option.none_bind] at hrun
              exact absurd hrun (by simp)
            | some s2 =>
              rw [hrec2, Option.some_bind] at hrun
              obtain ⟨out2, ctr2⟩ := s2
              obtain ⟨l2b, hout2, hmemB⟩ := ih P (intervalsM I lo hi dim) ⊥ ⊤ (dim - 1) rand
                ctr1 (l ++ l2a) out2 ctr2 hsP hsM hndP hndM hinvM2 hrec2
              subst hout2
              have hsLR : SortedLo0 (intervalsLR I lo hi dim).boxes := sortedLo0_filter hsI _
              have hndLR : ∀ e ∈ (intervalsLR I lo hi dim).boxes, NonDeg e.1 :=
                fun e he => hndI e (List.mem_filter.mp he).1
              by_cases hmi : (P.approx_median levelsOf dim rand ctr2).1 = hi ∨
                  (P.approx_median levelsOf dim rand ctr2).1 = lo
              · rw [if_pos hmi, Option.some.injEq, Prod.mk.injEq] at hrun
                obtain ⟨l2c, heqC, hmemC⟩ := sim_scan_bi dim h2 (intervalsLR I lo hi dim) P
                  hsLR hsP hndLR hndP ((l ++ l2a) ++ l2b)
                refine ⟨(l2a ++ l2b) ++ l2c, ?_, ?_⟩
                · rw [← hrun.1, heqC]
                  congr 1
                  simp [List.append_assoc]
                · intro x y
                  rw [upmem_append, upmem_append, hmemC x y,
                    UP_node I P lo hi dim h2 hndI hndP hinv]
                  constructor
                  · rintro ((h | h) | h)
                    · exact Or.inl (Or.inl ((hmemA x y).mp h))
                    · exact Or.inl (Or.inr ((hmemB x y).mp h))
                    · exact Or.inr h
                  · rintro ((h | h) | h)
                    · exact Or.inl (Or.inl ((hmemA x y).mpr h))
                    · exact Or.inl (Or.inr ((hmemB x y).mpr h))
                    · exact Or.inr h
              · rw [if_neg hmi] at hrun
                have hsPl : SortedLo0 (P.boxes.filter fun e =>
                    decide (e.1.lo dim < (P.approx_median levelsOf dim rand ctr2).1)) :=
                  sortedLo0_filter hsP _
                have hsPr : SortedLo0 (P.boxes.filter fun e =>
                    !decide (e.1.lo dim < (P.approx_median levelsOf dim rand ctr2).1)) :=
                  sortedLo0_filter hsP _
                have hsIl : SortedLo0 ((intervalsLR I lo hi dim).boxes.filter fun e =>
                    decide (e.1.lo dim < (P.approx_median levelsOf dim rand ctr2).1)) :=
                  sortedLo0_filter hsLR _
                have hsIr : SortedLo0 ((intervalsLR I lo hi dim).boxes.filter fun e =>
                    decide ((P.approx_median levelsOf dim rand ctr2).1 < e.1.hi dim)) :=
                  sortedLo0_filter hsLR _
                cases hrec3 : hybrid_flex levelsOf C fuel
                    ⟨(intervalsLR I lo hi dim).boxes.filter fun e =>
                      decide (e.1.lo dim < (P.approx_median levelsOf dim rand ctr2).1)⟩
                    ⟨P.boxes.filter fun e =>
                      decide (e.1.lo dim < (P.approx_median levelsOf dim rand ctr2).1)⟩
                    lo (P.approx_median levelsOf dim rand ctr2).1 dim
                    (.Ident ((l ++ l2a) ++ l2b)) rand
                    (P.approx_median levelsOf dim rand ctr2).2 with
                | none =>
                  rw [hrec3, Option.none_bind] at hrun
                  exact absurd hrun (by simp)
                | some s3 =>
                  rw [hrec3, Option.some_bind] at hrun
                  obtain ⟨out3, ctr3⟩ := s3
                  obtain ⟨l2c, hout3, hmemC⟩ := ih _ _ lo
                    (P.approx_median levelsOf dim rand ctr2).1 dim rand
                    (P.approx_median levelsOf dim rand ctr2).2 ((l ++ l2a) ++ l2b) out3 ctr3
                    hsIl hsPl
                    (fun e he => hndLR e (List.mem_filter.mp he).1)
                    (fun e he => hndP e (List.mem_filter.mp he).1)
                    (fun e he => ⟨(hinv e (List.mem_filter.mp he).1).1,
                      of_decide_eq_true (List.mem_filter.mp he).2⟩)
                    hrec3
                  subst hout3
                  obtain ⟨l2d, hout4, hmemD⟩ := ih _ _
                    (P.approx_median levelsOf dim rand ctr2).1 hi dim rand ctr3
                    (((l ++ l2a) ++ l2b) ++ l2c) res ctrF
                    hsIr hsPr
                    (fun e he => hndLR e (List.mem_filter.mp he).1)
                    (fun e he => hndP e (List.mem_filter.mp he).1)
                    (fun e he => ⟨le_of_not_lt (of_decide_eq_true
                        (by simpa using (List.mem_filter.mp he).2) : _),
                      (hinv e (List.mem_filter.mp he).1).2⟩)
                    hrun
                  refine ⟨((l2a ++ l2b) ++ l2c) ++ l2d, ?_, ?_⟩
                  · rw [hout4]
                    congr 1
                    simp [List.append_assoc]
                  · intro x y
                    rw [upmem_append, upmem_append, upmem_append, hmemC x y, hmemD x y,
                      UP_node I P lo hi dim h2 hndI hndP hinv,
                      UP_children (intervalsLR I lo hi dim).boxes P.boxes
                        (P.approx_median levelsOf dim rand ctr2).1 dim x y]
                    constructor
                    · rintro (((h | h) | h) | h)
                      · exact Or.inl (Or.inl ((hmemA x y).mp h))
                      · exact Or.inl (Or.inr ((hmemB x y).mp h))
                      · exact Or.inr (Or.inl h)
                      · exact Or.inr (Or.inr h)
                    · rintro ((h | h) | (h | h))
                      · exact Or.inl (Or.inl (Or.inl ((hmemA x y).mpr h)))
                      · exact Or.inl (Or.inl (Or.inr ((hmemB x y).mpr h)))
                      · exact Or.inl (Or.inr h)
                      · exact Or.inr h

/-! ## From the engine contract to unordered intersection pairs -/

theorem UP_top_iff_InterPair (d : Nat) (hd : 1 ≤ d) (A B : List (BBoxZ × Nat))
    (hndA : ∀ e ∈ A, NonDeg e.1) (hndB : ∀ e ∈ B, NonDeg e.1) (x y : Nat) :
    (UP A B (d - 1) x y ∨ UP B A (d - 1) x y) ↔ InterPair d A B x y := by
  constructor
  · rintro (⟨ie, hie, pe, hpe, hne, hxy, hk, howc⟩ | ⟨ie, hie, pe, hpe, hne, hxy, hk, howc⟩)
    · refine ⟨ie, hie, pe, hpe, hne, hxy, ?_⟩
      rw [intersects_iff_interK]
      intro k hk2
      rcases Nat.lt_or_ge k (d - 1) with hh | hh
      · exact hk k hh
      · have : k = d - 1 := by omega
        rw [this]
        exact (oneWay_or_iff_interK (hndA ie hie) (hndB pe hpe) hne).mp (Or.inl howc)
    · refine ⟨pe, hpe, ie, hie, Ne.symm hne, Or.symm hxy, ?_⟩
      rw [intersects_iff_interK]
      intro k hk2
      rcases Nat.lt_or_ge k (d - 1) with hh | hh
      · exact interK_symm (hk k hh)
      · have : k = d - 1 := by omega
        rw [this]
        exact interK_symm ((oneWay_or_iff_interK (hndB ie hie) (hndA pe hpe) hne).mp
          (Or.inl howc))
  · rintro ⟨e1, he1, e2, he2, hne, hxy, hint⟩
    rw [intersects_iff_interK] at hint
    rcases (oneWay_or_iff_interK (hndA e1 he1) (hndB e2 he2) hne).mpr
        (hint (d - 1) (by omega)) with h | h
    · exact Or.inl ⟨e1, he1, e2, he2, hne, hxy, fun k hk => hint k (by omega), h⟩
    · exact Or.inr ⟨e2, he2, e1, he1, Ne.symm hne, Or.symm hxy,
        fun k hk => interK_symm (hint k (by omega)), h⟩

theorem InterPair_swap (d : Nat) (A B : List (BBoxZ × Nat)) (x y : Nat) :
    InterPair d B A x y ↔ InterPair d A B x y := by
  constructor <;> rintro ⟨e1, he1, e2, he2, hne, hxy, hint⟩ <;>
    exact ⟨e2, he2, e1, he1, Ne.symm hne, Or.symm hxy, intersects_symm hint⟩

theorem mem_upairs_le {l : List (Nat × Nat)} {u v : Nat} (h : (u, v) ∈ upairs l) : u ≤ v := by
  unfold upairs at h
  rw [List.mem_toFinset, List.mem_map] at h
  obtain ⟨e, _, hval⟩ := h
  unfold pnorm at hval
  rw [Prod.mk.injEq] at hval
  rw [← hval.1, ← hval.2]
  exact min_le_max

theorem mem_upairs {l : List (Nat × Nat)} {u v : Nat} (huv : u ≤ v) :
    ((u, v) ∈ upairs l ↔ ((u, v) ∈ l ∨ (v, u) ∈ l)) := by
  unfold upairs pnorm
  rw [List.mem_toFinset, List.mem_map]
  constructor
  · rintro ⟨⟨a, b⟩, hmem, hval⟩
    rw [Prod.mk.injEq] at hval
    rcases le_total a b with hab | hab
    · left
      have h1 : min a b = a := min_eq_left hab
      have h2 : max a b = b := max_eq_right hab
      rw [h1] at hval
      rw [h2] at hval
      rw [← hval.1, ← hval.2]
      exact hmem
    · right
      have h1 : min a b = b := min_eq_right hab
      have h2 : max a b = a := max_eq_left hab
      rw [h1] at hval
      rw [h2] at hval
      rw [← hval.1, ← hval.2]
      exact hmem
  · rintro (h | h)
    · exact ⟨(u, v), h, by rw [Prod.mk.injEq]; exact ⟨min_eq_left huv, max_eq_right huv⟩⟩
    · exact ⟨(v, u), h, by rw [Prod.mk.injEq]; exact ⟨min_eq_right huv, max_eq_left huv⟩⟩

theorem upairs_eq_of_upmem_iff {l1 l2 : List (Nat × Nat)}
    (h : ∀ x y, (((x, y) ∈ l1 ∨ (y, x) ∈ l1) ↔ ((x, y) ∈ l2 ∨ (y, x) ∈ l2))) :
    upairs l1 = upairs l2 := by
  apply Finset.ext
  rintro ⟨u, v⟩
  by_cases huv : u ≤ v
  · rw [mem_upairs huv, mem_upairs huv]
    exact h u v
  · constructor <;> intro hm <;> exact absurd (mem_upairs_le hm) huv

/-- Identifiers never shared between the two input sets (the bipartite-mode
precondition under which brute force cannot emit equal-identifier pairs). -/
def DisjointIds (A B : List (BBoxZ × Nat)) : Prop := ∀ ea ∈ A, ∀ eb ∈ B, ea.2 ≠ eb.2

instance (A B : List (BBoxZ × Nat)) : Decidable (DisjointIds A B) :=
  inferInstanceAs (Decidable (∀ ea ∈ A, ∀ eb ∈ B, _ ≠ _))

theorem ows_same_iff (d : Nat) (hd : 1 ≤ d) (A : BBoxSet) (hA : SortedLo0 A.boxes)
    (hnd : ∀ e ∈ A.boxes, NonDeg e.1) (x y : Nat) :
    (((x, y) ∈ identOf (one_way_scan A A (d - 1) (.Ident [])) ∨
      (y, x) ∈ identOf (one_way_scan A A (d - 1) (.Ident []))) ↔
      InterPair d A.boxes A.boxes x y) := by
  obtain ⟨l2, heq, hiff⟩ := one_way_scan_same d hd A hA hnd []
  rw [heq]
  exact hiff x y

theorem sim_same_iff (d : Nat) (hd : 1 ≤ d) (A : BBoxSet) (hA : SortedLo0 A.boxes)
    (hnd : ∀ e ∈ A.boxes, NonDeg e.1) (x y : Nat) :
    (((x, y) ∈ identOf (simulated_one_way_scan A A (d - 1) (.Ident [])) ∨
      (y, x) ∈ identOf (simulated_one_way_scan A A (d - 1) (.Ident []))) ↔
      InterPair d A.boxes A.boxes x y) := by
  obtain ⟨l2, heq, hiff⟩ := sim_scan_same d hd A hA hnd []
  rw [heq]
  exact hiff x y

theorem bruteSame_iff (d : Nat) (A : BBoxSet) (hu : UniqueIds A.boxes) (x y : Nat) :
    (((x, y) ∈ identOf (intersect_brute_force_flex d A A true (.Ident [])) ∨
      (y, x) ∈ identOf (intersect_brute_force_flex d A A true (.Ident []))) ↔
      InterPair d A.boxes A.boxes x y) := by
  obtain ⟨l2, heq, hiff⟩ := bfSameOuter_ident d A.boxes hu 0 []
  have hrw : intersect_brute_force_flex d A A true (.Ident []) = .Ident l2 := heq
  rw [hrw]
  exact hiff x y

theorem bruteDist_iff (d : Nat) (a b : BBoxSet) (hdisj : DisjointIds a.boxes b.boxes)
    (x y : Nat) :
    (((x, y) ∈ identOf (intersect_brute_force_flex d a b false (.Ident [])) ∨
      (y, x) ∈ identOf (intersect_brute_force_flex d a b false (.Ident []))) ↔
      InterPair d a.boxes b.boxes x y) := by
  obtain ⟨l2, heq, hmem⟩ := bfDistOuter_ident d b.boxes a.boxes 0 []
  have hrw : intersect_brute_force_flex d a b false (.Ident []) = .Ident l2 := heq
  rw [hrw]
  show ((x, y) ∈ l2 ∨ (y, x) ∈ l2) ↔ _
  rw [hmem x y, hmem y x]
  constructor
  · rintro (⟨ea, hea, eb, heb, hx, hy, hint⟩ | ⟨ea, hea, eb, heb, hy, hx, hint⟩)
    · exact ⟨ea, hea, eb, heb, hdisj ea hea eb heb, Or.inl ⟨hx, hy⟩, hint⟩
    · exact ⟨ea, hea, eb, heb, hdisj ea hea eb heb, Or.inr ⟨hx, hy⟩, hint⟩
  · rintro ⟨ea, hea, eb, heb, _, hxy, hint⟩
    rcases hxy with ⟨hx, hy⟩ | ⟨hx, hy⟩
    · exact Or.inl ⟨ea, hea, eb, heb, hx, hy, hint⟩
    · exact Or.inr ⟨ea, hea, eb, heb, hy, hx, hint⟩

theorem ze_same_iff (levelsOf : Nat → Nat) (C fuel d : Nat) (hd : 1 ≤ d) (A : BBoxSet)
    (hA : SortedLo0 A.boxes) (hnd : ∀ e ∈ A.boxes, NonDeg e.1) (rand : Nat → Nat)
    (ctr : Nat) (res : AnswerFormat) (ctrF : Nat)
    (hrun : intersect_ze_custom levelsOf C fuel d A A true [] rand ctr = some (res, ctrF))
    (x y : Nat) :
    (((x, y) ∈ identOf res ∨ (y, x) ∈ identOf res) ↔ InterPair d A.boxes A.boxes x y) := by
  unfold intersect_ze_custom at hrun
  rw [if_pos rfl] at hrun
  obtain ⟨l2, hres, hiff⟩ := hybrid_contract levelsOf C fuel A A ⊥ ⊤ (d - 1) rand ctr [] res
    ctrF hA hA hnd hnd
    (fun e he => ⟨bot_le, lt_of_lt_of_le (hnd e he (d - 1)) le_top⟩) hrun
  rw [hres]
  show ((x, y) ∈ l2 ∨ (y, x) ∈ l2) ↔ _
  rw [hiff x y, ← UP_top_iff_InterPair d hd A.boxes A.boxes hnd hnd x y, or_self]

theorem ze_dist_iff (levelsOf : Nat → Nat) (C fuel d : Nat) (hd : 1 ≤ d) (a b : BBoxSet)
    (hsa : SortedLo0 a.boxes) (hsb : SortedLo0 b.boxes)
    (hnda : ∀ e ∈ a.boxes, NonDeg e.1) (hndb : ∀ e ∈ b.boxes, NonDeg e.1)
    (rand : Nat → Nat) (ctr : Nat) (res : AnswerFormat) (ctrF : Nat)
    (hrun : intersect_ze_custom levelsOf C fuel d a b false [] rand ctr = some (res, ctrF))
    (x y : Nat) :
    (((x, y) ∈ identOf res ∨ (y, x) ∈ identOf res) ↔ InterPair d a.boxes b.boxes x y) := by
  unfold intersect_ze_custom at hrun
  rw [if_neg (by simp)] at hrun
  cases hrec1 : hybrid_flex levelsOf C fuel a b ⊥ ⊤ (d - 1) (.Ident []) rand ctr with
  | none =>
    rw [hrec1, Option.none_bind] at hrun
    exact absurd hrun (by simp)
  | some s1 =>
    rw [hrec1, Option.some_bind] at hrun
    obtain ⟨out1, ctr1⟩ := s1
    obtain ⟨l2a, hout1, hmemA⟩ := hybrid_contract levelsOf C fuel a b ⊥ ⊤ (d - 1) rand ctr []
      out1 ctr1 hsa hsb hnda hndb
      (fun e he => ⟨bot_le, lt_of_lt_of_le (hndb e he (d - 1)) le_top⟩) hrec1
    subst hout1
    obtain ⟨l2b, hres, hmemB⟩ := hybrid_contract levelsOf C fuel b a ⊥ ⊤ (d - 1) rand ctr1
      ([] ++ l2a) res ctrF hsb hsa hndb hnda
      (fun e he => ⟨bot_le, lt_of_lt_of_le (hnda e he (d - 1)) le_top⟩) hrun
    rw [hres]
    show ((x, y) ∈ ([] ++ l2a) ++ l2b ∨ (y, x) ∈ ([] ++ l2a) ++ l2b) ↔ _
    rw [List.nil_append, upmem_append, hmemB x y]
    constructor
    · rintro (h | h)
      · exact (UP_top_iff_InterPair d hd a.boxes b.boxes hnda hndb x y).mp
          (Or.inl ((hmemA x y).mp h))
      · exact (UP_top_iff_InterPair d hd a.boxes b.boxes hnda hndb x y).mp (Or.inr h)
    · intro h
      rcases (UP_top_iff_InterPair d hd a.boxes b.boxes hnda hndb x y).mpr h with hh | hh
      · exact Or.inl ((hmemA x y).mpr hh)
      · exact Or.inr hh

/-! ## Claim C1 -/

/-- An axis-aligned cube with the same bounds on every axis (used for concrete
witnesses and counterexamples). -/
def wBox (a b : EInt) : BBoxZ := ⟨fun _ => a, fun _ => b⟩

theorem NonDeg_wBox {a b : EInt} (h : a < b) : NonDeg (wBox a b) := fun _ => h

/-- A sorted two-entry set with unique identifiers whose second box is empty
(`hi < lo` on every axis): the scans and brute force disagree on it. -/
def degSet : BBoxSet := ⟨[(wBox 0 10, 0), (⟨fun _ => (5 : EInt), fun _ => ((-1 : Int) : EInt)⟩, 1)]⟩

/-- C1 (counterexample to the claim as stated): a sorted `BBoxSet` with
pairwise-unique, pairwise-comparable identifiers and pairwise-comparable
endpoints on which `intersect_scan(A, A)` (that is, `one_way_scan(A, A, d-1)`)
and `intersect_brute_force(A, A)` produce different unordered identifier pair
sets.  The second box is empty (`hi(k) < lo(k)`): the scan reports the pair
`{0, 1}` because box 1's low corner lies inside box 0, while brute force
reports nothing because the boxes do not intersect. -/
theorem C1_counterexample :
    SortedLo0 degSet.boxes ∧ UniqueIds degSet.boxes ∧
    upairs (identOf (intersect_scan_flex 1 degSet degSet true (.Ident []))) ≠
      upairs (identOf (intersect_brute_force_flex 1 degSet degSet true (.Ident []))) := by
  refine ⟨by decide, by decide, ?_⟩
  decide

/-- C1 (amended): for every dimension `d ≥ 1` and every sorted `BBoxSet A`
with pairwise-unique identifiers and every box nonempty on every axis
(`lo(k) < hi(k)`), the algorithms `one_way_scan(A, A, d-1)`,
`simulated_one_way_scan(A, A, d-1)`, `intersect_scan(A, A)`, and
`intersect_ze(A, A)` (the latter for every RNG, every level-count function and
every sufficient fuel) produce the same set of unordered identifier pairs as
`intersect_brute_force(A, A)`. -/
theorem C1_amended (d : Nat) (hd : 1 ≤ d) (A : BBoxSet) (hA : SortedLo0 A.boxes)
    (hu : UniqueIds A.boxes) (hnd : ∀ e ∈ A.boxes, NonDeg e.1) :
    upairs (identOf (one_way_scan A A (d - 1) (.Ident []))) =
      upairs (identOf (intersect_brute_force_flex d A A true (.Ident []))) ∧
    upairs (identOf (simulated_one_way_scan A A (d - 1) (.Ident []))) =
      upairs (identOf (intersect_brute_force_flex d A A true (.Ident []))) ∧
    upairs (identOf (intersect_scan_flex d A A true (.Ident []))) =
      upairs (identOf (intersect_brute_force_flex d A A true (.Ident []))) ∧
    ∀ (levelsOf : Nat → Nat) (fuel : Nat) (rand : Nat → Nat) (ctr : Nat) (res : AnswerFormat)
      (ctrF : Nat), intersect_ze levelsOf fuel d A A true [] rand ctr = some (res, ctrF) →
      upairs (identOf res) =
        upairs (identOf (intersect_brute_force_flex d A A true (.Ident []))) := by
  refine ⟨?_, ?_, ?_, ?_⟩
  · exact upairs_eq_of_upmem_iff fun x y =>
      (ows_same_iff d hd A hA hnd x y).trans (bruteSame_iff d A hu x y).symm
  · exact upairs_eq_of_upmem_iff fun x y =>
      (sim_same_iff d hd A hA hnd x y).trans (bruteSame_iff d A hu x y).symm
  · exact upairs_eq_of_upmem_iff fun x y =>
      (ows_same_iff d hd A hA hnd x y).trans (bruteSame_iff d A hu x y).symm
  · intro levelsOf fuel rand ctr res ctrF hrun
    exact upairs_eq_of_upmem_iff fun x y =>
      (ze_same_iff levelsOf 1000 fuel d hd A hA hnd rand ctr res ctrF hrun x y).trans
        (bruteSame_iff d A hu x y).symm

/-- Concrete witness set for the amended C1: three nonempty cubes. -/
def wSet : BBoxSet := ⟨[(wBox 0 10, 0), (wBox 5 15, 1), (wBox 20 30, 2)]⟩

/-- Witness for the amended C1 at a concrete input. -/
theorem C1_amended_witness :
    upairs (identOf (one_way_scan wSet wSet (3 - 1) (.Ident []))) =
      upairs (identOf (intersect_brute_force_flex 3 wSet wSet true (.Ident []))) :=
  (C1_amended 3 (by decide) wSet (by decide) (by decide)
    (by intro e he; fin_cases he <;> exact NonDeg_wBox (by decide))).1

/-! ## Claim C2 -/

/-- Two singleton sets, each with unique identifiers, sharing identifier 7
between the sets; the boxes intersect. -/
def cxa : BBoxSet := ⟨[(wBox 0 10, 7)]⟩

/-- See `cxa`. -/
def cxb : BBoxSet := ⟨[(wBox 1 5, 7)]⟩

/-- C2 (counterexample to the claim as stated): for distinct sorted sets with
identifiers unique within each set but shared across the sets,
`intersect_ze_custom` (here CUTOFF = 1, a completed run) emits nothing while
brute force emits the pair `(7, 7)`, so the unordered pair sets differ. -/
theorem C2_counterexample :
    SortedLo0 cxa.boxes ∧ SortedLo0 cxb.boxes ∧ UniqueIds cxa.boxes ∧ UniqueIds cxb.boxes ∧
    intersect_ze_custom (fun _ => 1) 1 3 1 cxa cxb false [] (fun _ => 0) 0 =
      some (.Ident [], 0) ∧
    upairs (identOf (AnswerFormat.Ident ([] : List (Nat × Nat)))) ≠
      upairs (identOf (intersect_brute_force_flex 1 cxa cxb false (.Ident []))) := by
  refine ⟨by decide, by decide, by decide, by decide, by decide, ?_⟩
  decide

/-- C2 (amended): for every CUTOFF (in particular every CUTOFF ≥ 1), every
level-count function, every RNG and every fuel on which the run completes,
and all sorted inputs with identifiers unique within each set, every box
nonempty on every axis, and — in the distinct-set mode — no identifier shared
between the two sets, `intersect_ze_custom` emits exactly the unordered
identifier pair set of `intersect_brute_force`, in the same-set mode and in
the distinct-set mode. -/
theorem C2_amended (levelsOf : Nat → Nat) (CUTOFF : Nat) (hC : 1 ≤ CUTOFF) (fuel d : Nat)
    (hd : 1 ≤ d) (a b : BBoxSet) (hsa : SortedLo0 a.boxes) (hsb : SortedLo0 b.boxes)
    (hua : UniqueIds a.boxes) (hub : UniqueIds b.boxes)
    (hnda : ∀ e ∈ a.boxes, NonDeg e.1) (hndb : ∀ e ∈ b.boxes, NonDeg e.1)
    (hdisj : DisjointIds a.boxes b.boxes) :
    (∀ (rand : Nat → Nat) (ctr : Nat) (res : AnswerFormat) (ctrF : Nat),
      intersect_ze_custom levelsOf CUTOFF fuel d a a true [] rand ctr = some (res, ctrF) →
      upairs (identOf res) =
        upairs (identOf (intersect_brute_force_flex d a a true (.Ident [])))) ∧
    (∀ (rand : Nat → Nat) (ctr : Nat) (res : AnswerFormat) (ctrF : Nat),
      intersect_ze_custom levelsOf CUTOFF fuel d a b false [] rand ctr = some (res, ctrF) →
      upairs (identOf res) =
        upairs (identOf (intersect_brute_force_flex d a b false (.Ident [])))) := by
  constructor
  · intro rand ctr res ctrF hrun
    exact upairs_eq_of_upmem_iff fun x y =>
      (ze_same_iff levelsOf CUTOFF fuel d hd a hsa hnda rand ctr res ctrF hrun x y).trans
        (bruteSame_iff d a hua x y).symm
  · intro rand ctr res ctrF hrun
    exact upairs_eq_of_upmem_iff fun x y =>
      (ze_dist_iff levelsOf CUTOFF fuel d hd a b hsa hsb hnda hndb rand ctr res ctrF
        hrun x y).trans (bruteDist_iff d a b hdisj x y).symm

/-- Concrete witness sets for the amended C2 (bipartite mode): disjoint
identifier ranges. -/
def w2A : BBoxSet := ⟨[(wBox 0 10, 0), (wBox 5 15, 1)]⟩

/-- See `w2A`. -/
def w2B : BBoxSet := ⟨[(wBox 2 4, 10), (wBox 12 20, 11)]⟩

/-- Witness for the amended C2 at a concrete input (CUTOFF 1, fuel 6,
a completed bipartite run). -/
theorem C2_amended_witness :
    upairs (identOf (AnswerFormat.Ident [(0, 10), (1, 11)])) =
      upairs (identOf (intersect_brute_force_flex 3 w2A w2B false (.Ident []))) :=
  (C2_amended (fun _ => 1) 1 (by decide) 6 3 (by decide) w2A w2B (by decide) (by decide)
    (by decide) (by decide)
    (by intro e he; fin_cases he <;> exact NonDeg_wBox (by decide))
    (by intro e he; fin_cases he <;> exact NonDeg_wBox (by decide))
    (by decide)).2 (fun _ => 0) 0 (AnswerFormat.Ident [(0, 10), (1, 11)]) 12 (by decide)

/-! ## Claim C6 -/

theorem uniqueIds_eq_of_id_eq :
    ∀ (l : List (BBoxZ × Nat)), UniqueIds l → ∀ e1 ∈ l, ∀ e2 ∈ l, e1.2 = e2.2 → e1 = e2 := by
  intro l
  induction l with
  | nil => intro _ e1 h1; exact absurd h1 (List.not_mem_nil _)
  | cons hd tl ih =>
    intro hu e1 h1 e2 h2 hid
    have hhd := (List.pairwise_cons.mp hu).1
    have htl := (List.pairwise_cons.mp hu).2
    rcases List.mem_cons.mp h1 with h1 | h1 <;> rcases List.mem_cons.mp h2 with h2 | h2
    · rw [h1, h2]
    · exfalso; rw [h1] at hid; exact hhd e2 h2 hid
    · exfalso; rw [h2] at hid; exact hhd e1 h1 hid.symm
    · exact ih htl e1 h1 e2 h2 hid

/-- C6 (confirmed): in `one_way_scan`, for every interval entry and candidate
point entry with distinct identifiers that pass the axis-0 containment and the
higher-axis intersection checks, the pair is emitted iff not
(`p.lo(0) = i.lo(0)` and `p.id > i.id`): on an exact axis-0 tie of the low
endpoints the pair is reported exactly when the point's identifier is the
lesser. -/
theorem C6_tie_break (I P : BBoxSet) (maxDim : Nat) (hI : SortedLo0 I.boxes)
    (hP : SortedLo0 P.boxes) (huI : UniqueIds I.boxes) (huP : UniqueIds P.boxes)
    (ie pe : BBoxZ × Nat) (hie : ie ∈ I.boxes) (hpe : pe ∈ P.boxes) (hne : ie.2 ≠ pe.2)
    (hcont : ie.1.lo 0 ≤ pe.1.lo 0 ∧ pe.1.lo 0 < ie.1.hi 0)
    (hdims : dimsRangeOk pe.1 ie.1 (List.range' 1 maxDim)) :
    ((ie.2, pe.2) ∈ identOf (one_way_scan I P maxDim (.Ident [])) ↔
      ¬(pe.1.lo 0 = ie.1.lo 0 ∧ pe.2 > ie.2)) := by
  obtain ⟨l2, heq, hmem⟩ := one_way_scan_ident I P maxDim hI hP []
  rw [heq]
  show (ie.2, pe.2) ∈ ([] ++ l2 : List (Nat × Nat)) ↔ _
  rw [List.nil_append, hmem ie.2 pe.2]
  constructor
  · rintro ⟨ie2, hie2, pe2, hpe2, hx, hy, _, hemit⟩
    have he1 : ie2 = ie := uniqueIds_eq_of_id_eq I.boxes huI ie2 hie2 ie hie hx.symm
    have he2 : pe2 = pe := uniqueIds_eq_of_id_eq P.boxes huP pe2 hpe2 pe hpe hy.symm
    rw [he1, he2] at hemit
    exact hemit.2.2.2
  · intro htie
    exact ⟨ie, hie, pe, hpe, rfl, rfl, hcont.1, hcont.2, Ne.symm hne, hdims, htie⟩

/-- Witness for C6 at a concrete input: the pair (0, 1) is emitted. -/
theorem C6_tie_break_witness :
    (0, 1) ∈ identOf (one_way_scan wSet wSet 2 (.Ident [])) :=
  (C6_tie_break wSet wSet 2 (by decide) (by decide) (by decide) (by decide)
    (wBox 0 10, 0) (wBox 5 15, 1) (List.mem_cons_self _ _)
    (List.mem_cons_of_mem _ (List.mem_cons_self _ _)) (by decide)
    ⟨by decide, by decide⟩ (by decide)).mpr (by decide)

/-! ## Claim C5 -/

/-- C5 (confirmed): in `simulated_one_way_scan` (the two-way scan with
`simulate_one_way = true`, axis parameter `k_max`) on sorted inputs, an
identifier pair is emitted exactly when some interval entry and point entry
with distinct identifiers are swept into contact on axis 0, overlap on each
axis `1 .. k_max` (exclusive of `k_max`), the box from the `intervals`
argument contains the `lo(k_max)` of the box from the `points` argument — in
both role-swap branches — and, when the two boxes' `lo(k_max)` values are
exactly equal, the interval box's identifier is less than the point box's
identifier. -/
theorem C5_simulated_conditions (I P : BBoxSet) (kmax : Nat) (hI : SortedLo0 I.boxes)
    (hP : SortedLo0 P.boxes) (x y : Nat) :
    ((x, y) ∈ identOf (simulated_one_way_scan I P kmax (.Ident [])) ↔
      (∃ ie ∈ I.boxes, ∃ pe ∈ P.boxes, x = ie.2 ∧ y = pe.2 ∧
        ie.1.lo 0 < pe.1.lo 0 ∧ pe.1.lo 0 < ie.1.hi 0 ∧ pe.2 ≠ ie.2 ∧
        (∀ k, 1 ≤ k → k < kmax → pe.1.intersects_in k (ie.1.lo k) (ie.1.hi k)) ∧
        ie.1.contains_in kmax (pe.1.lo kmax) ∧
        ¬(ie.1.lo kmax = pe.1.lo kmax ∧ ie.2 > pe.2)) ∨
      (∃ ie ∈ I.boxes, ∃ pe ∈ P.boxes, x = pe.2 ∧ y = ie.2 ∧
        pe.1.lo 0 ≤ ie.1.lo 0 ∧ ie.1.lo 0 < pe.1.hi 0 ∧ pe.2 ≠ ie.2 ∧
        (∀ k, 1 ≤ k → k < kmax → ie.1.intersects_in k (pe.1.lo k) (pe.1.hi k)) ∧
        ie.1.contains_in kmax (pe.1.lo kmax) ∧
        ¬(ie.1.lo kmax = pe.1.lo kmax ∧ ie.2 > pe.2))) := by
  obtain ⟨l2, heq, hmem⟩ := twsAux_ident true kmax (I.boxes.length + P.boxes.length)
    I.boxes P.boxes (le_refl _) hI hP 0 0 []
  rw [show simulated_one_way_scan I P kmax (.Ident []) =
    twsAux true kmax (I.boxes.length + P.boxes.length) I.boxes P.boxes 0 0 (.Ident [])
    from rfl, heq]
  show (x, y) ∈ ([] ++ l2 : List (Nat × Nat)) ↔ _
  rw [List.nil_append, hmem x y]
  have hcond : ∀ ie pe : BBoxZ × Nat, (twsPairCond true kmax ie pe ↔
      (pe.2 ≠ ie.2 ∧ (∀ k, 1 ≤ k → k < kmax → pe.1.intersects_in k (ie.1.lo k) (ie.1.hi k)) ∧
        ie.1.contains_in kmax (pe.1.lo kmax) ∧
        ¬(ie.1.lo kmax = pe.1.lo kmax ∧ ie.2 > pe.2))) := by
    intro ie pe
    unfold twsPairCond dimRangeUpper
    rw [if_pos rfl]
    constructor
    · rintro ⟨h1, h2, h3⟩
      rw [not_and_or, not_or, not_not] at h3
      rcases h3 with h3 | h3
      · exact absurd rfl h3
      · refine ⟨h1, ?_, h3.1, h3.2⟩
        intro k hk1 hk2
        exact h2 k (List.mem_range'_1.mpr ⟨hk1, by omega⟩)
    · rintro ⟨h1, h2, h3, h4⟩
      refine ⟨h1, ?_, ?_⟩
      · intro k hk
        obtain ⟨hk1, hk2⟩ := List.mem_range'_1.mp hk
        exact h2 k hk1 (by omega)
      · rw [not_and_or]
        right
        rw [not_or, not_not]
        exact ⟨h3, h4⟩
  constructor
  · rintro (⟨ie, hie, pe, hpe, hx, hy, h5, h6, hc⟩ | ⟨ie, hie, pe, hpe, hx, hy, h5, h6, hc⟩)
    · obtain ⟨h1, h2, h3, h4⟩ := (hcond ie pe).mp hc
      exact Or.inl ⟨ie, hie, pe, hpe, hx, hy, h5, h6, h1, h2, h3, h4⟩
    · obtain ⟨h1, h2, h3, h4⟩ := (hcond ie pe).mp hc
      refine Or.inr ⟨ie, hie, pe, hpe, hx, hy, h5, h6, h1, ?_, h3, h4⟩
      intro k hk1 hk2
      obtain ⟨hh1, hh2⟩ := h2 k hk1 hk2
      exact ⟨hh2, hh1⟩
  · rintro (⟨ie, hie, pe, hpe, hx, hy, h5, h6, h1, h2, h3, h4⟩ |
      ⟨ie, hie, pe, hpe, hx, hy, h5, h6, h1, h2, h3, h4⟩)
    · exact Or.inl ⟨ie, hie, pe, hpe, hx, hy, h5, h6, (hcond ie pe).mpr ⟨h1, h2, h3, h4⟩⟩
    · refine Or.inr ⟨ie, hie, pe, hpe, hx, hy, h5, h6, (hcond ie pe).mpr
        ⟨h1, ?_, h3, h4⟩⟩
      intro k hk1 hk2
      obtain ⟨hh1, hh2⟩ := h2 k hk1 hk2
      exact ⟨hh2, hh1⟩

/-- Witness for C5 at a concrete input: the emitted pair (0, 1) satisfies the
characterised conditions. -/
theorem C5_simulated_conditions_witness :
    (∃ ie ∈ wSet.boxes, ∃ pe ∈ wSet.boxes, (0 : Nat) = ie.2 ∧ (1 : Nat) = pe.2 ∧
      ie.1.lo 0 < pe.1.lo 0 ∧ pe.1.lo 0 < ie.1.hi 0 ∧ pe.2 ≠ ie.2 ∧
      (∀ k, 1 ≤ k → k < 2 → pe.1.intersects_in k (ie.1.lo k) (ie.1.hi k)) ∧
      ie.1.contains_in 2 (pe.1.lo 2) ∧
      ¬(ie.1.lo 2 = pe.1.lo 2 ∧ ie.2 > pe.2)) ∨
    (∃ ie ∈ wSet.boxes, ∃ pe ∈ wSet.boxes, (0 : Nat) = pe.2 ∧ (1 : Nat) = ie.2 ∧
      pe.1.lo 0 ≤ ie.1.lo 0 ∧ ie.1.lo 0 < pe.1.hi 0 ∧ pe.2 ≠ ie.2 ∧
      (∀ k, 1 ≤ k → k < 2 → ie.1.intersects_in k (pe.1.lo k) (pe.1.hi k)) ∧
      ie.1.contains_in 2 (pe.1.lo 2) ∧
      ¬(ie.1.lo 2 = pe.1.lo 2 ∧ ie.2 > pe.2)) :=
  (C5_simulated_conditions wSet wSet 2 (by decide) (by decide) 0 1).mp (by decide)

/-! ## Claim C8 -/

/-- The Ident channel of a sink contains no equal-identifier pair. -/
def NoSelfIdent (o : AnswerFormat) : Prop := ∀ x, (x, x) ∉ identOf o

theorem noSelf_pushAll (o : AnswerFormat) (ix : Nat × Nat) {a b : Nat}
    (bo : (Nat × Nat) × (Nat × Nat)) (h : a ≠ b) (ho : NoSelfIdent o) :
    NoSelfIdent (o.pushAll ix (a, b) bo) := by
  intro x hx
  cases o with
  | Index l => exact ho x hx
  | Both l => exact ho x hx
  | Ident l =>
    rcases List.mem_append.mp hx with hh | hh
    · exact ho x hh
    · rw [List.mem_singleton, Prod.mk.injEq] at hh
      rw [hh.1] at hh
      exact h hh.2

theorem owsInner_noself (i : BBoxZ) (iId maxDim iIdx pMinIdx : Nat) :
    ∀ (sfx : List (BBoxZ × Nat)) (pIdx : Nat) (out : AnswerFormat), NoSelfIdent out →
      NoSelfIdent (owsInner i iId maxDim iIdx pMinIdx sfx pIdx out) := by
  intro sfx
  induction sfx with
  | nil => intro pIdx out ho; exact ho
  | cons hd tl ih =>
    intro pIdx out ho
    obtain ⟨p, pId⟩ := hd
    rw [owsInner_cons]
    by_cases h1 : i.hi 0 ≤ p.lo 0
    · rw [if_pos h1]; exact ho
    · rw [if_neg h1]
      by_cases h2 : pId = iId
      · rw [if_pos h2]; exact ih _ _ ho
      · rw [if_neg h2]
        by_cases h3 : dimsRangeOk p i (List.range' 1 maxDim)
        · rw [if_neg (not_not_intro h3)]
          by_cases h4 : p.lo 0 = i.lo 0 ∧ pId > iId
          · rw [if_pos h4]; exact ih _ _ ho
          · rw [if_neg h4]
            exact ih _ _ (noSelf_pushAll out _ _ (fun hc => h2 hc.symm) ho)
        · rw [if_pos h3]; exact ih _ _ ho

theorem twsScanPoints_noself (simOW : Bool) (i : BBoxZ) (iId maxDim iMinIdx : Nat) :
    ∀ (sfx : List (BBoxZ × Nat)) (pIdx : Nat) (out : AnswerFormat), NoSelfIdent out →
      NoSelfIdent (twsScanPoints simOW i iId maxDim iMinIdx sfx pIdx out) := by
  intro sfx
  induction sfx with
  | nil => intro pIdx out ho; exact ho
  | cons hd tl ih =>
    intro pIdx out ho
    obtain ⟨p, pId⟩ := hd
    rw [twsScanPoints_cons]
    by_cases h1 : i.hi 0 ≤ p.lo 0
    · rw [if_pos h1]; exact ho
    · rw [if_neg h1]
      by_cases h2 : pId = iId
      · rw [if_pos h2]; exact ih _ _ ho
      · rw [if_neg h2]
        by_cases h3 : dimsRangeOk p i (List.range' 1 (dimRangeUpper simOW maxDim - 1))
        · rw [if_neg (not_not_intro h3)]
          by_cases h4 : simOW ∧ (¬ i.contains_in maxDim (p.lo maxDim) ∨
              (i.lo maxDim = p.lo maxDim ∧ iId > pId))
          · rw [if_pos h4]; exact ih _ _ ho
          · rw [if_neg h4]
            exact ih _ _ (noSelf_pushAll out _ _ (fun hc => h2 hc.symm) ho)
        · rw [if_pos h3]; exact ih _ _ ho

theorem twsScanIntervals_noself (simOW : Bool) (p : BBoxZ) (pId maxDim pMinIdx : Nat) :
    ∀ (sfx : List (BBoxZ × Nat)) (iIdx : Nat) (out : AnswerFormat), NoSelfIdent out →
      NoSelfIdent (twsScanIntervals simOW p pId maxDim pMinIdx sfx iIdx out) := by
  intro sfx
  induction sfx with
  | nil => intro iIdx out ho; exact ho
  | cons hd tl ih =>
    intro iIdx out ho
    obtain ⟨i, iId⟩ := hd
    rw [twsScanIntervals_cons]
    by_cases h1 : p.hi 0 ≤ i.lo 0
    · rw [if_pos h1]; exact ho
    · rw [if_neg h1]
      by_cases h2 : iId = pId
      · rw [if_pos h2]; exact ih _ _ ho
      · rw [if_neg h2]
        by_cases h3 : dimsRangeOk i p (List.range' 1 (dimRangeUpper simOW maxDim - 1))
        · rw [if_neg (not_not_intro h3)]
          by_cases h4 : simOW ∧ (¬ i.contains_in maxDim (p.lo maxDim) ∨
              (i.lo maxDim = p.lo maxDim ∧ iId > pId))
          · rw [if_pos h4]; exact ih _ _ ho
          · rw [if_neg h4]
            exact ih _ _ (noSelf_pushAll out _ _ (fun hc => h2 hc.symm) ho)
        · rw [if_pos h3]; exact ih _ _ ho

theorem owsOuter_noself (points : List (BBoxZ × Nat)) (maxDim : Nat) :
    ∀ (sfxI : List (BBoxZ × Nat)) (iIdx pMinIdx : Nat) (out : AnswerFormat), NoSelfIdent out →
      NoSelfIdent (owsOuter points maxDim sfxI iIdx pMinIdx out) := by
  intro sfxI
  induction sfxI with
  | nil => intro _ _ out ho; exact ho
  | cons hd restI ih =>
    intro iIdx pMinIdx out ho
    obtain ⟨i, iId⟩ := hd
    rw [owsOuter_cons]
    by_cases h : pMinIdx + ((points.drop pMinIdx).takeWhile
        fun e => decide (e.1.lo 0 < i.lo 0)).length = points.length
    · rw [if_pos h]; exact ho
    · rw [if_neg h]
      exact ih _ _ _ (owsInner_noself i iId maxDim iIdx _ _ _ _ ho)

theorem twsAux_noself (simOW : Bool) (maxDim : Nat) :
    ∀ (n : Nat) (sfxI sfxP : List (BBoxZ × Nat)) (iMinIdx pMinIdx : Nat) (out : AnswerFormat),
      NoSelfIdent out → NoSelfIdent (twsAux simOW maxDim n sfxI sfxP iMinIdx pMinIdx out) := by
  intro n
  induction n with
  | zero => intro _ _ _ _ out ho; exact ho
  | succ n ihn =>
    intro sfxI sfxP iMinIdx pMinIdx out ho
    match sfxI, sfxP with
    | [], _ => exact ho
    | _ :: _, [] => exact ho
    | (i, iId) :: restI, (p, pId) :: restP =>
      rw [twsAux_cons]
      by_cases hb : i.lo 0 < p.lo 0
      · rw [if_pos hb]
        exact ihn _ _ _ _ _ (twsScanPoints_noself simOW i iId maxDim iMinIdx _ _ _ ho)
      · rw [if_neg hb]
        exact ihn _ _ _ _ _ (twsScanIntervals_noself simOW p pId maxDim pMinIdx _ _ _ ho)

theorem ows_noself (I P : BBoxSet) (maxDim : Nat) (out : AnswerFormat) (ho : NoSelfIdent out) :
    NoSelfIdent (one_way_scan I P maxDim out) :=
  owsOuter_noself P.boxes maxDim I.boxes 0 0 out ho

theorem sim_noself (I P : BBoxSet) (maxDim : Nat) (out : AnswerFormat) (ho : NoSelfIdent out) :
    NoSelfIdent (simulated_one_way_scan I P maxDim out) :=
  twsAux_noself true maxDim _ I.boxes P.boxes 0 0 out ho

theorem tws_noself (d : Nat) (a b : BBoxSet) (out : AnswerFormat) (ho : NoSelfIdent out) :
    NoSelfIdent (two_way_scan d a b out) :=
  twsAux_noself false (d - 1) _ a.boxes b.boxes 0 0 out ho

theorem hybrid_noself (levelsOf : Nat → Nat) (C : Nat) :
    ∀ (fuel : Nat) (I P : BBoxSet) (lo hi : EInt) (dim : Nat) (out : AnswerFormat)
      (rand : Nat → Nat) (ctr : Nat) (res : AnswerFormat) (ctrF : Nat), NoSelfIdent out →
      hybrid_flex levelsOf C fuel I P lo hi dim out rand ctr = some (res, ctrF) →
      NoSelfIdent res := by
  intro fuel
  induction fuel with
  | zero =>
    intro I P lo hi dim out rand ctr res ctrF _ hrun
    exact absurd hrun (by simp [hybrid_flex])
  | succ fuel ih =>
    intro I P lo hi dim out rand ctr res ctrF ho hrun
    rw [hybrid_flex_succ] at hrun
    by_cases h1 : I.empty ∨ P.empty ∨ hi ≤ lo
    · rw [if_pos h1, Option.some.injEq, Prod.mk.injEq] at hrun
      rw [← hrun.1]; exact ho
    · rw [if_neg h1] at hrun
      by_cases h2 : dim = 0
      · rw [if_pos h2, Option.some.injEq, Prod.mk.injEq] at hrun
        rw [← hrun.1]; exact ows_noself I P 0 out ho
      · rw [if_neg h2] at hrun
        by_cases h3 : I.len < C ∨ P.len < C
        · rw [if_pos h3, Option.some.injEq, Prod.mk.injEq] at hrun
          rw [← hrun.1]; exact sim_noself I P dim out ho
        · rw [if_neg h3] at hrun
          cases hrec1 : hybrid_flex levelsOf C fuel (intervalsM I lo hi dim) P ⊥ ⊤ (dim - 1)
              out rand ctr with
          | none => rw [hrec1, Option.none_bind] at hrun; exact absurd hrun (by simp)
          | some s1 =>
            rw [hrec1, Option.some_bind] at hrun
            obtain ⟨out1, ctr1⟩ := s1
            have ho1 := ih (intervalsM I lo hi dim) P ⊥ ⊤ (dim - 1) out rand ctr out1 ctr1
              ho hrec1
            cases hrec2 : hybrid_flex levelsOf C fuel P (intervalsM I lo hi dim) ⊥ ⊤ (dim - 1)
                out1 rand ctr1 with
            | none => rw [hrec2, Option.none_bind] at hrun; exact absurd hrun (by simp)
            | some s2 =>
              rw [hrec2, Option.some_bind] at hrun
              obtain ⟨out2, ctr2⟩ := s2
              have ho2 := ih P (intervalsM I lo hi dim) ⊥ ⊤ (dim - 1) out1 rand ctr1 out2 ctr2
                ho1 hrec2
              by_cases hmi : (P.approx_median levelsOf dim rand ctr2).1 = hi ∨
                  (P.approx_median levelsOf dim rand ctr2).1 = lo
              · rw [if_pos hmi, Option.some.injEq, Prod.mk.injEq] at hrun
                rw [← hrun.1]
                exact sim_noself (intervalsLR I lo hi dim) P dim out2 ho2
              · rw [if_neg hmi] at hrun
                cases hrec3 : hybrid_flex levelsOf C fuel
                    ⟨(intervalsLR I lo hi dim).boxes.filter fun e =>
                      decide (e.1.lo dim < (P.approx_median levelsOf dim rand ctr2).1)⟩
                    ⟨P.boxes.filter fun e =>
                      decide (e.1.lo dim < (P.approx_median levelsOf dim rand ctr2).1)⟩
                    lo (P.approx_median levelsOf dim rand ctr2).1 dim out2 rand
                    (P.approx_median levelsOf dim rand ctr2).2 with
                | none => rw [hrec3, Option.none_bind] at hrun; exact absurd hrun (by simp)
                | some s3 =>
                  rw [hrec3, Option.some_bind] at hrun
                  obtain ⟨out3, ctr3⟩ := s3
                  have ho3 := ih _ _ lo (P.approx_median levelsOf dim rand ctr2).1 dim out2
                    rand (P.approx_median levelsOf dim rand ctr2).2 out3 ctr3 ho2 hrec3
                  exact ih _ _ (P.approx_median levelsOf dim rand ctr2).1 hi dim out3 rand
                    ctr3 res ctrF ho3 hrun

theorem bfInner_noself (d : Nat) (bbox : BBoxZ) (idv aidx : Nat) :
    ∀ (sfx : List (BBoxZ × Nat)) (bidx : Nat) (out : AnswerFormat),
      (∀ e ∈ sfx, e.2 ≠ idv) → NoSelfIdent out →
      NoSelfIdent (bfInner d bbox idv aidx sfx bidx out) := by
  intro sfx
  induction sfx with
  | nil => intro _ out _ ho; exact ho
  | cons hd tl ih =>
    intro bidx out hne ho
    obtain ⟨bbox2, id2⟩ := hd
    show NoSelfIdent (bfInner d bbox idv aidx tl (bidx + 1)
      (if bbox.intersects d bbox2 then _ else out))
    by_cases h : bbox.intersects d bbox2
    · rw [if_pos h]
      refine ih _ _ (fun e he => hne e (List.mem_cons_of_mem _ he)) ?_
      exact noSelf_pushAll out _ _
        (fun hc => hne (bbox2, id2) (List.mem_cons_self _ _) (hc.symm)) ho
    · rw [if_neg h]
      exact ih _ _ (fun e he => hne e (List.mem_cons_of_mem _ he)) ho

theorem bfSameOuter_noself (d : Nat) :
    ∀ (sfx : List (BBoxZ × Nat)), UniqueIds sfx → ∀ (aidx : Nat) (out : AnswerFormat),
      NoSelfIdent out → NoSelfIdent (bfSameOuter d sfx aidx out) := by
  intro sfx
  induction sfx with
  | nil => intro _ _ out ho; exact ho
  | cons hd tl ih =>
    intro hu aidx out ho
    show NoSelfIdent (bfSameOuter d tl (aidx + 1) (bfInner d hd.1 hd.2 aidx tl (aidx + 1) out))
    refine ih (List.pairwise_cons.mp hu).2 _ _ ?_
    exact bfInner_noself d hd.1 hd.2 aidx tl (aidx + 1) out
      (fun e he hc => (List.pairwise_cons.mp hu).1 e he hc.symm) ho

theorem bfDistOuter_noself (d : Nat) (bBoxes : List (BBoxZ × Nat)) :
    ∀ (sfx : List (BBoxZ × Nat)), DisjointIds sfx bBoxes → ∀ (aidx : Nat) (out : AnswerFormat),
      NoSelfIdent out → NoSelfIdent (bfDistOuter d bBoxes sfx aidx out) := by
  intro sfx
  induction sfx with
  | nil => intro _ _ out ho; exact ho
  | cons hd tl ih =>
    intro hdisj aidx out ho
    show NoSelfIdent (bfDistOuter d bBoxes tl (aidx + 1) (bfInner d hd.1 hd.2 aidx bBoxes 0 out))
    refine ih (fun ea hea eb heb => hdisj ea (List.mem_cons_of_mem _ hea) eb heb) _ _ ?_
    exact bfInner_noself d hd.1 hd.2 aidx bBoxes 0 out
      (fun e he hc => hdisj hd (List.mem_cons_self _ _) e he hc.symm) ho

/-- C8 (counterexample to the claim as stated): brute force on two distinct
single-box sets, each with (trivially) unique identifiers but sharing
identifier 7, emits the self-pair `(7, 7)`. -/
theorem C8_counterexample :
    UniqueIds cxa.boxes ∧ UniqueIds cxb.boxes ∧
    (7, 7) ∈ identOf (intersect_brute_force_flex 1 cxa cxb false (.Ident [])) := by
  refine ⟨by decide, by decide, ?_⟩
  decide

/-- C8 (amended): the scans and the hybrid engine never emit an
equal-identifier pair, on any input whatsoever; brute force on a single set
never does so when that set's identifiers are unique; and brute force on two
distinct sets never does so provided additionally that the two sets share no
identifier. -/
theorem C8_amended :
    (∀ (I P : BBoxSet) (maxDim : Nat) (x : Nat),
      (x, x) ∉ identOf (one_way_scan I P maxDim (.Ident []))) ∧
    (∀ (I P : BBoxSet) (maxDim : Nat) (x : Nat),
      (x, x) ∉ identOf (simulated_one_way_scan I P maxDim (.Ident []))) ∧
    (∀ (d : Nat) (a b : BBoxSet) (x : Nat),
      (x, x) ∉ identOf (two_way_scan d a b (.Ident []))) ∧
    (∀ (levelsOf : Nat → Nat) (C fuel d : Nat) (a b : BBoxSet) (same : Bool)
      (rand : Nat → Nat) (ctr : Nat) (res : AnswerFormat) (ctrF : Nat),
      intersect_ze_custom levelsOf C fuel d a b same [] rand ctr = some (res, ctrF) →
      ∀ x, (x, x) ∉ identOf res) ∧
    (∀ (d : Nat) (A : BBoxSet), UniqueIds A.boxes → ∀ x,
      (x, x) ∉ identOf (intersect_brute_force_flex d A A true (.Ident []))) ∧
    (∀ (d : Nat) (a b : BBoxSet), DisjointIds a.boxes b.boxes → ∀ x,
      (x, x) ∉ identOf (intersect_brute_force_flex d a b false (.Ident []))) := by
  have hnil : NoSelfIdent (.Ident ([] : List (Nat × Nat))) := by
    intro x hx
    exact absurd hx (List.not_mem_nil _)
  refine ⟨?_, ?_, ?_, ?_, ?_, ?_⟩
  · intro I P maxDim x
    exact ows_noself I P maxDim _ hnil x
  · intro I P maxDim x
    exact sim_noself I P maxDim _ hnil x
  · intro d a b x
    exact tws_noself d a b _ hnil x
  · intro levelsOf C fuel d a b same rand ctr res ctrF hrun
    unfold intersect_ze_custom at hrun
    cases same with
    | true =>
      rw [if_pos rfl] at hrun
      exact hybrid_noself levelsOf C fuel a a ⊥ ⊤ (d - 1) _ rand ctr res ctrF hnil hrun
    | false =>
      rw [if_neg (by simp)] at hrun
      cases hrec1 : hybrid_flex levelsOf C fuel a b ⊥ ⊤ (d - 1) (.Ident []) rand ctr with
      | none => rw [hrec1, Option.none_bind] at hrun; exact absurd hrun (by simp)
      | some s1 =>
        rw [hrec1, Option.some_bind] at hrun
        have h1 := hybrid_noself levelsOf C fuel a b ⊥ ⊤ (d - 1) _ rand ctr s1.1 s1.2 hnil
          (by rw [hrec1])
        exact hybrid_noself levelsOf C fuel b a ⊥ ⊤ (d - 1) s1.1 rand s1.2 res ctrF h1 hrun
  · intro d A hu x
    exact bfSameOuter_noself d A.boxes hu 0 _ hnil x
  · intro d a b hdisj x
    exact bfDistOuter_noself d b.boxes a.boxes hdisj 0 _ hnil x

/-- Witness for the amended C8 at a concrete input. -/
theorem C8_amended_witness :
    UniqueIds wSet.boxes ∧
    ∀ x, (x, x) ∉ identOf (intersect_brute_force_flex 3 wSet wSet true (.Ident [])) :=
  ⟨by decide, C8_amended.2.2.2.2.1 3 wSet (by decide)⟩

/-! ## Claim C9 -/

theorem median_of_3_eq_or (a b c : EInt) :
    median_of_3 a b c = a ∨ median_of_3 a b c = b ∨ median_of_3 a b c = c := by
  unfold median_of_3
  split_ifs <;> tauto

theorem approx_median_rec_sub (items : List EInt) :
    ∀ (levels : Nat) (idxs : List Nat),
      List.Sublist (approx_median_rec items levels idxs).2 idxs := by
  intro levels
  induction levels with
  | zero => intro idxs; exact List.dropLast_sublist idxs
  | succ l ih =>
    intro idxs
    have h1 := ih idxs
    have h2 := ih (approx_median_rec items l idxs).2
    have h3 := ih (approx_median_rec items l (approx_median_rec items l idxs).2).2
    exact (h3.trans h2).trans h1

theorem approx_median_rec_len (items : List EInt) :
    ∀ (levels : Nat) (idxs : List Nat),
      (approx_median_rec items levels idxs).2.length = idxs.length - 3 ^ levels := by
  intro levels
  induction levels with
  | zero => intro idxs; simp [approx_median_rec]
  | succ l ih =>
    intro idxs
    show (approx_median_rec items l
      (approx_median_rec items l (approx_median_rec items l idxs).2).2).2.length = _
    rw [ih, ih, ih, pow_succ]
    omega

theorem approx_median_rec_mem (items : List EInt) :
    ∀ (levels : Nat) (idxs : List Nat), 3 ^ levels ≤ idxs.length →
      ∃ j ∈ idxs, (approx_median_rec items levels idxs).1 = items.getD j 0 := by
  intro levels
  induction levels with
  | zero =>
    intro idxs h
    have hne : idxs ≠ [] := by
      intro hc
      rw [hc] at h
      simp at h
    refine ⟨idxs.getLast hne, List.getLast_mem hne, ?_⟩
    show items.getD (idxs.getLast?.getD 0) 0 = _
    rw [List.getLast?_eq_getLast idxs hne]
    rfl
  | succ l ih =>
    intro idxs h
    have hmono : 3 ^ l ≤ 3 ^ (l + 1) := Nat.pow_le_pow_right (by norm_num) (Nat.le_succ l)
    have hps : 3 ^ (l + 1) = 3 ^ l * 3 := pow_succ 3 l
    obtain ⟨j1, hj1, he1⟩ := ih idxs (le_trans hmono h)
    have hlen1 : (approx_median_rec items l idxs).2.length = idxs.length - 3 ^ l :=
      approx_median_rec_len items l idxs
    obtain ⟨j2, hj2, he2⟩ := ih (approx_median_rec items l idxs).2 (by rw [hlen1]; omega)
    have hlen2 : (approx_median_rec items l (approx_median_rec items l idxs).2).2.length =
        idxs.length - 3 ^ l - 3 ^ l := by
      rw [approx_median_rec_len, hlen1]
    obtain ⟨j3, hj3, he3⟩ :=
      ih (approx_median_rec items l (approx_median_rec items l idxs).2).2 (by rw [hlen2]; omega)
    have s1 := approx_median_rec_sub items l idxs
    have s2 := approx_median_rec_sub items l (approx_median_rec items l idxs).2
    have hj2i : j2 ∈ idxs := s1.subset hj2
    have hj3i : j3 ∈ idxs := s1.subset (s2.subset hj3)
    rcases median_of_3_eq_or (approx_median_rec items l idxs).1
        (approx_median_rec items l (approx_median_rec items l idxs).2).1
        (approx_median_rec items l
          (approx_median_rec items l (approx_median_rec items l idxs).2).2).1 with
      hm | hm | hm
    · exact ⟨j1, hj1, hm.trans he1⟩
    · exact ⟨j2, hj2i, hm.trans he2⟩
    · exact ⟨j3, hj3i, hm.trans he3⟩

theorem approx_median_sampled (levelsOf : Nat → Nat) (s : BBoxSet) (dim : Nat)
    (rand : Nat → Nat) (ctr : Nat) (hne : s.boxes ≠ []) :
    ∃ k < 3 ^ levelsOf s.len, ∃ e,
      s.boxes.get? (rand (ctr + k) % s.boxes.length) = some e ∧
      (s.approx_median levelsOf dim rand ctr).1 = e.1.lo dim := by
  have hlen : 0 < s.boxes.length := List.length_pos.mpr hne
  have hmaplen : (s.boxes.map fun e => e.1.lo dim).length = s.boxes.length :=
    List.length_map _ _
  have hidxlen : ((List.range (3 ^ levelsOf s.len)).map fun k =>
      rand (ctr + k) % (s.boxes.map fun e => e.1.lo dim).length).length =
      3 ^ levelsOf s.len := by simp
  obtain ⟨j, hj, he⟩ := approx_median_rec_mem (s.boxes.map fun e => e.1.lo dim)
    (levelsOf s.len) _ (le_of_eq hidxlen.symm)
  rw [List.mem_map] at hj
  obtain ⟨k, hk, hjk⟩ := hj
  rw [List.mem_range] at hk
  have hjeq : j = rand (ctr + k) % s.boxes.length := by rw [← hjk, hmaplen]
  have hjlt : j < s.boxes.length := by rw [hjeq]; exact Nat.mod_lt _ hlen
  refine ⟨k, hk, s.boxes.get ⟨j, hjlt⟩, ?_, ?_⟩
  · rw [← hjeq]
    exact List.get?_eq_get hjlt
  · have hv : (s.approx_median levelsOf dim rand ctr).1 =
        (s.boxes.map fun e => e.1.lo dim).getD j 0 := he
    rw [hv, List.getD_eq_getElem?_getD, List.getElem?_map,
      List.getElem?_eq_getElem hjlt]
    rfl

theorem approx_median_val_mem (levelsOf : Nat → Nat) (s : BBoxSet) (dim : Nat)
    (rand : Nat → Nat) (ctr : Nat) (hne : s.boxes ≠ []) :
    ∃ e ∈ s.boxes, (s.approx_median levelsOf dim rand ctr).1 = e.1.lo dim := by
  obtain ⟨k, _, e, hget, hval⟩ := approx_median_sampled levelsOf s dim rand ctr hne
  exact ⟨e, List.get?_mem hget, hval⟩

/-- C9: for every non-empty set, the value returned by `approx_median` is the
`lo(dim)` endpoint of the box stored at one of the `3 ^ levels` sampled random
positions (index `rand(ctr + k) mod len` for some draw `k`); the recursive
median-of-three never synthesizes a value. -/
theorem C9_median_is_sampled (levelsOf : Nat → Nat) (s : BBoxSet) (dim : Nat)
    (rand : Nat → Nat) (ctr : Nat) (hne : ¬ s.empty) :
    ∃ k < 3 ^ levelsOf s.len, ∃ e,
      s.boxes.get? (rand (ctr + k) % s.boxes.length) = some e ∧
      (s.approx_median levelsOf dim rand ctr).1 = e.1.lo dim := by
  refine approx_median_sampled levelsOf s dim rand ctr ?_
  intro hc
  exact hne (by simp [BBoxSet.empty, BBoxSet.len, hc])

/-- Witness for C9 at a concrete input. -/
theorem C9_median_is_sampled_witness :
    ¬ wSet.empty ∧
    ∃ k < 3 ^ (fun _ : Nat => 1) wSet.len, ∃ e,
      wSet.boxes.get? ((fun _ : Nat => 1) (0 + k) % wSet.boxes.length) = some e ∧
      (wSet.approx_median (fun _ => 1) 0 (fun _ => 1) 0).1 = e.1.lo 0 :=
  ⟨by decide, C9_median_is_sampled (fun _ => 1) wSet 0 (fun _ => 1) 0 (by decide)⟩

/-! ## Claim C7 -/

theorem hybrid_flex_mono (levelsOf : Nat → Nat) (C : Nat) :
    ∀ (fuel fuel' : Nat), fuel ≤ fuel' →
      ∀ (I P : BBoxSet) (lo hi : EInt) (dim : Nat) (out : AnswerFormat)
        (rand : Nat → Nat) (ctr : Nat) (r : AnswerFormat × Nat),
        hybrid_flex levelsOf C fuel I P lo hi dim out rand ctr = some r →
        hybrid_flex levelsOf C fuel' I P lo hi dim out rand ctr = some r := by
  intro fuel
  induction fuel with
  | zero =>
    intro fuel' _ I P lo hi dim out rand ctr r h
    exact absurd h (by simp [hybrid_flex])
  | succ fuel ih =>
    intro fuel' hle I P lo hi dim out rand ctr r h
    obtain ⟨fuel2, rfl⟩ : ∃ k, fuel' = k + 1 := ⟨fuel' - 1, by omega⟩
    have hle2 : fuel ≤ fuel2 := by omega
    rw [hybrid_flex_succ] at h ⊢
    by_cases h1 : I.empty ∨ P.empty ∨ hi ≤ lo
    · rw [if_pos h1] at h ⊢; exact h
    · rw [if_neg h1] at h ⊢
      by_cases h2 : dim = 0
      · rw [if_pos h2] at h ⊢; exact h
      · rw [if_neg h2] at h ⊢
        by_cases h3 : I.len < C ∨ P.len < C
        · rw [if_pos h3] at h ⊢; exact h
        · rw [if_neg h3] at h ⊢
          cases hrec1 : hybrid_flex levelsOf C fuel (intervalsM I lo hi dim) P ⊥ ⊤ (dim - 1)
              out rand ctr with
          | none => rw [hrec1, Option.none_bind] at h; exact absurd h (by simp)
          | some s1 =>
            rw [hrec1, Option.some_bind] at h
            rw [ih fuel2 hle2 _ _ _ _ _ _ _ _ s1 hrec1, Option.some_bind]
            cases hrec2 : hybrid_flex levelsOf C fuel P (intervalsM I lo hi dim) ⊥ ⊤ (dim - 1)
                s1.1 rand s1.2 with
            | none => rw [hrec2, Option.none_bind] at h; exact absurd h (by simp)
            | some s2 =>
              rw [hrec2, Option.some_bind] at h
              rw [ih fuel2 hle2 _ _ _ _ _ _ _ _ s2 hrec2, Option.some_bind]
              by_cases hmi : (P.approx_median levelsOf dim rand s2.2).1 = hi ∨
                  (P.approx_median levelsOf dim rand s2.2).1 = lo
              · rw [if_pos hmi] at h ⊢; exact h
              · rw [if_neg hmi] at h ⊢
                cases hrec3 : hybrid_flex levelsOf C fuel
                    ⟨(intervalsLR I lo hi dim).boxes.filter fun e =>
                      decide (e.1.lo dim < (P.approx_median levelsOf dim rand s2.2).1)⟩
                    ⟨P.boxes.filter fun e =>
                      decide (e.1.lo dim < (P.approx_median levelsOf dim rand s2.2).1)⟩
                    lo (P.approx_median levelsOf dim rand s2.2).1 dim s2.1 rand
                    (P.approx_median levelsOf dim rand s2.2).2 with
                | none => rw [hrec3, Option.none_bind] at h; exact absurd h (by simp)
                | some s3 =>
                  rw [hrec3, Option.some_bind] at h
                  rw [ih fuel2 hle2 _ _ _ _ _ _ _ _ s3 hrec3, Option.some_bind]
                  exact ih fuel2 hle2 _ _ _ _ _ _ _ _ r h

/-- Auxiliary flag of the termination measure: 0 when the segment's low bound
is a lower bound of the point set's `lo(dim)` values and is attained. -/
def hFlag (P : BBoxSet) (lo : EInt) (dim : Nat) : Nat :=
  if (∀ p ∈ P.boxes, lo ≤ p.1.lo dim) ∧ (∃ p ∈ P.boxes, p.1.lo dim = lo) then 0 else 1

theorem hFlag_le (P : BBoxSet) (lo : EInt) (dim : Nat) : hFlag P lo dim ≤ 1 := by
  unfold hFlag
  split_ifs <;> omega

theorem hybrid_flex_terminates (levelsOf : Nat → Nat) (C : Nat) :
    ∀ (dim n : Nat) (I P : BBoxSet) (lo hi : EInt) (out : AnswerFormat)
      (rand : Nat → Nat) (ctr : Nat),
      2 * P.boxes.length + hFlag P lo dim ≤ n →
      ∃ fuel, (hybrid_flex levelsOf C fuel I P lo hi dim out rand ctr).isSome := by
  intro dim
  induction dim with
  | zero =>
    intro n I P lo hi out rand ctr _
    refine ⟨1, ?_⟩
    rw [hybrid_flex_succ]
    by_cases h1 : I.empty ∨ P.empty ∨ hi ≤ lo
    · rw [if_pos h1]; rfl
    · rw [if_neg h1, if_pos rfl]; rfl
  | succ d ihd =>
    intro n
    induction n using Nat.strong_induction_on with
    | _ n ihn =>
      intro I P lo hi out rand ctr hm
      by_cases h1 : I.empty ∨ P.empty ∨ hi ≤ lo
      · exact ⟨1, by rw [hybrid_flex_succ, if_pos h1]; rfl⟩
      · have hd0 : ¬(d + 1 = 0) := Nat.succ_ne_zero d
        by_cases h3 : I.len < C ∨ P.len < C
        · exact ⟨1, by rw [hybrid_flex_succ, if_neg h1, if_neg hd0, if_pos h3]; rfl⟩
        · have hPne : P.boxes ≠ [] := by
            intro hc
            exact h1 (Or.inr (Or.inl (by simp [BBoxSet.empty, BBoxSet.len, hc])))
          obtain ⟨f1, hf1⟩ := ihd (2 * P.boxes.length + hFlag P ⊥ d)
            (intervalsM I lo hi (d + 1)) P ⊥ ⊤ out rand ctr le_rfl
          obtain ⟨s1, hs1⟩ := Option.isSome_iff_exists.mp hf1
          obtain ⟨f2, hf2⟩ := ihd
            (2 * (intervalsM I lo hi (d + 1)).boxes.length + hFlag (intervalsM I lo hi (d + 1)) ⊥ d)
            P (intervalsM I lo hi (d + 1)) ⊥ ⊤ s1.1 rand s1.2 le_rfl
          obtain ⟨s2, hs2⟩ := Option.isSome_iff_exists.mp hf2
          obtain ⟨q, hq, hqlo⟩ := approx_median_val_mem levelsOf P (d + 1) rand s2.2 hPne
          by_cases hmi : (P.approx_median levelsOf (d + 1) rand s2.2).1 = hi ∨
              (P.approx_median levelsOf (d + 1) rand s2.2).1 = lo
          · refine ⟨max f1 f2 + 1, ?_⟩
            rw [hybrid_flex_succ, if_neg h1, if_neg hd0, if_neg h3]
            simp only [Nat.add_sub_cancel]
            rw [hybrid_flex_mono levelsOf C f1 (max f1 f2) (le_max_left _ _)
              _ _ _ _ _ _ _ _ s1 hs1]
            simp only [Option.some_bind]
            rw [hybrid_flex_mono levelsOf C f2 (max f1 f2) (le_max_right _ _)
              _ _ _ _ _ _ _ _ s2 hs2]
            simp only [Option.some_bind]
            rw [if_pos hmi]
            rfl
          · have hPLlt : (P.boxes.filter fun e =>
                decide (e.1.lo (d + 1) < (P.approx_median levelsOf (d + 1) rand s2.2).1)).length <
                P.boxes.length := by
              rw [List.length_filter_lt_length_iff_exists]
              exact ⟨q, hq, by simp [hqlo]⟩
            have hmL : 2 * (⟨P.boxes.filter fun e =>
                decide (e.1.lo (d + 1) < (P.approx_median levelsOf (d + 1) rand s2.2).1)⟩ :
                BBoxSet).boxes.length +
                hFlag ⟨P.boxes.filter fun e =>
                  decide (e.1.lo (d + 1) < (P.approx_median levelsOf (d + 1) rand s2.2).1)⟩
                  lo (d + 1) < n := by
              have := hFlag_le (⟨P.boxes.filter fun e =>
                decide (e.1.lo (d + 1) < (P.approx_median levelsOf (d + 1) rand s2.2).1)⟩ :
                BBoxSet) lo (d + 1)
              simp only at this ⊢
              omega
            obtain ⟨fL, hfL⟩ := ihn _ hmL
              ⟨(intervalsLR I lo hi (d + 1)).boxes.filter fun e =>
                decide (e.1.lo (d + 1) < (P.approx_median levelsOf (d + 1) rand s2.2).1)⟩
              ⟨P.boxes.filter fun e =>
                decide (e.1.lo (d + 1) < (P.approx_median levelsOf (d + 1) rand s2.2).1)⟩
              lo (P.approx_median levelsOf (d + 1) rand s2.2).1 s2.1 rand
              (P.approx_median levelsOf (d + 1) rand s2.2).2 le_rfl
            obtain ⟨s3, hs3⟩ := Option.isSome_iff_exists.mp hfL
            have hmR : 2 * (⟨P.boxes.filter fun e =>
                !decide (e.1.lo (d + 1) < (P.approx_median levelsOf (d + 1) rand s2.2).1)⟩ :
                BBoxSet).boxes.length +
                hFlag ⟨P.boxes.filter fun e =>
                  !decide (e.1.lo (d + 1) < (P.approx_median levelsOf (d + 1) rand s2.2).1)⟩
                  (P.approx_median levelsOf (d + 1) rand s2.2).1 (d + 1) < n := by
              by_cases hA : ∃ p ∈ P.boxes,
                  p.1.lo (d + 1) < (P.approx_median levelsOf (d + 1) rand s2.2).1
              · obtain ⟨p0, hp0, hp0lt⟩ := hA
                have hlt : (P.boxes.filter fun e =>
                    !decide (e.1.lo (d + 1) <
                      (P.approx_median levelsOf (d + 1) rand s2.2).1)).length <
                    P.boxes.length := by
                  rw [List.length_filter_lt_length_iff_exists]
                  exact ⟨p0, hp0, by simp [hp0lt]⟩
                have := hFlag_le (⟨P.boxes.filter fun e =>
                  !decide (e.1.lo (d + 1) < (P.approx_median levelsOf (d + 1) rand s2.2).1)⟩ :
                  BBoxSet) (P.approx_median levelsOf (d + 1) rand s2.2).1 (d + 1)
                simp only at this ⊢
                omega
              · push_neg at hA
                have hveq : P.boxes.filter (fun e =>
                    !decide (e.1.lo (d + 1) < (P.approx_median levelsOf (d + 1) rand s2.2).1)) =
                    P.boxes := by
                  rw [List.filter_eq_self]
                  intro a ha
                  simp only [Bool.not_eq_true', decide_eq_false_iff_not]
                  exact not_lt_of_le (hA a ha)
                have hflagR : hFlag ⟨P.boxes.filter fun e =>
                    !decide (e.1.lo (d + 1) < (P.approx_median levelsOf (d + 1) rand s2.2).1)⟩
                    (P.approx_median levelsOf (d + 1) rand s2.2).1 (d + 1) = 0 := by
                  rw [hFlag, if_pos]
                  constructor
                  · intro p hp
                    rw [hveq] at hp
                    exact hA p hp
                  · refine ⟨q, ?_, hqlo.symm⟩
                    rw [hveq]
                    exact hq
                have hflagP : hFlag P lo (d + 1) = 1 := by
                  rw [hFlag, if_neg]
                  rintro ⟨hanch, p0, hp0, hp0eq⟩
                  have hle1 : (P.approx_median levelsOf (d + 1) rand s2.2).1 ≤ lo := by
                    rw [← hp0eq]
                    exact hA p0 hp0
                  have hle2 : lo ≤ (P.approx_median levelsOf (d + 1) rand s2.2).1 := by
                    rw [hqlo]
                    exact hanch q hq
                  exact hmi (Or.inr (le_antisymm hle1 hle2))
                rw [hflagR, hveq]
                rw [hflagP] at hm
                simp only
                omega
            obtain ⟨fR, hfR⟩ := ihn _ hmR
              ⟨(intervalsLR I lo hi (d + 1)).boxes.filter fun e =>
                decide ((P.approx_median levelsOf (d + 1) rand s2.2).1 < e.1.hi (d + 1))⟩
              ⟨P.boxes.filter fun e =>
                !decide (e.1.lo (d + 1) < (P.approx_median levelsOf (d + 1) rand s2.2).1)⟩
              (P.approx_median levelsOf (d + 1) rand s2.2).1 hi s3.1 rand s3.2 le_rfl
            obtain ⟨s4, hs4⟩ := Option.isSome_iff_exists.mp hfR
            refine ⟨max (max f1 f2) (max fL fR) + 1, ?_⟩
            rw [hybrid_flex_succ, if_neg h1, if_neg hd0, if_neg h3]
            simp only [Nat.add_sub_cancel]
            rw [hybrid_flex_mono levelsOf C f1 (max (max f1 f2) (max fL fR))
              (le_trans (le_max_left _ _) (le_max_left _ _)) _ _ _ _ _ _ _ _ s1 hs1]
            simp only [Option.some_bind]
            rw [hybrid_flex_mono levelsOf C f2 (max (max f1 f2) (max fL fR))
              (le_trans (le_max_right _ _) (le_max_left _ _)) _ _ _ _ _ _ _ _ s2 hs2]
            simp only [Option.some_bind]
            rw [if_neg hmi]
            rw [hybrid_flex_mono levelsOf C fL (max (max f1 f2) (max fL fR))
              (le_trans (le_max_left _ _) (le_max_right _ _)) _ _ _ _ _ _ _ _ s3 hs3]
            simp only [Option.some_bind]
            rw [hybrid_flex_mono levelsOf C fR (max (max f1 f2) (max fL fR))
              (le_trans (le_max_right _ _) (le_max_right _ _)) _ _ _ _ _ _ _ _ s4 hs4]
            rfl

/-- C7: the hybrid engine terminates on every input — for every cutoff, RNG
stream, level-count function, box sets, segment bounds and axis, some finite
fuel completes the run — and, whenever the approximate median drawn at a node
equals `lo` or `hi`, the node returns the simulated one-way scan of
`intervals_lr` against `points` instead of recursing further on that
segment. -/
theorem C7_hybrid_terminates :
    (∀ (levelsOf : Nat → Nat) (C dim : Nat) (I P : BBoxSet) (lo hi : EInt)
        (out : AnswerFormat) (rand : Nat → Nat) (ctr : Nat),
      ∃ fuel, (hybrid_flex levelsOf C fuel I P lo hi dim out rand ctr).isSome) ∧
    (∀ (levelsOf : Nat → Nat) (C fuel dim : Nat) (I P : BBoxSet) (lo hi : EInt)
        (out : AnswerFormat) (rand : Nat → Nat) (ctr : Nat) (s1 s2 : AnswerFormat × Nat),
      ¬(I.empty ∨ P.empty ∨ hi ≤ lo) → ¬(dim = 0) → ¬(I.len < C ∨ P.len < C) →
      hybrid_flex levelsOf C fuel (intervalsM I lo hi dim) P ⊥ ⊤ (dim - 1) out rand ctr =
        some s1 →
      hybrid_flex levelsOf C fuel P (intervalsM I lo hi dim) ⊥ ⊤ (dim - 1) s1.1 rand s1.2 =
        some s2 →
      (P.approx_median levelsOf dim rand s2.2).1 = hi ∨
        (P.approx_median levelsOf dim rand s2.2).1 = lo →
      hybrid_flex levelsOf C (fuel + 1) I P lo hi dim out rand ctr =
        some (simulated_one_way_scan (intervalsLR I lo hi dim) P dim s2.1,
          (P.approx_median levelsOf dim rand s2.2).2)) := by
  constructor
  · intro levelsOf C dim I P lo hi out rand ctr
    exact hybrid_flex_terminates levelsOf C dim (2 * P.boxes.length + hFlag P lo dim)
      I P lo hi out rand ctr le_rfl
  · intro levelsOf C fuel dim I P lo hi out rand ctr s1 s2 h1 h2 h3 hs1 hs2 hmi
    rw [hybrid_flex_succ, if_neg h1, if_neg h2, if_neg h3, hs1, Option.some_bind, hs2,
      Option.some_bind, if_pos hmi]

/-- Witness for C7 at a concrete input: a one-box set on the segment `[0, 100)`
whose median draw returns `0 = lo`, so the node falls back to the simulated
scan. -/
theorem C7_hybrid_terminates_witness :
    hybrid_flex (fun _ => 1) 1 2 cxa cxa (0 : EInt) (100 : EInt) 1 (.Ident [])
        (fun _ => 0) 0 =
      some (simulated_one_way_scan (intervalsLR cxa (0 : EInt) (100 : EInt) 1) cxa 1
        (.Ident []), (cxa.approx_median (fun _ => 1) 1 (fun _ => 0) 0).2) :=
  C7_hybrid_terminates.2 (fun _ => 1) 1 1 1 cxa cxa (0 : EInt) (100 : EInt) (.Ident [])
    (fun _ => 0) 0 (.Ident [], 0) (.Ident [], 0) (by decide) (by decide) (by decide)
    (by decide) (by decide) (by decide)

/-! ## Claim C4 -/

/-- The identifier stored at a given position of a set. -/
def entryId (s : BBoxSet) (j : Nat) : Option Nat := (s.boxes.get? j).map fun e => e.2

theorem owsInner_both (i : BBoxZ) (iId maxDim iIdx pMinIdx : Nat)
    (pointsL : List (BBoxZ × Nat)) :
    ∀ (sfx : List (BBoxZ × Nat)) (pIdx : Nat) (l : List ((Nat × Nat) × (Nat × Nat))),
      (∀ j, sfx.get? j = pointsL.get? (pIdx + j)) →
      ∃ l2, owsInner i iId maxDim iIdx pMinIdx sfx pIdx (.Both l) = .Both (l ++ l2) ∧
        ∀ e ∈ l2, (∃ enP, pointsL.get? e.1.1 = some enP ∧ e.2.2 = enP.2) ∧
          e.2.1 = iId ∧ e.1.2 = pMinIdx ∧ pIdx ≤ e.1.1 := by
  intro sfx
  induction sfx with
  | nil =>
    intro pIdx l _
    exact ⟨[], by simp [owsInner], fun e he => absurd he (List.not_mem_nil e)⟩
  | cons hd tl ih =>
    intro pIdx l hinv
    obtain ⟨p, pId⟩ := hd
    have hinv2 : ∀ j, tl.get? j = pointsL.get? (pIdx + 1 + j) := by
      intro j
      have h := hinv (j + 1)
      rw [show pIdx + (j + 1) = pIdx + 1 + j from by omega] at h
      exact h
    rw [owsInner_cons]
    by_cases h1 : i.hi 0 ≤ p.lo 0
    · rw [if_pos h1]
      exact ⟨[], by simp, fun e he => absurd he (List.not_mem_nil e)⟩
    · rw [if_neg h1]
      by_cases h2 : pId = iId
      · rw [if_pos h2]
        obtain ⟨l2, heq, hp⟩ := ih (pIdx + 1) l hinv2
        exact ⟨l2, heq, fun e he => ⟨(hp e he).1, (hp e he).2.1, (hp e he).2.2.1,
          le_trans (Nat.le_succ pIdx) (hp e he).2.2.2⟩⟩
      · rw [if_neg h2]
        by_cases h3 : dimsRangeOk p i (List.range' 1 maxDim)
        · rw [if_neg (not_not_intro h3)]
          by_cases h4 : p.lo 0 = i.lo 0 ∧ pId > iId
          · rw [if_pos h4]
            obtain ⟨l2, heq, hp⟩ := ih (pIdx + 1) l hinv2
            exact ⟨l2, heq, fun e he => ⟨(hp e he).1, (hp e he).2.1, (hp e he).2.2.1,
              le_trans (Nat.le_succ pIdx) (hp e he).2.2.2⟩⟩
          · rw [if_neg h4]
            obtain ⟨l2, heq, hp⟩ :=
              ih (pIdx + 1) (l ++ [((pIdx, pMinIdx), (iId, pId))]) hinv2
            refine ⟨((pIdx, pMinIdx), (iId, pId)) :: l2, ?_, ?_⟩
            · have heq2 : owsInner i iId maxDim iIdx pMinIdx tl (pIdx + 1)
                  ((AnswerFormat.Both l).pushAll (iIdx, pIdx) (iId, pId)
                    ((pIdx, pMinIdx), (iId, pId))) =
                  .Both ((l ++ [((pIdx, pMinIdx), (iId, pId))]) ++ l2) := heq
              rw [heq2, List.append_assoc, List.singleton_append]
            · intro e he
              rcases List.mem_cons.mp he with he0 | he2
              · subst he0
                refine ⟨⟨(p, pId), ?_, rfl⟩, rfl, rfl, le_refl pIdx⟩
                have h0 := hinv 0
                rw [Nat.add_zero] at h0
                exact h0.symm
              · obtain ⟨hP, hIl, hMin, hle⟩ := hp e he2
                exact ⟨hP, hIl, hMin, le_trans (Nat.le_succ pIdx) hle⟩
        · rw [if_pos h3]
          obtain ⟨l2, heq, hp⟩ := ih (pIdx + 1) l hinv2
          exact ⟨l2, heq, fun e he => ⟨(hp e he).1, (hp e he).2.1, (hp e he).2.2.1,
            le_trans (Nat.le_succ pIdx) (hp e he).2.2.2⟩⟩

theorem owsOuter_both (pointsL : List (BBoxZ × Nat)) (maxDim : Nat) :
    ∀ (sfxI : List (BBoxZ × Nat)) (iIdx pMinIdx : Nat)
      (l : List ((Nat × Nat) × (Nat × Nat))),
      ∃ l2, owsOuter pointsL maxDim sfxI iIdx pMinIdx (.Both l) = .Both (l ++ l2) ∧
        ∀ e ∈ l2, (∃ enP, pointsL.get? e.1.1 = some enP ∧ e.2.2 = enP.2) ∧
          (∃ enI ∈ sfxI, e.2.1 = enI.2) ∧ e.1.2 ≤ e.1.1 := by
  intro sfxI
  induction sfxI with
  | nil =>
    intro iIdx pMinIdx l
    exact ⟨[], by simp [owsOuter], fun e he => absurd he (List.not_mem_nil e)⟩
  | cons hd restI ih =>
    intro iIdx pMinIdx l
    obtain ⟨i, iId⟩ := hd
    rw [owsOuter_cons]
    by_cases hend : pMinIdx + ((pointsL.drop pMinIdx).takeWhile
        fun e => decide (e.1.lo 0 < i.lo 0)).length = pointsL.length
    · rw [if_pos hend]
      exact ⟨[], by simp, fun e he => absurd he (List.not_mem_nil e)⟩
    · rw [if_neg hend]
      obtain ⟨l2a, heqa, hpa⟩ := owsInner_both i iId maxDim iIdx
        (pMinIdx + ((pointsL.drop pMinIdx).takeWhile
          fun e => decide (e.1.lo 0 < i.lo 0)).length)
        pointsL
        (pointsL.drop (pMinIdx + ((pointsL.drop pMinIdx).takeWhile
          fun e => decide (e.1.lo 0 < i.lo 0)).length))
        (pMinIdx + ((pointsL.drop pMinIdx).takeWhile
          fun e => decide (e.1.lo 0 < i.lo 0)).length)
        l (fun j => List.get?_drop pointsL _ j)
      obtain ⟨l2b, heqb, hpb⟩ := ih (iIdx + 1)
        (pMinIdx + ((pointsL.drop pMinIdx).takeWhile
          fun e => decide (e.1.lo 0 < i.lo 0)).length)
        (l ++ l2a)
      refine ⟨l2a ++ l2b, ?_, ?_⟩
      · rw [heqa, heqb, List.append_assoc]
      · intro e he
        rcases List.mem_append.mp he with hea | heb
        · obtain ⟨hP, hid, hmin, hle⟩ := hpa e hea
          exact ⟨hP, ⟨(i, iId), List.mem_cons_self _ _, hid⟩, hmin.trans_le hle⟩
        · obtain ⟨hP, ⟨enI, henI, hid⟩, hle⟩ := hpb e heb
          exact ⟨hP, ⟨enI, List.mem_cons_of_mem _ henI, hid⟩, hle⟩

theorem twsScanPoints_both (simOW : Bool) (i : BBoxZ) (iId maxDim iMinIdx : Nat)
    (pointsL : List (BBoxZ × Nat)) :
    ∀ (sfx : List (BBoxZ × Nat)) (pIdx : Nat) (l : List ((Nat × Nat) × (Nat × Nat))),
      (∀ j, sfx.get? j = pointsL.get? (pIdx + j)) →
      ∃ l2, twsScanPoints simOW i iId maxDim iMinIdx sfx pIdx (.Both l) = .Both (l ++ l2) ∧
        ∀ e ∈ l2, (∃ enP, pointsL.get? e.1.1 = some enP ∧ e.2.2 = enP.2) ∧
          e.2.1 = iId ∧ e.1.2 = iMinIdx := by
  intro sfx
  induction sfx with
  | nil =>
    intro pIdx l _
    exact ⟨[], by simp [twsScanPoints], fun e he => absurd he (List.not_mem_nil e)⟩
  | cons hd tl ih =>
    intro pIdx l hinv
    obtain ⟨p, pId⟩ := hd
    have hinv2 : ∀ j, tl.get? j = pointsL.get? (pIdx + 1 + j) := by
      intro j
      have h := hinv (j + 1)
      rw [show pIdx + (j + 1) = pIdx + 1 + j from by omega] at h
      exact h
    rw [twsScanPoints_cons]
    by_cases h1 : i.hi 0 ≤ p.lo 0
    · rw [if_pos h1]
      exact ⟨[], by simp, fun e he => absurd he (List.not_mem_nil e)⟩
    · rw [if_neg h1]
      by_cases h2 : pId = iId
      · rw [if_pos h2]
        exact ih (pIdx + 1) l hinv2
      · rw [if_neg h2]
        by_cases h3 : dimsRangeOk p i (List.range' 1 (dimRangeUpper simOW maxDim - 1))
        · rw [if_neg (not_not_intro h3)]
          by_cases h4 : simOW ∧ (¬ i.contains_in maxDim (p.lo maxDim) ∨
              (i.lo maxDim = p.lo maxDim ∧ iId > pId))
          · rw [if_pos h4]
            exact ih (pIdx + 1) l hinv2
          · rw [if_neg h4]
            obtain ⟨l2, heq, hp⟩ :=
              ih (pIdx + 1) (l ++ [((pIdx, iMinIdx), (iId, pId))]) hinv2
            refine ⟨((pIdx, iMinIdx), (iId, pId)) :: l2, ?_, ?_⟩
            · have heq2 : twsScanPoints simOW i iId maxDim iMinIdx tl (pIdx + 1)
                  ((AnswerFormat.Both l).pushAll (pIdx, iMinIdx) (iId, pId)
                    ((pIdx, iMinIdx), (iId, pId))) =
                  .Both ((l ++ [((pIdx, iMinIdx), (iId, pId))]) ++ l2) := heq
              rw [heq2, List.append_assoc, List.singleton_append]
            · intro e he
              rcases List.mem_cons.mp he with he0 | he2
              · subst he0
                refine ⟨⟨(p, pId), ?_, rfl⟩, rfl, rfl⟩
                have h0 := hinv 0
                rw [Nat.add_zero] at h0
                exact h0.symm
              · exact hp e he2
        · rw [if_pos h3]
          exact ih (pIdx + 1) l hinv2

theorem twsScanIntervals_both (simOW : Bool) (p : BBoxZ) (pId maxDim pMinIdx : Nat)
    (intervalsL : List (BBoxZ × Nat)) :
    ∀ (sfx : List (BBoxZ × Nat)) (iIdx : Nat) (l : List ((Nat × Nat) × (Nat × Nat))),
      (∀ j, sfx.get? j = intervalsL.get? (iIdx + j)) →
      ∃ l2, twsScanIntervals simOW p pId maxDim pMinIdx sfx iIdx (.Both l) =
          .Both (l ++ l2) ∧
        ∀ e ∈ l2, (∃ enI, intervalsL.get? e.1.2 = some enI ∧ e.2.2 = enI.2) ∧
          e.2.1 = pId ∧ e.1.1 = pMinIdx := by
  intro sfx
  induction sfx with
  | nil =>
    intro iIdx l _
    exact ⟨[], by simp [twsScanIntervals], fun e he => absurd he (List.not_mem_nil e)⟩
  | cons hd tl ih =>
    intro iIdx l hinv
    obtain ⟨i, iId⟩ := hd
    have hinv2 : ∀ j, tl.get? j = intervalsL.get? (iIdx + 1 + j) := by
      intro j
      have h := hinv (j + 1)
      rw [show iIdx + (j + 1) = iIdx + 1 + j from by omega] at h
      exact h
    rw [twsScanIntervals_cons]
    by_cases h1 : p.hi 0 ≤ i.lo 0
    · rw [if_pos h1]
      exact ⟨[], by simp, fun e he => absurd he (List.not_mem_nil e)⟩
    · rw [if_neg h1]
      by_cases h2 : iId = pId
      · rw [if_pos h2]
        exact ih (iIdx + 1) l hinv2
      · rw [if_neg h2]
        by_cases h3 : dimsRangeOk i p (List.range' 1 (dimRangeUpper simOW maxDim - 1))
        · rw [if_neg (not_not_intro h3)]
          by_cases h4 : simOW ∧ (¬ i.contains_in maxDim (p.lo maxDim) ∨
              (i.lo maxDim = p.lo maxDim ∧ iId > pId))
          · rw [if_pos h4]
            exact ih (iIdx + 1) l hinv2
          · rw [if_neg h4]
            obtain ⟨l2, heq, hp⟩ :=
              ih (iIdx + 1) (l ++ [((pMinIdx, iIdx), (pId, iId))]) hinv2
            refine ⟨((pMinIdx, iIdx), (pId, iId)) :: l2, ?_, ?_⟩
            · have heq2 : twsScanIntervals simOW p pId maxDim pMinIdx tl (iIdx + 1)
                  ((AnswerFormat.Both l).pushAll (pMinIdx, iIdx) (pId, iId)
                    ((pMinIdx, iIdx), (pId, iId))) =
                  .Both ((l ++ [((pMinIdx, iIdx), (pId, iId))]) ++ l2) := heq
              rw [heq2, List.append_assoc, List.singleton_append]
            · intro e he
              rcases List.mem_cons.mp he with he0 | he2
              · subst he0
                refine ⟨⟨(i, iId), ?_, rfl⟩, rfl, rfl⟩
                have h0 := hinv 0
                rw [Nat.add_zero] at h0
                exact h0.symm
              · exact hp e he2
        · rw [if_pos h3]
          exact ih (iIdx + 1) l hinv2

theorem twsAux_both (simOW : Bool) (maxDim : Nat) (IB PB : List (BBoxZ × Nat)) :
    ∀ (n : Nat) (sfxI sfxP : List (BBoxZ × Nat)) (iMinIdx pMinIdx : Nat)
      (l : List ((Nat × Nat) × (Nat × Nat))),
      (∀ j, sfxI.get? j = IB.get? (iMinIdx + j)) →
      (∀ j, sfxP.get? j = PB.get? (pMinIdx + j)) →
      ∃ l2, twsAux simOW maxDim n sfxI sfxP iMinIdx pMinIdx (.Both l) = .Both (l ++ l2) ∧
        ∀ e ∈ l2, ∃ enP enI, PB.get? e.1.1 = some enP ∧ IB.get? e.1.2 = some enI ∧
          ((e.2.1 = enI.2 ∧ e.2.2 = enP.2) ∨ (e.2.1 = enP.2 ∧ e.2.2 = enI.2)) := by
  intro n
  induction n with
  | zero =>
    intro sfxI sfxP iMinIdx pMinIdx l _ _
    exact ⟨[], by simp [twsAux], fun e he => absurd he (List.not_mem_nil e)⟩
  | succ n ihn =>
    intro sfxI sfxP iMinIdx pMinIdx l hinvI hinvP
    match sfxI, sfxP with
    | [], _ =>
      exact ⟨[], by simp [twsAux], fun e he => absurd he (List.not_mem_nil e)⟩
    | _ :: _, [] =>
      exact ⟨[], by simp [twsAux], fun e he => absurd he (List.not_mem_nil e)⟩
    | (i, iId) :: restI, (p, pId) :: restP =>
      rw [twsAux_cons]
      by_cases hb : i.lo 0 < p.lo 0
      · rw [if_pos hb]
        obtain ⟨l2a, heqa, hpa⟩ := twsScanPoints_both simOW i iId maxDim iMinIdx PB
          ((p, pId) :: restP) pMinIdx l hinvP
        have hinvI2 : ∀ j, restI.get? j = IB.get? (iMinIdx + 1 + j) := by
          intro j
          have h := hinvI (j + 1)
          rw [show iMinIdx + (j + 1) = iMinIdx + 1 + j from by omega] at h
          exact h
        obtain ⟨l2b, heqb, hpb⟩ := ihn restI ((p, pId) :: restP) (iMinIdx + 1) pMinIdx
          (l ++ l2a) hinvI2 hinvP
        refine ⟨l2a ++ l2b, by rw [heqa, heqb, List.append_assoc], ?_⟩
        intro e he
        rcases List.mem_append.mp he with hea | heb
        · obtain ⟨⟨enP, henP, hePid⟩, heIid, heMin⟩ := hpa e hea
          have hI0 : IB.get? iMinIdx = some (i, iId) := by
            have h := hinvI 0
            rw [Nat.add_zero] at h
            exact h.symm
          exact ⟨enP, (i, iId), henP, by rw [heMin]; exact hI0, Or.inl ⟨heIid, hePid⟩⟩
        · exact hpb e heb
      · rw [if_neg hb]
        obtain ⟨l2a, heqa, hpa⟩ := twsScanIntervals_both simOW p pId maxDim pMinIdx IB
          ((i, iId) :: restI) iMinIdx l hinvI
        have hinvP2 : ∀ j, restP.get? j = PB.get? (pMinIdx + 1 + j) := by
          intro j
          have h := hinvP (j + 1)
          rw [show pMinIdx + (j + 1) = pMinIdx + 1 + j from by omega] at h
          exact h
        obtain ⟨l2b, heqb, hpb⟩ := ihn ((i, iId) :: restI) restP iMinIdx (pMinIdx + 1)
          (l ++ l2a) hinvI hinvP2
        refine ⟨l2a ++ l2b, by rw [heqa, heqb, List.append_assoc], ?_⟩
        intro e he
        rcases List.mem_append.mp he with hea | heb
        · obtain ⟨⟨enI, henI, heIid⟩, hePid, heMin⟩ := hpa e hea
          have hP0 : PB.get? pMinIdx = some (p, pId) := by
            have h := hinvP 0
            rw [Nat.add_zero] at h
            exact h.symm
          exact ⟨(p, pId), enI, by rw [heMin]; exact hP0, henI, Or.inr ⟨hePid, heIid⟩⟩
        · exact hpb e heb

/-- A single interval with identifier 5. -/
def iA : BBoxSet := ⟨[(wBox 0 10, 5)]⟩

/-- Two points with identifiers 7 and 9, both inside the interval of `iA`. -/
def pB : BBoxSet := ⟨[(wBox 1 4, 7), (wBox 2 6, 9)]⟩

/-- C4 (counterexample to the claim as stated): `one_way_scan` emits the
`Both` element `((1, 0), (5, 9))`, yet position 1 carries identifier 5 in
neither input set (the intervals set has no position 1 and position 1 of the
points set carries 9): the first position is the point's index while the first
identifier is the interval's, and the second position is the point cursor, not
the interval's index. -/
theorem C4_counterexample :
    ((1, 0), (5, 9)) ∈ bothOf (one_way_scan iA pB 0 (.Both [])) ∧
    entryId iA 1 ≠ some 5 ∧ entryId pB 1 ≠ some 5 := by
  decide

/-- C4 (amended): what the `Both` sink actually receives.  In `one_way_scan`
every emitted element is `((p_idx, cursor), (i_id, p_id))`: the first position
indexes the points set and carries the second identifier, the first identifier
belongs to some interval of the intervals set, and the second position is the
point cursor, bounded by the first.  In `two_way_scan` and
`simulated_one_way_scan` every emitted element carries a points position
first and an intervals position second, with the identifier pair equal to the
two entries' identifiers either swapped (interval-pivot branch) or aligned
(point-pivot branch) with respect to the positions. -/
theorem C4_amended :
    (∀ (I P : BBoxSet) (maxDim : Nat), ∀ e ∈ bothOf (one_way_scan I P maxDim (.Both [])),
      (∃ enP, P.boxes.get? e.1.1 = some enP ∧ e.2.2 = enP.2) ∧
      (∃ enI ∈ I.boxes, e.2.1 = enI.2) ∧ e.1.2 ≤ e.1.1) ∧
    (∀ (d : Nat) (a b : BBoxSet), ∀ e ∈ bothOf (two_way_scan d a b (.Both [])),
      ∃ enP enI, b.boxes.get? e.1.1 = some enP ∧ a.boxes.get? e.1.2 = some enI ∧
        ((e.2.1 = enI.2 ∧ e.2.2 = enP.2) ∨ (e.2.1 = enP.2 ∧ e.2.2 = enI.2))) ∧
    (∀ (I P : BBoxSet) (maxDim : Nat),
      ∀ e ∈ bothOf (simulated_one_way_scan I P maxDim (.Both [])),
      ∃ enP enI, P.boxes.get? e.1.1 = some enP ∧ I.boxes.get? e.1.2 = some enI ∧
        ((e.2.1 = enI.2 ∧ e.2.2 = enP.2) ∨ (e.2.1 = enP.2 ∧ e.2.2 = enI.2))) := by
  refine ⟨?_, ?_, ?_⟩
  · intro I P maxDim e he
    obtain ⟨l2, heq, hp⟩ := owsOuter_both P.boxes maxDim I.boxes 0 0 []
    rw [show one_way_scan I P maxDim (.Both []) =
      owsOuter P.boxes maxDim I.boxes 0 0 (.Both []) from rfl, heq] at he
    simp only [bothOf, List.nil_append] at he
    exact hp e he
  · intro d a b e he
    obtain ⟨l2, heq, hp⟩ := twsAux_both false (d - 1) a.boxes b.boxes
      (a.boxes.length + b.boxes.length) a.boxes b.boxes 0 0 []
      (fun j => by rw [Nat.zero_add]) (fun j => by rw [Nat.zero_add])
    rw [show two_way_scan d a b (.Both []) = twsAux false (d - 1)
      (a.boxes.length + b.boxes.length) a.boxes b.boxes 0 0 (.Both []) from rfl, heq] at he
    simp only [bothOf, List.nil_append] at he
    exact hp e he
  · intro I P maxDim e he
    obtain ⟨l2, heq, hp⟩ := twsAux_both true maxDim I.boxes P.boxes
      (I.boxes.length + P.boxes.length) I.boxes P.boxes 0 0 []
      (fun j => by rw [Nat.zero_add]) (fun j => by rw [Nat.zero_add])
    rw [show simulated_one_way_scan I P maxDim (.Both []) = twsAux true maxDim
      (I.boxes.length + P.boxes.length) I.boxes P.boxes 0 0 (.Both []) from rfl, heq] at he
    simp only [bothOf, List.nil_append] at he
    exact hp e he

/-- Witness for the amended C4 at a concrete emitted element. -/
theorem C4_amended_witness :
    (∃ enP, pB.boxes.get? 1 = some enP ∧ (9 : Nat) = enP.2) ∧
    (∃ enI ∈ iA.boxes, (5 : Nat) = enI.2) ∧ (0 : Nat) ≤ 1 :=
  C4_amended.1 iA pB 0 ((1, 0), (5, 9)) (by decide)

/-! ## Claim C3 -/

/-- The level count computed by `BBoxSet::approx_median` in `set.rs` line 118:
`(0.91 * ((n as f64) / 137.0 + 1.0).ln().floor()) as u32`, raised to 1 when 0.
The `f64` arithmetic is modelled over the reals; note the source applies
`.floor()` to the logarithm BEFORE multiplying by 0.91 (method calls bind
tighter than `*`), and `as u32` truncates the non-negative result. -/
noncomputable def codeLevels (n : Nat) : Nat :=
  if (⌊(0.91 : ℝ) * ((⌊Real.log ((n : ℝ) / 137 + 1)⌋ : ℤ) : ℝ)⌋).toNat = 0 then 1
  else (⌊(0.91 : ℝ) * ((⌊Real.log ((n : ℝ) / 137 + 1)⌋ : ℤ) : ℝ)⌋).toNat

/-- The level count claimed by the specification:
`L = max(1, floor(0.91 * ln(n/137 + 1)))`, with the floor outside the
product. -/
noncomputable def specLevels (n : Nat) : Nat :=
  max 1 (⌊(0.91 : ℝ) * Real.log ((n : ℝ) / 137 + 1)⌋).toNat

theorem log2137_lt_three : Real.log (2137 / 137) < 3 := by
  rw [Real.log_lt_iff_lt_exp (by norm_num)]
  have h2 : Real.exp 3 = Real.exp 1 ^ (3 : ℕ) := by
    rw [← Real.exp_nat_mul]
    norm_num
  have h1 : (2.7182818283 : ℝ) ^ (3 : ℕ) < Real.exp 1 ^ (3 : ℕ) :=
    pow_lt_pow_left Real.exp_one_gt_d9 (by norm_num) (by norm_num)
  rw [h2]
  calc (2137 / 137 : ℝ) < 2.7182818283 ^ (3 : ℕ) := by norm_num
    _ < _ := h1

theorem log2137_ge : (200 / 91 : ℝ) ≤ Real.log (2137 / 137) := by
  rw [Real.le_log_iff_exp_le (by norm_num)]
  have h15 : Real.exp (11 / 5) ≤ 2137 / 137 := by
    have h5 : Real.exp (11 / 5) ^ (5 : ℕ) = Real.exp 11 := by
      rw [← Real.exp_nat_mul]
      norm_num
    have h11 : Real.exp 11 = Real.exp 1 ^ (11 : ℕ) := by
      rw [← Real.exp_nat_mul]
      norm_num
    have hb : Real.exp 1 ^ (11 : ℕ) ≤ (2.7182818286 : ℝ) ^ (11 : ℕ) :=
      pow_le_pow_left (le_of_lt (Real.exp_pos 1)) (le_of_lt Real.exp_one_lt_d9) 11
    have hc : (2.7182818286 : ℝ) ^ (11 : ℕ) ≤ (2137 / 137 : ℝ) ^ (5 : ℕ) := by norm_num
    have hd : Real.exp (11 / 5) ^ (5 : ℕ) ≤ (2137 / 137 : ℝ) ^ (5 : ℕ) := by
      rw [h5, h11]
      exact le_trans hb hc
    exact le_of_pow_le_pow_left (by norm_num) (by norm_num) hd
  exact le_trans (Real.exp_le_exp.mpr (by norm_num)) h15

theorem floor_log2137 : ⌊Real.log (2137 / 137)⌋ = 2 := by
  rw [Int.floor_eq_iff]
  constructor
  · push_cast
    exact le_trans (by norm_num) log2137_ge
  · push_cast
    exact lt_of_lt_of_le log2137_lt_three (by norm_num)

theorem codeLevels_2000 : codeLevels 2000 = 1 := by
  unfold codeLevels
  have harg : ((2000 : Nat) : ℝ) / 137 + 1 = 2137 / 137 := by norm_num
  rw [harg, floor_log2137]
  have hf : ⌊(0.91 : ℝ) * ((2 : ℤ) : ℝ)⌋ = 1 := by
    rw [Int.floor_eq_iff]
    constructor
    · push_cast
      norm_num
    · push_cast
      norm_num
  rw [hf]
  rfl

theorem specLevels_2000 : specLevels 2000 = 2 := by
  unfold specLevels
  have harg : ((2000 : Nat) : ℝ) / 137 + 1 = 2137 / 137 := by norm_num
  rw [harg]
  have hf : ⌊(0.91 : ℝ) * Real.log (2137 / 137)⌋ = 2 := by
    rw [Int.floor_eq_iff]
    constructor
    · push_cast
      calc (2 : ℝ) = 0.91 * (200 / 91) := by norm_num
        _ ≤ 0.91 * Real.log (2137 / 137) :=
          mul_le_mul_of_nonneg_left log2137_ge (by norm_num)
    · push_cast
      have hub : (0.91 : ℝ) * Real.log (2137 / 137) < 0.91 * 3 :=
        mul_lt_mul_of_pos_left log2137_lt_three (by norm_num)
      linarith
  rw [hf]
  rfl

/-- 2000 point-like boxes, indices as identifiers. -/
def s2000 : BBoxSet := ⟨(List.range 2000).map fun k => (wBox 0 1, k)⟩

/-- C3 (counterexample to the claim as stated): for a set of 2000 boxes the
source computes `0.91 * floor(ln(2000/137 + 1))` — the floor is taken before
the multiplication — giving 1 level and 3 RNG draws, while the claimed formula
`max(1, floor(0.91 * ln(2000/137 + 1)))` gives 2 levels and would require 9
draws. -/
theorem C3_counterexample :
    codeLevels 2000 = 1 ∧ specLevels 2000 = 2 ∧
    (s2000.approx_median codeLevels 0 (fun _ => 0) 0).2 = 3 ∧
    (3 : Nat) ≠ 3 ^ specLevels 2000 := by
  refine ⟨codeLevels_2000, specLevels_2000, ?_, ?_⟩
  · have h : (s2000.approx_median codeLevels 0 (fun _ => 0) 0).2 =
        0 + 3 ^ codeLevels s2000.len := rfl
    rw [h, show s2000.len = 2000 from by simp [s2000, BBoxSet.len], codeLevels_2000]
    norm_num
  · rw [specLevels_2000]
    norm_num

/-- C3 (amended): `approx_median` uses recursion depth
`L = max(1, (0.91 * floor(ln(n/137 + 1))) truncated)` — the floor applied to
the logarithm before the multiplication by 0.91 — and consumes exactly `3 ^ L`
RNG draws: the cursor advances by `3 ^ L`, and the recursive median pops
exactly `3 ^ levels` of the supplied indices. -/
theorem C3_amended :
    (∀ (s : BBoxSet) (dim : Nat) (rand : Nat → Nat) (ctr : Nat),
      (s.approx_median codeLevels dim rand ctr).2 = ctr + 3 ^ codeLevels s.len) ∧
    (∀ (items : List EInt) (levels : Nat) (idxs : List Nat),
      (approx_median_rec items levels idxs).2.length = idxs.length - 3 ^ levels) :=
  ⟨fun _ _ _ _ => rfl, fun items levels idxs => approx_median_rec_len items levels idxs⟩

/-! ## Claim C10 -/

/-- `PartialOrd::partial_cmp` on `f32`/`f64` keys, keys modelled as
`Option Int` with `none` playing the role of NaN: the comparison is `none`
exactly when either operand is NaN, otherwise the total comparison of the
values. -/
def pcmp (a b : Option Int) : Option Ordering :=
  match a, b with
  | some x, some y => some (compare x y)
  | _, _ => none

/-- One insertion step of `sort_by` (`set.rs` line 62) modelled as insertion
sort: the new entry `x` is compared with the nearest element of the reversed
sorted prefix first (Rust's insertion sort calls the comparator on
`(current, predecessor)` and shifts while it returns `Less`); a `none`
comparison is the `.unwrap()` panic, propagated as `none`. -/
def insertR (x : Option Int × Nat) :
    List (Option Int × Nat) → Option (List (Option Int × Nat))
  | [] => some [x]
  | y :: ys =>
    (pcmp x.1 y.1).bind fun o =>
      if o = Ordering.lt then (insertR x ys).map fun r => y :: r
      else some (x :: y :: ys)

/-- The insertion-sort walk over the input: `revPre` is the reversed sorted
prefix. -/
def sortAux : List (Option Int × Nat) → List (Option Int × Nat) →
    Option (List (Option Int × Nat))
  | revPre, [] => some revPre.reverse
  | revPre, x :: xs => (insertR x revPre).bind fun revPre2 => sortAux revPre2 xs

/-- `BBoxSet::sort` from `set.rs`, on the entries' `lo(0)` keys:
`self.boxes.sort_by(|(a, _), (b, _)| a.lo(0).partial_cmp(&b.lo(0)).unwrap())`,
with `none` modelling the panic of the `unwrap`. -/
def sort_by_lo0 (l : List (Option Int × Nat)) : Option (List (Option Int × Nat)) :=
  sortAux [] l

theorem pcmp_none_iff (a b : Option Int) : pcmp a b = none ↔ a = none ∨ b = none := by
  cases a <;> cases b <;> simp [pcmp]

theorem pcmp_right_none (a : Option Int) : pcmp a none = none := by
  cases a <;> rfl

theorem pcmp_left_none (b : Option Int) : pcmp none b = none := by
  cases b <;> rfl

theorem insertR_none_left (x : Option Int × Nat) (hx : x.1 = none)
    (y : Option Int × Nat) (ys : List (Option Int × Nat)) : insertR x (y :: ys) = none := by
  show (pcmp x.1 y.1).bind _ = none
  rw [hx, pcmp_left_none, Option.none_bind]

theorem insertR_ne_nil :
    ∀ (ys : List (Option Int × Nat)) (x : Option Int × Nat) (r : List (Option Int × Nat)),
      insertR x ys = some r → r ≠ [] := by
  intro ys
  induction ys with
  | nil =>
    intro x r h
    rw [show insertR x [] = some [x] from rfl, Option.some.injEq] at h
    rw [← h]
    exact List.cons_ne_nil x []
  | cons y ys ih =>
    intro x r h
    rw [show insertR x (y :: ys) = (pcmp x.1 y.1).bind fun o =>
      if o = Ordering.lt then (insertR x ys).map fun r => y :: r
      else some (x :: y :: ys) from rfl] at h
    cases hc : pcmp x.1 y.1 with
    | none => rw [hc, Option.none_bind] at h; exact absurd h (by simp)
    | some o =>
      rw [hc, Option.some_bind] at h
      by_cases ho : o = Ordering.lt
      · rw [if_pos ho] at h
        cases hrec : insertR x ys with
        | none => rw [hrec, Option.map_none'] at h; exact absurd h (by simp)
        | some r2 =>
          rw [hrec, Option.map_some', Option.some.injEq] at h
          rw [← h]
          exact List.cons_ne_nil y r2
      · rw [if_neg ho, Option.some.injEq] at h
        rw [← h]
        exact List.cons_ne_nil x (y :: ys)

theorem sortAux_panics :
    ∀ (xs revPre : List (Option Int × Nat)), revPre ≠ [] →
      (∃ e ∈ xs, e.1 = none) → sortAux revPre xs = none := by
  intro xs
  induction xs with
  | nil =>
    intro revPre _ hex
    obtain ⟨e, he, _⟩ := hex
    exact absurd he (List.not_mem_nil e)
  | cons x xs ih =>
    intro revPre hne hex
    obtain ⟨rh, rt, rfl⟩ : ∃ rh rt, revPre = rh :: rt := by
      cases revPre with
      | nil => exact absurd rfl hne
      | cons rh rt => exact ⟨rh, rt, rfl⟩
    show (insertR x (rh :: rt)).bind _ = none
    by_cases hx : x.1 = none
    · rw [insertR_none_left x hx rh rt, Option.none_bind]
    · have hex2 : ∃ e ∈ xs, e.1 = none := by
        obtain ⟨e, he, hkey⟩ := hex
        rcases List.mem_cons.mp he with rfl | he2
        · exact absurd hkey hx
        · exact ⟨e, he2, hkey⟩
      cases hins : insertR x (rh :: rt) with
      | none => rw [Option.none_bind]
      | some rp2 =>
        rw [Option.some_bind]
        obtain ⟨r2h, r2t, rfl⟩ : ∃ r2h r2t, rp2 = r2h :: r2t := by
          cases hq : rp2 with
          | nil => exact absurd hq (insertR_ne_nil (rh :: rt) x rp2 hins)
          | cons r2h r2t => exact ⟨r2h, r2t, rfl⟩
        exact ih (r2h :: r2t) (List.cons_ne_nil r2h r2t) hex2

theorem insertR_sorted :
    ∀ (ys : List (Option Int × Nat)) (x : Option Int × Nat), x.1 ≠ none →
      (∀ y ∈ ys, y.1 ≠ none) →
      List.Pairwise (fun a b => pcmp a.1 b.1 ≠ some Ordering.lt) ys →
      ∃ r, insertR x ys = some r ∧ r.Perm (x :: ys) ∧
        List.Pairwise (fun a b => pcmp a.1 b.1 ≠ some Ordering.lt) r := by
  intro ys
  induction ys with
  | nil =>
    intro x _ _ _
    exact ⟨[x], rfl, List.Perm.refl _, List.pairwise_singleton _ x⟩
  | cons y ys ih =>
    intro x hx hall hsort
    obtain ⟨vx, hvx⟩ : ∃ vx, x.1 = some vx := Option.ne_none_iff_exists'.mp hx
    obtain ⟨vy, hvy⟩ : ∃ vy, y.1 = some vy :=
      Option.ne_none_iff_exists'.mp (hall y (List.mem_cons_self _ _))
    have hcmp : pcmp x.1 y.1 = some (compare vx vy) := by
      rw [hvx, hvy]
      rfl
    have hstep : insertR x (y :: ys) = (pcmp x.1 y.1).bind fun o =>
        if o = Ordering.lt then (insertR x ys).map fun r => y :: r
        else some (x :: y :: ys) := rfl
    rw [hstep, hcmp, Option.some_bind]
    by_cases ho : compare vx vy = Ordering.lt
    · rw [if_pos ho]
      obtain ⟨r2, hr2, hperm2, hsort2⟩ := ih x hx
        (fun e he => hall e (List.mem_cons_of_mem _ he)) (List.pairwise_cons.mp hsort).2
      refine ⟨y :: r2, by rw [hr2, Option.map_some'], ?_, ?_⟩
      · exact ((hperm2.cons y).trans (List.Perm.swap x y ys)).symm.symm
      · rw [List.pairwise_cons]
        refine ⟨?_, hsort2⟩
        intro b hb
        rcases List.mem_cons.mp (hperm2.subset hb) with rfl | hb2
        · rw [hvy, hvx]
          intro hc
          rw [show pcmp (some vy) (some vx) = some (compare vy vx) from rfl,
            Option.some.injEq, compare_lt_iff_lt] at hc
          rw [compare_lt_iff_lt] at ho
          exact absurd hc (not_lt_of_lt ho)
        · exact (List.pairwise_cons.mp hsort).1 b hb2
    · rw [if_neg ho]
      refine ⟨x :: y :: ys, rfl, List.Perm.refl _, ?_⟩
      rw [List.pairwise_cons]
      refine ⟨?_, hsort⟩
      intro b hb
      rcases List.mem_cons.mp hb with rfl | hb2
      · rw [hvx, hvy]
        intro hc
        rw [show pcmp (some vx) (some vy) = some (compare vx vy) from rfl,
          Option.some.injEq] at hc
        exact ho hc
      · obtain ⟨vb, hvb⟩ : ∃ vb, b.1 = some vb :=
          Option.ne_none_iff_exists'.mp (hall b (List.mem_cons_of_mem _ hb2))
        have hyb := (List.pairwise_cons.mp hsort).1 b hb2
        rw [hvy, hvb] at hyb
        have hyb2 : vb ≤ vy := by
          rw [show pcmp (some vy) (some vb) = some (compare vy vb) from rfl] at hyb
          have : compare vy vb ≠ Ordering.lt := fun hc => hyb (by rw [hc])
          exact compare_ge_iff_ge.mp this
        have hxy2 : vy ≤ vx := compare_ge_iff_ge.mp ho
        rw [hvx, hvb]
        rw [show pcmp (some vx) (some vb) = some (compare vx vb) from rfl]
        intro hc
        rw [Option.some.injEq, compare_lt_iff_lt] at hc
        exact absurd hc (not_lt_of_le (le_trans hyb2 hxy2))

theorem sortAux_sorted :
    ∀ (xs revPre : List (Option Int × Nat)), (∀ e ∈ xs, e.1 ≠ none) →
      (∀ e ∈ revPre, e.1 ≠ none) →
      List.Pairwise (fun a b => pcmp a.1 b.1 ≠ some Ordering.lt) revPre →
      ∃ r, sortAux revPre xs = some r ∧ r.Perm (revPre ++ xs) ∧
        List.Pairwise (fun a b => pcmp a.1 b.1 ≠ some Ordering.gt) r := by
  intro xs
  induction xs with
  | nil =>
    intro revPre _ hall hsort
    refine ⟨revPre.reverse, rfl, by rw [List.append_nil]; exact revPre.reverse_perm, ?_⟩
    rw [List.pairwise_reverse]
    refine hsort.imp_of_mem ?_
    intro a b ha hb hab
    obtain ⟨va, hva⟩ : ∃ va, a.1 = some va := Option.ne_none_iff_exists'.mp (hall a ha)
    obtain ⟨vb, hvb⟩ : ∃ vb, b.1 = some vb := Option.ne_none_iff_exists'.mp (hall b hb)
    rw [hva, hvb] at hab ⊢
    rw [show pcmp (some va) (some vb) = some (compare va vb) from rfl] at hab
    rw [show pcmp (some vb) (some va) = some (compare vb va) from rfl]
    have hge : vb ≤ va := compare_ge_iff_ge.mp (fun hc => hab (by rw [hc]))
    intro hc
    rw [Option.some.injEq] at hc
    exact absurd (compare_gt_iff_gt.mp hc) (not_lt_of_le hge)
  | cons x xs ih =>
    intro revPre hallxs hallpre hsort
    obtain ⟨rp2, hrp2, hperm2, hsort2⟩ := insertR_sorted revPre x
      (hallxs x (List.mem_cons_self _ _)) hallpre hsort
    have hall2 : ∀ e ∈ rp2, e.1 ≠ none := by
      intro e he
      rcases List.mem_cons.mp (hperm2.subset he) with rfl | he2
      · exact hallxs e (List.mem_cons_self _ _)
      · exact hallpre e he2
    obtain ⟨r, hr, hperm, hsortr⟩ := ih rp2
      (fun e he => hallxs e (List.mem_cons_of_mem _ he)) hall2 hsort2
    refine ⟨r, ?_, ?_, hsortr⟩
    · show (insertR x revPre).bind _ = some r
      rw [hrp2, Option.some_bind]
      exact hr
    · exact (hperm.trans (hperm2.append_right xs)).trans List.perm_middle.symm

/-- C10: with `lo(0)` keys modelled as `Option Int` (`none` standing for a NaN
endpoint, incomparable to everything), `BBoxSet::sort` panics — the comparator
unwraps the `None` of `partial_cmp` — on every set of at least two entries in
which some entry's key is not comparable to another entry's key; and when all
keys are pairwise comparable it never panics and returns a permutation of the
entries that is non-decreasing in the key. -/
theorem C10_sort_behaviour :
    (∀ (l : List (Option Int × Nat)), 2 ≤ l.length →
      (∃ x ∈ l, ∃ y ∈ l, pcmp x.1 y.1 = none) → sort_by_lo0 l = none) ∧
    (∀ (l : List (Option Int × Nat)), (∀ e ∈ l, e.1 ≠ none) →
      ∃ r, sort_by_lo0 l = some r ∧ r.Perm l ∧
        List.Pairwise (fun a b => pcmp a.1 b.1 ≠ some Ordering.gt) r) := by
  constructor
  · intro l hlen hex
    have hnone : ∃ e ∈ l, e.1 = none := by
      obtain ⟨x, hxm, y, hym, hpc⟩ := hex
      rcases (pcmp_none_iff x.1 y.1).mp hpc with h | h
      · exact ⟨x, hxm, h⟩
      · exact ⟨y, hym, h⟩
    obtain ⟨a, rest, rfl⟩ : ∃ a rest, l = a :: rest := by
      cases l with
      | nil => exact absurd hlen (by norm_num)
      | cons a rest => exact ⟨a, rest, rfl⟩
    show (insertR a []).bind (fun revPre2 => sortAux revPre2 rest) = none
    rw [show insertR a [] = some [a] from rfl, Option.some_bind]
    obtain ⟨e, he, hkey⟩ := hnone
    rcases List.mem_cons.mp he with rfl | he2
    · obtain ⟨b, rest2, rfl⟩ : ∃ b rest2, rest = b :: rest2 := by
        cases rest with
        | nil => exact absurd hlen (by norm_num)
        | cons b rest2 => exact ⟨b, rest2, rfl⟩
      show (insertR b [e]).bind (fun revPre2 => sortAux revPre2 rest2) = none
      rw [show insertR b [e] = (pcmp b.1 e.1).bind (fun o =>
          if o = Ordering.lt then (insertR b []).map fun r => e :: r
          else some (b :: [e])) from rfl,
        hkey, pcmp_right_none, Option.none_bind, Option.none_bind]
    · exact sortAux_panics rest [a] (List.cons_ne_nil a []) ⟨e, he2, hkey⟩
  · intro l hall
    obtain ⟨r, hr, hperm, hsort⟩ := sortAux_sorted l [] hall
      (fun e he => absurd he (List.not_mem_nil e)) List.Pairwise.nil
    exact ⟨r, hr, by rw [List.nil_append] at hperm; exact hperm, hsort⟩

/-- Witness for C10 at concrete inputs: a NaN key among two entries panics;
three comparable keys sort successfully. -/
theorem C10_sort_behaviour_witness :
    sort_by_lo0 [((none : Option Int), 0), (some 1, 1)] = none ∧
    ∃ r, sort_by_lo0 [((some 5 : Option Int), 0), (some 3, 1), (some 4, 2)] = some r ∧
      r.Perm [((some 5 : Option Int), 0), (some 3, 1), (some 4, 2)] ∧
      List.Pairwise (fun a b => pcmp a.1 b.1 ≠ some Ordering.gt) r :=
  ⟨C10_sort_behaviour.1 [((none : Option Int), 0), (some 1, 1)] (by decide)
      ⟨((none : Option Int), 0), by decide, (some 1, 1), by decide, by decide⟩,
    C10_sort_behaviour.2 [((some 5 : Option Int), 0), (some 3, 1), (some 4, 2)]
      (by decide)⟩
